import Mathlib

set_option maxRecDepth 8000

/-!
# Verification of the pyzx Quantomatic JSON codec

Shallow embedding of `pyzx/graph/jsonparser.py`: the phase string codec
(`_quanto_value_to_phase` / `_phase_to_quanto_value`) and the graph codec
(`json_to_graph` / `graph_to_json`), together with proofs about the
spec's claims for them.

Python strings are modelled as `List Char`, JSON values as the inductive
`JValue` (numbers as `ℚ`), Python `dict`s as insertion-ordered association
lists with replace-in-place update, and exceptions as `Except PyExc`.
External collaborators that are not part of the repository's source
(the graph backend, the scalar codec, stdlib `fractions.Fraction`) are
modelled from the spec, as marked in their doc comments.

Rational arithmetic inside the executable model is phrased through
`mkRat` (kernel-computable), with bridge lemmas relating it to the
ordinary `ℚ` operations.
-/

namespace PyzxJson

/-- Python exception outcomes of the codec functions. -/
inductive PyExc where
  | valueError
  | zeroDivisionError
  | keyError
  | typeError
  | unsupportedType
  | malformedHadamard
  | unknownVertexKind
  | edgeTypeZero
  | emptyPool
deriving DecidableEq

/-- Whitespace characters stripped by Python `str.strip()`. -/
def isPySpace (c : Char) : Bool :=
  c = ' ' || c = '\t' || c = '\n' || c = '\r' || c = '\x0b' || c = '\x0c'

/-- Python `s.strip()`. -/
def pyStrip (s : List Char) : List Char :=
  ((s.dropWhile isPySpace).reverse.dropWhile isPySpace).reverse

/-- Python `s.replace('\pi', '')`: delete every (non-overlapping,
left-to-right) occurrence of the three-character pattern `\pi`. -/
def removePi : List Char → List Char
  | [] => []
  | [c] => [c]
  | [c, d] => [c, d]
  | c :: d :: e :: rest =>
    if c = '\\' ∧ d = 'p' ∧ e = 'i' then removePi rest
    else c :: removePi (d :: e :: rest)

/-- Python `r'\pi' in s`. -/
def hasPi : List Char → Bool
  | [] => false
  | c :: rest => (decide (c = '\\') && rest.take 2 == ['p', 'i']) || hasPi rest

/-- Value of a decimal digit character. -/
def digitVal (c : Char) : Nat := c.toNat - 48

/-- Big-endian decimal value of a digit string. -/
def digitsVal (l : List Char) : Nat := l.foldl (fun a c => a * 10 + digitVal c) 0

/-- Fuel-driven big-endian decimal digit emitter (structural recursion,
so that it evaluates inside the kernel). -/
def natReprAux : Nat → Nat → List Char
  | 0, _ => []
  | fuel + 1, n =>
    if n = 0 then [] else natReprAux fuel (n / 10) ++ [Nat.digitChar (n % 10)]

/-- Decimal representation of a natural number (Python `str`). -/
def natRepr (n : Nat) : List Char :=
  if n = 0 then ['0'] else natReprAux (n + 1) n

/-- Decimal representation of an integer (Python `str`). -/
def intRepr (i : Int) : List Char :=
  if i < 0 then '-' :: natRepr i.natAbs else natRepr i.natAbs

/-- Python `s.startswith(c)` for a single character. -/
def headIs (c : Char) : List Char → Bool
  | [] => false
  | d :: _ => d = c

/-- Split a string at its first `/`, if any. -/
def splitSlash : List Char → List Char × Option (List Char)
  | [] => ([], none)
  | c :: rest =>
    if c = '/' then ([], some rest)
    else
      let p := splitSlash rest
      (c :: p.1, p.2)

/-- Modelled from the spec: Python stdlib `fractions.Fraction(string)`
(an external collaborator of the codec) restricted to the
`[sign] digits ['/' digits]` forms of an exact rational — the forms the
spec's phase grammar (§4.1, §6) produces; decimal-point, exponent and
underscore literals are not modelled.  Surrounding whitespace is
tolerated, an all-digit denominator of value zero raises
`ZeroDivisionError` (which the phase codec does not catch), anything
else raises `ValueError`. -/
def pyFraction (s : List Char) : Except PyExc ℚ :=
  let t := pyStrip s
  let sg : Int := if headIs '-' t then -1 else 1
  let t1 := if headIs '-' t || headIs '+' t then t.drop 1 else t
  let np := (splitSlash t1).1
  let dp := (splitSlash t1).2
  if np = [] ∨ ¬ (np.all Char.isDigit) then .error .valueError
  else
    match dp with
    | none => .ok (mkRat (sg * digitsVal np) 1)
    | some d =>
      if d = [] ∨ ¬ (d.all Char.isDigit) then .error .valueError
      else if digitsVal d = 0 then .error .zeroDivisionError
      else .ok (mkRat (sg * digitsVal np) (digitsVal d))

/-- Tail of `_quanto_value_to_phase` after the pi marker has been
removed and the remainder stripped: the two `startswith` rewrites and the
final `Fraction` parse (`r = "-1"+r[1:]`, `r = "1"+r`,
`Fraction(str(r)) if r else Fraction(1)`). -/
def quantoTail (r0 : List Char) : Except PyExc ℚ :=
  let r1 := if headIs '-' r0 then '-' :: '1' :: r0.drop 1 else r0
  let r2 := if headIs '/' r1 then '1' :: r1 else r1
  if r2 = [] then .ok 1 else pyFraction r2

/-- `jsonparser._quanto_value_to_phase`: decode a Quantomatic phase
string to an exact rational (the coefficient of π). -/
def _quanto_value_to_phase (s : List Char) : Except PyExc ℚ :=
  if s = [] then .ok 0
  else if hasPi s then quantoTail (pyStrip (removePi s))
  else pyFraction s

/-- `jsonparser._phase_to_quanto_value`: encode an exact rational phase
as a Quantomatic phase string. -/
def _phase_to_quanto_value (p : ℚ) : List Char :=
  if p = 0 then []
  else
    let v : List Char :=
      if p.num = -1 then ['-'] else if p.num = 1 then [] else intRepr p.num
    let d : List Char := if p.den ≠ 1 then '/' :: natRepr p.den else []
    v ++ ['\\', 'p', 'i'] ++ d

/-! ## JSON values and association lists (Python dicts) -/

/-- JSON values, i.e. the Python objects produced by `json.loads`;
numbers are modelled as exact rationals. -/
inductive JValue where
  | null
  | bool (b : Bool)
  | num (q : ℚ)
  | str (s : String)
  | arr (l : List JValue)
  | obj (l : List (String × JValue))

/-- Python truthiness of a JSON value. -/
def JValue.truthy : JValue → Bool
  | .null => false
  | .bool b => b
  | .num q => !(decide (q = 0))
  | .str s => !(decide (s = ""))
  | .arr l => !l.isEmpty
  | .obj l => !l.isEmpty

/-- Python `v == s` for a string literal `s`: equality is `False`
(never an error) when `v` is not a string. -/
def jEqStr (v : JValue) (s : String) : Bool :=
  match v with
  | .str t => decide (t = s)
  | _ => false

/-- Lookup in an insertion-ordered association list (Python `dict`
indexing; keys are unique in every list this development builds). -/
def lookAssoc {κ : Type} [DecidableEq κ] {α : Type} : List (κ × α) → κ → Option α
  | [], _ => none
  | (k', v) :: t, k => if k' = k then some v else lookAssoc t k

/-- Python `dict` assignment `d[k] = v`: replace in place when the key
is present (keeping its position), else append. -/
def updAssoc {κ : Type} [DecidableEq κ] {α : Type} : List (κ × α) → κ → α → List (κ × α)
  | [], k, v => [(k, v)]
  | (k', v') :: t, k, v => if k' = k then (k, v) :: t else (k', v') :: updAssoc t k v

/-- Python `k in d`. -/
def memA {κ : Type} [DecidableEq κ] {α : Type} (l : List (κ × α)) (k : κ) : Bool :=
  (lookAssoc l k).isSome

/-- Python `d[k].append(x)` for a dict of lists with `k` present. -/
def appAssoc {κ : Type} [DecidableEq κ] {α : Type}
    (l : List (κ × List α)) (k : κ) (x : α) : List (κ × List α) :=
  l.map (fun p => if p.1 = k then (p.1, p.2 ++ [x]) else p)

/-- Python `list.remove(x)` wrapped in `try/except: pass`: drop the
first occurrence if present, otherwise do nothing. -/
def removeFirst (l : List String) (s : String) : List String :=
  match l with
  | [] => []
  | x :: t => if x = s then t else x :: removeFirst t s

/-! ## Kernel-computable rational helpers

`Rat.add`/`Rat.mul`/`Rat.div` do not reduce inside the kernel, so the
executable model phrases its (few) rational computations through
`mkRat`; bridge lemmas below relate them to the ordinary `ℚ`
operations. -/

/-- Rational addition through `mkRat` (equal to `a + b`). -/
def qAdd (a b : ℚ) : ℚ := mkRat (a.num * b.den + b.num * a.den) (a.den * b.den)

/-- Rational halving through `mkRat` (equal to `a / 2`). -/
def qHalf (a : ℚ) : ℚ := mkRat a.num (a.den * 2)

/-- Python `round(x, 3)`: round to a multiple of 1/1000, ties to even
(banker's rounding). -/
def round3 (x : ℚ) : ℚ :=
  let y := mkRat (x.num * 1000) x.den
  let n : Int := Int.fdiv y.num y.den
  let r2 : Int := y.num - n * y.den
  let k : Int :=
    if 2 * r2 > (y.den : Int) then n + 1
    else if 2 * r2 < (y.den : Int) then n
    else if n % 2 = 0 then n else n + 1
  mkRat k 1000

/-- The decoder's `if q == int(q): q = int(q)` normalisation: it changes
the Python type (float to int) but never the numeric value; on `ℚ` it is
the identity, written out for fidelity to the source. -/
def pyNormNum (q : ℚ) : ℚ := if q.den = 1 then ((q.num : ℤ) : ℚ) else q

/-! ## The internal graph API (external collaborator, modelled from the spec) -/

/-- Vertex kinds (spec §3; pyzx `VertexType`, which `src/` imports from
the absent `pyzx/utils.py`). -/
inductive VertexType where
  | BOUNDARY
  | Z
  | X
  | H_BOX
  | W_INPUT
  | W_OUTPUT
deriving DecidableEq

/-- Edge kinds (spec §3; pyzx `EdgeType`).  `W_IO_EDGE` models pyzx's
`EdgeType.W_IO`. -/
inductive EdgeType where
  | SIMPLE
  | HADAMARD
  | W_IO_EDGE
deriving DecidableEq

/-- Modelled from the spec (§3, §6): one vertex record of the internal
graph backend (the absent `BaseGraph`/`GraphS`): kind, lane/depth
coordinates, phase, ground flag and the open `vdata` annotation map. -/
structure GVert where
  ty : VertexType := .BOUNDARY
  qubit : ℚ := 0
  row : ℚ := 0
  phase : ℚ := 0
  ground : Bool := false
  vdata : List (String × JValue) := []

/-- Modelled from the spec (§3, §6): the internal diagram.  Vertices are
identified by `Nat` ids, listed in creation = iteration order; edges are
listed in insertion order with their (min,max)-normalised endpoint pair;
the scalar is modelled by its serialised JSON form (the spec's
`ScalarCodec` collaborator serialises/deserialises it exactly, so both
maps below are the identity on this representation). -/
structure Graph where
  verts : List (Nat × GVert) := []
  edgeList : List ((Nat × Nat) × EdgeType) := []
  inputs : List Nat := []
  outputs : List Nat := []
  scalar : JValue := .null
  fresh : Nat := 0

/-- Modelled from the spec (§2): `Scalar.from_json`. -/
def Scalar.from_json (v : JValue) : JValue := v

/-- Modelled from the spec (§2): `Scalar.to_json`. -/
def Scalar.to_json (v : JValue) : JValue := v

/-- Modelled from the spec (§6): `g.add_vertex(ty, qubit, row)` returns
the fresh vertex id (pyzx defaults: boundary kind, coordinates `-1`). -/
def Graph.add_vertex (g : Graph) (ty : VertexType := .BOUNDARY)
    (qubit : ℚ := -1) (row : ℚ := -1) : Graph × Nat :=
  (⟨g.verts ++ [(g.fresh, { ty := ty, qubit := qubit, row := row })],
    g.edgeList, g.inputs, g.outputs, g.scalar, g.fresh + 1⟩, g.fresh)

/-- Update one vertex record in place. -/
def Graph.updVert (g : Graph) (v : Nat) (f : GVert → GVert) : Graph :=
  { g with verts := g.verts.map (fun p => if p.1 = v then (p.1, f p.2) else p) }

/-- Modelled from the spec (§6): `g.set_type(v, ty)`. -/
def Graph.set_type (g : Graph) (v : Nat) (ty : VertexType) : Graph :=
  g.updVert v (fun w => { w with ty := ty })

/-- Modelled from the spec (§6): `g.set_phase(v, p)`. -/
def Graph.set_phase (g : Graph) (v : Nat) (p : ℚ) : Graph :=
  g.updVert v (fun w => { w with phase := p })

/-- Modelled from the spec (§6): `g.set_ground(v)`. -/
def Graph.set_ground (g : Graph) (v : Nat) : Graph :=
  g.updVert v (fun w => { w with ground := true })

/-- Modelled from the spec (§6): `g.set_vdata(v, key, val)`. -/
def Graph.set_vdata (g : Graph) (v : Nat) (key : String) (val : JValue) : Graph :=
  g.updVert v (fun w => { w with vdata := updAssoc w.vdata key val })

/-- Modelled from the spec (§6): `g.vdata(v, key)` with default `None`. -/
def Graph.vdata (g : Graph) (v : Nat) (key : String) : Option JValue :=
  (lookAssoc g.verts v).bind (fun w => lookAssoc w.vdata key)

/-- Modelled from the spec (§6): `g.set_inputs(l)`. -/
def Graph.set_inputs (g : Graph) (l : List Nat) : Graph := { g with inputs := l }

/-- Modelled from the spec (§6): `g.set_outputs(l)`. -/
def Graph.set_outputs (g : Graph) (l : List Nat) : Graph := { g with outputs := l }

/-- Modelled from the spec (§6): `g.edge(s, t)` — the pair key of an
unordered vertex pair, as GraphS normalises it: `(s,t)` if `s < t`,
else `(t,s)`. -/
def pairKey (s t : Nat) : Nat × Nat := if s < t then (s, t) else (t, s)

/-- Modelled from the spec (§6): `g.add_edge(e, ty)` (direct insertion,
used for `w_io` edges). -/
def Graph.add_edge (g : Graph) (e : Nat × Nat) (ty : EdgeType) : Graph :=
  { g with edgeList := g.edgeList ++ [(e, ty)] }

/-- Modelled from the spec (§4.2 step 6, §6): `g.add_edge_table(etab)` —
batch insertion of the accumulated `(simpleCount, hadamardCount)` pairs,
in table order.  On the counts this codec's round trips produce
(`(1,0)` or `(0,1)` per pair) any fusion rule inserts exactly that one
edge; the fusion of genuinely parallel counts is the collaborator's
unspecified rule and is modelled as plain insertion. -/
def Graph.add_edge_table (g : Graph)
    (etab : List ((Nat × Nat) × (Nat × Nat))) : Graph :=
  etab.foldl
    (fun g' p =>
      { g' with
        edgeList := g'.edgeList
          ++ List.replicate p.2.1 (p.1, EdgeType.SIMPLE)
          ++ List.replicate p.2.2 (p.1, EdgeType.HADAMARD) })
    g

/-! ## The decoder `json_to_graph` -/

/-- Python `j[k]` on a JSON object (`KeyError` when absent,
`TypeError`-style failure when `j` is not an object). -/
def jindex (j : JValue) (k : String) : Except PyExc JValue :=
  match j with
  | .obj l =>
    match lookAssoc l k with
    | some v => .ok v
    | none => .error .keyError
  | _ => .error .typeError

/-- Python `.items()` of a value that must be a dict. -/
def jitems (j : JValue) : Except PyExc (List (String × JValue)) :=
  match j with
  | .obj l => .ok l
  | _ => .error .typeError

/-- A JSON value used as a number (`TypeError` otherwise). -/
def jnum (j : JValue) : Except PyExc ℚ :=
  match j with
  | .num q => .ok q
  | _ => .error .typeError

/-- A JSON value used as a dict key for the decoder's string-keyed
`names`/`hadamards` maps.  Non-string values can never match those
string keys (Python would raise `KeyError`, or `TypeError` for
unhashable values); both failures are collapsed into `keyError`. -/
def jkey (j : JValue) : Except PyExc String :=
  match j with
  | .str s => .ok s
  | _ => .error .keyError

/-- Read `attr['annotation']['coord']` and map it to internal
coordinates `qubit = -c[1], row = c[0]` with the integer
normalisation. -/
def coordOf (c : JValue) : Except PyExc (ℚ × ℚ) :=
  match c with
  | .arr (c0 :: c1 :: _) => do
    let x ← jnum c0
    let y ← jnum c1
    .ok (pyNormNum (-y), pyNormNum x)
  | .arr _ => .error .keyError
  | _ => .error .typeError

/-- The phase of a `data.value` field: Python falsy values give phase 0
(`if not s: return Fraction(0)`), strings go through the phase codec,
any other truthy value fails (`TypeError` inside `'\pi' in s`). -/
def quantoOfJ (v : JValue) : Except PyExc ℚ :=
  if v.truthy = false then .ok 0
  else
    match v with
    | .str s => _quanto_value_to_phase s.data
    | _ => .error .typeError

/-- The decoder's Hadamard-stub test on a `node_vertices` entry (lines
58–59): `'data' in attr and attr['data']['type'] == "hadamard" and
attr['data']['is_edge'] == 'true'`, with the membership tests folded in;
a non-dict entry or non-dict `data` fails like Python's `in` operator. -/
def isHadamardStub (attr : JValue) : Except PyExc Bool :=
  match attr with
  | .obj fields =>
    match lookAssoc fields "data" with
    | none => .ok false
    | some d =>
      match d with
      | .obj dl =>
        .ok (((lookAssoc dl "type").elim false (fun tv => jEqStr tv "hadamard"))
          && ((lookAssoc dl "is_edge").elim false (fun ev => jEqStr ev "true")))
      | _ => .error .typeError
  | _ => .error .typeError

/-- Decoder state while the vertex sections are processed. -/
structure DecSt where
  g : Graph := {}
  names : List (String × Nat) := []
  hadamards : List (String × List Nat) := []
  inputs : List Nat := []
  outputs : List Nat := []

/-- The `data` branch of a `node_vertices` entry (lines 69–85): kind,
phase and ground flag of the freshly created vertex `v`. -/
def processNodeData (g : Graph) (v : Nat) (attrFields : List (String × JValue)) :
    Except PyExc Graph := do
  match lookAssoc attrFields "data" with
  | some dval => do
    let dl ← jitems dval
    let g1 ←
      match lookAssoc dl "type" with
      | none => .ok (g.set_type v .Z)
      | some tv =>
        if jEqStr tv "Z" then .ok (g.set_type v .Z)
        else if jEqStr tv "X" then .ok (g.set_type v .X)
        else if jEqStr tv "hadamard" then .ok (g.set_type v .H_BOX)
        else if jEqStr tv "W_input" then .ok (g.set_type v .W_INPUT)
        else if jEqStr tv "W_output" then .ok (g.set_type v .W_OUTPUT)
        else .error .unsupportedType
    let g2 ←
      match lookAssoc dl "value" with
      | some vv => do
        let ph ← quantoOfJ vv
        .ok (g1.set_phase v ph)
      | none => .ok (g1.set_phase v 0)
    let g3 :=
      if (lookAssoc dl "ground").elim false JValue.truthy then g2.set_ground v else g2
    .ok g3
  | none => .ok ((g.set_type v .Z).set_phase v 0)

/-- Copy the remaining annotation keys into `vdata`, skipping `skips`
(lines 86–89 resp. 110–113). -/
def copyAnnotations (g : Graph) (v : Nat) (ann : List (String × JValue))
    (skips : List String) : Graph :=
  ann.foldl (fun g' p => if p.1 ∈ skips then g' else g'.set_vdata v p.1 p.2) g

/-- One `node_vertices` entry (lines 57–89). -/
def processNode (st : DecSt) (name : String) (attr : JValue) : Except PyExc DecSt := do
  let stub ← isHadamardStub attr
  if stub then
    .ok { st with hadamards := updAssoc st.hadamards name [] }
  else do
    let ann ← jindex attr "annotation"
    let c ← jindex ann "coord"
    let (q, r) ← coordOf c
    let (g1, v) := st.g.add_vertex .BOUNDARY q r
    let g2 := g1.set_vdata v "name" (.str name)
    let attrFields ← jitems attr
    let g3 ← processNodeData g2 v attrFields
    let annFields ← jitems ann
    let g4 := copyAnnotations g3 v annFields ["coord"]
    .ok { st with g := g4, names := updAssoc st.names name v }

/-- One `wire_vertices` entry (lines 97–113). -/
def processWire (st : DecSt) (name : String) (attr : JValue) : Except PyExc DecSt := do
  let ann ← jindex attr "annotation"
  let annFields ← jitems ann
  let c ← jindex ann "coord"
  let (q, r) ← coordOf c
  let (g1, v) := st.g.add_vertex .BOUNDARY q r
  let g2 := g1.set_vdata v "name" (.str name)
  let inputs' :=
    if (lookAssoc annFields "input").elim false JValue.truthy
    then st.inputs ++ [v] else st.inputs
  let outputs' :=
    if (lookAssoc annFields "output").elim false JValue.truthy
    then st.outputs ++ [v] else st.outputs
  let g3 := copyAnnotations g2 v annFields ["boundary", "coord", "input", "output"]
  .ok { st with
    g := g3,
    names := updAssoc st.names name v,
    inputs := inputs',
    outputs := outputs' }

/-- Fold `processNode` over the `node_vertices` section. -/
def processNodes : List (String × JValue) → DecSt → Except PyExc DecSt
  | [], st => .ok st
  | (name, attr) :: rest, st => do
    processNodes rest (← processNode st name attr)

/-- Fold `processWire` over the `wire_vertices` section. -/
def processWires : List (String × JValue) → DecSt → Except PyExc DecSt
  | [], st => .ok st
  | (name, attr) :: rest, st => do
    processWires rest (← processWire st name attr)

/-- The fresh name of a synthesised stub–stub vertex:
`"v" + str(len(names))`. -/
def vName (k : Nat) : String := ⟨'v' :: natRepr k⟩

/-- Decoder state while `undir_edges` is processed: the graph, the two
name maps and the pair-count accumulation table. -/
structure ESt where
  g : Graph
  names : List (String × Nat)
  hadamards : List (String × List Nat)
  etab : List ((Nat × Nat) × (Nat × Nat)) := []

/-- One `undir_edges` entry (lines 119–141). -/
def processEdge (st : ESt) (edge : JValue) : Except PyExc ESt := do
  let n1v ← jindex edge "src"
  let n2v ← jindex edge "tgt"
  let n1 ← jkey n1v
  let n2 ← jkey n2v
  if memA st.hadamards n1 && memA st.hadamards n2 then
    let (g1, v) := st.g.add_vertex .Z
    let name := vName st.names.length
    let g2 := g1.set_vdata v "name" (.str name)
    .ok { st with
      g := g2,
      names := updAssoc st.names name v,
      hadamards := appAssoc (appAssoc st.hadamards n1 v) n2 v }
  else if memA st.hadamards n1 then
    match lookAssoc st.names n2 with
    | some w => .ok { st with hadamards := appAssoc st.hadamards n1 w }
    | none => .error .keyError
  else if memA st.hadamards n2 then
    match lookAssoc st.names n1 with
    | some w => .ok { st with hadamards := appAssoc st.hadamards n2 w }
    | none => .error .keyError
  else do
    let w1 ←
      match lookAssoc st.names n1 with
      | some w => .ok w
      | none => .error PyExc.keyError
    let w2 ←
      match lookAssoc st.names n2 with
      | some w => .ok w
      | none => .error PyExc.keyError
    if (lookAssoc (match edge with | .obj l => l | _ => []) "type").elim false
        (fun tv => jEqStr tv "w_io") then
      .ok { st with g := st.g.add_edge (pairKey w1 w2) .W_IO_EDGE }
    else
      let cur := (lookAssoc st.etab (pairKey w1 w2)).getD (0, 0)
      .ok { st with etab := updAssoc st.etab (pairKey w1 w2) (cur.1 + 1, cur.2) }

/-- Fold `processEdge` over the `undir_edges` section values. -/
def processEdges : List JValue → ESt → Except PyExc ESt
  | [], st => .ok st
  | e :: rest, st => do
    processEdges rest (← processEdge st e)

/-- The post-pass over the Hadamard stubs (lines 143–148): every stub
must have exactly two registered neighbours, else
`TypeError("Can't parse graphs with irregular Hadamard nodes")`; each
stub bumps the hadamard count of its neighbour pair. -/
def checkHadamards : List (String × List Nat) →
    List ((Nat × Nat) × (Nat × Nat)) →
    Except PyExc (List ((Nat × Nat) × (Nat × Nat)))
  | [], etab => .ok etab
  | (_, l) :: rest, etab =>
    match l with
    | [a, b] =>
      let e := pairKey a b
      let cur := (lookAssoc etab e).getD (0, 0)
      checkHadamards rest (updAssoc etab e (cur.1, cur.2 + 1))
    | _ => .error .malformedHadamard

/-- `jsonparser.json_to_graph` (lines 49–154).  The input is the parsed
JSON document (`json.loads` of the text, an external collaborator, is
modelled as the identity on documents). -/
def json_to_graph (j : JValue) : Except PyExc Graph := do
  let jf ← jitems j
  let nodes ← jitems ((lookAssoc jf "node_vertices").getD (.obj []))
  let st1 ← processNodes nodes {}
  let wires ← jitems ((lookAssoc jf "wire_vertices").getD (.obj []))
  let st2 ← processWires wires st1
  let g0 := (st2.g.set_inputs st2.inputs).set_outputs st2.outputs
  let edgeSec ← jitems ((lookAssoc jf "undir_edges").getD (.obj []))
  let st3 ← processEdges (edgeSec.map Prod.snd)
    { g := g0, names := st2.names, hadamards := st2.hadamards }
  let etab ← checkHadamards st3.hadamards st3.etab
  let g1 :=
    match lookAssoc jf "scalar" with
    | some sv => { st3.g with scalar := Scalar.from_json sv }
    | none => st3.g
  .ok (g1.add_edge_table etab)

/-! ## The encoder `graph_to_json` -/

/-- The pre-generated fresh-name pool `[pre+"0", pre+"1", ...)`. -/
def freenames (pre : Char) (count : Nat) : List String :=
  (List.range count).map (fun i => ⟨pre :: natRepr i⟩)

/-- Edge names `"e" + str(i)`. -/
def eName (i : Nat) : String := ⟨'e' :: natRepr i⟩

/-- Encoder state during the vertex loop. -/
structure EncSt where
  node_vs : List (String × JValue) := []
  wire_vs : List (String × JValue) := []
  names : List (Nat × String) := []
  fnv : List String := []
  fnb : List String := []

/-- The encoder's annotation assembly: extend the initial annotation
dict with every `vdata` key not already present (lines 186–189 and
209–212). -/
def extendAnn (ann0 : List (String × JValue)) (vdata : List (String × JValue)) :
    List (String × JValue) :=
  vdata.foldl (fun a p => if memA a p.1 then a else a ++ [(p.1, p.2)]) ann0

/-- The stored external name of a vertex: `g.vdata(v,'name')`, reused
when truthy.  Only string names are modelled (a non-string truthy
`vdata['name']` would be used as a raw dict key by the Python code and
coerced by `json.dumps`; no claim depends on that corner). -/
def storedName (w : GVert) : Option String :=
  match lookAssoc w.vdata "name" with
  | some (.str s) => if s = "" then none else some s
  | _ => none

/-- One vertex of the encoder's vertex loop (lines 168–212). -/
def encodeVertex (g : Graph) (st : EncSt) (v : Nat) (w : GVert) :
    Except PyExc EncSt := do
  let coord : JValue := .arr [.num (round3 w.row), .num (round3 (-w.qubit))]
  let (name, fnv1, fnb1) ←
    match storedName w with
    | none =>
      match w.ty with
      | .BOUNDARY =>
        match st.fnb with
        | [] => .error PyExc.emptyPool
        | nm :: rest => .ok (nm, st.fnv, rest)
      | _ =>
        match st.fnv with
        | [] => .error PyExc.emptyPool
        | nm :: rest => .ok (nm, rest, st.fnb)
    | some nm =>
      match w.ty with
      | .BOUNDARY => .ok (nm, st.fnv, removeFirst st.fnb nm)
      | _ => .ok (nm, removeFirst st.fnv nm, st.fnb)
  match w.ty with
  | .BOUNDARY =>
    let ann := extendAnn
      [("boundary", .bool true), ("coord", coord),
       ("input", .bool (g.inputs.contains v)), ("output", .bool (g.outputs.contains v))]
      w.vdata
    .ok { st with
      wire_vs := updAssoc st.wire_vs name (.obj [("annotation", .obj ann)]),
      names := st.names ++ [(v, name)], fnv := fnv1, fnb := fnb1 }
  | ty =>
    let dataTy : List (String × JValue) :=
      match ty with
      | .Z => [("type", .str "Z")]
      | .X => [("type", .str "X")]
      | .H_BOX => [("type", .str "hadamard"), ("is_edge", .str "false")]
      | .W_INPUT => [("type", .str "W_input")]
      | .W_OUTPUT => [("type", .str "W_output")]
      | .BOUNDARY => []
    let phase := _phase_to_quanto_value w.phase
    let data := dataTy
      ++ (if phase ≠ [] then [("value", .str ⟨phase⟩)] else [])
      ++ (if w.ground then [("ground", .bool true)] else [])
    let ann := extendAnn [("coord", coord)] w.vdata
    let entry : JValue := .obj
      (if data.isEmpty then [("annotation", .obj ann)]
       else [("annotation", .obj ann), ("data", .obj data)])
    .ok { st with
      node_vs := updAssoc st.node_vs name entry,
      names := st.names ++ [(v, name)], fnv := fnv1, fnb := fnb1 }

/-- Fold `encodeVertex` over the vertex iteration. -/
def encodeVerts (g : Graph) : List (Nat × GVert) → EncSt → Except PyExc EncSt
  | [], st => .ok st
  | (v, w) :: rest, st => do
    encodeVerts g rest (← encodeVertex g st v w)

/-- Encoder state during the edge loop. -/
structure EdgeEncSt where
  node_vs : List (String × JValue) := []
  edges : List (String × JValue) := []
  i : Nat := 0
  fnv : List String := []

/-- Vertex row/qubit accessors (spec §6); total on the model, with the
junk default 0 for an id that is not in the diagram (Python would raise
there, but the encoder's name lookup fails on such an edge anyway). -/
def Graph.row (g : Graph) (v : Nat) : ℚ :=
  ((lookAssoc g.verts v).getD {}).row

/-- Vertex qubit accessor (see `Graph.row`). -/
def Graph.qubit (g : Graph) (v : Nat) : ℚ :=
  ((lookAssoc g.verts v).getD {}).qubit

/-- One edge of the encoder's edge loop (lines 214–235). -/
def encodeEdge (g : Graph) (names : List (Nat × String)) (st : EdgeEncSt)
    (e : (Nat × Nat) × EdgeType) : Except PyExc EdgeEncSt := do
  let src := e.1.1
  let tgt := e.1.2
  let ns ←
    match lookAssoc names src with
    | some s => .ok s
    | none => .error PyExc.keyError
  let nt ←
    match lookAssoc names tgt with
    | some s => .ok s
    | none => .error PyExc.keyError
  match e.2 with
  | .SIMPLE =>
    .ok { st with
      edges := updAssoc st.edges (eName st.i)
        (.obj [("src", .str ns), ("tgt", .str nt)]),
      i := st.i + 1 }
  | .HADAMARD =>
    let x1 := g.row src
    let y1 := -g.qubit src
    let x2 := g.row tgt
    let y2 := -g.qubit tgt
    match st.fnv with
    | [] => .error PyExc.emptyPool
    | hadname :: rest =>
      .ok { st with
        node_vs := updAssoc st.node_vs hadname
          (.obj [("annotation", .obj
                    [("coord", .arr [.num (round3 (qHalf (qAdd x1 x2))),
                                     .num (round3 (qHalf (qAdd y1 y2)))])]),
                 ("data", .obj [("type", .str "hadamard"), ("is_edge", .str "true")])]),
        edges := updAssoc (updAssoc st.edges (eName st.i)
            (.obj [("src", .str ns), ("tgt", .str hadname)]))
          (eName (st.i + 1)) (.obj [("src", .str nt), ("tgt", .str hadname)]),
        i := st.i + 2,
        fnv := rest }
  | .W_IO_EDGE =>
    .ok { st with
      edges := updAssoc st.edges (eName st.i)
        (.obj [("src", .str ns), ("tgt", .str nt), ("type", .str "w_io")]),
      i := st.i + 1 }

/-- Fold `encodeEdge` over the edge iteration. -/
def encodeEdges (g : Graph) (names : List (Nat × String)) :
    List ((Nat × Nat) × EdgeType) → EdgeEncSt → Except PyExc EdgeEncSt
  | [], st => .ok st
  | e :: rest, st => do
    encodeEdges g names rest (← encodeEdge g names st e)

/-- `jsonparser.graph_to_json` (lines 156–245), producing the JSON
document (`json.dumps`, an external collaborator, is modelled as the
identity on documents). -/
def graph_to_json (g : Graph) (include_scalar : Bool := true) :
    Except PyExc JValue := do
  let st1 ← encodeVerts g g.verts
    { fnv := freenames 'v' (g.verts.length + g.edgeList.length),
      fnb := freenames 'b' g.verts.length }
  let st2 ← encodeEdges g st1.names g.edgeList
    { node_vs := st1.node_vs, fnv := st1.fnv }
  let d : List (String × JValue) :=
    [("wire_vertices", .obj st1.wire_vs),
     ("node_vertices", .obj st2.node_vs),
     ("undir_edges", .obj st2.edges)]
  .ok (.obj (if include_scalar then d ++ [("scalar", Scalar.to_json g.scalar)] else d))

/-! ## Derived forms used in the proofs -/

/-- The annotation-copy fold on a `vdata` map (the effect of
`copyAnnotations` on the copied-into vertex). -/
def foldSkip (vd : List (String × JValue)) (annF : List (String × JValue))
    (skips : List String) : List (String × JValue) :=
  annF.foldl (fun a p => if p.1 ∈ skips then a else updAssoc a p.1 p.2) vd

/-- The vertex record a successful `wire_vertices` entry decodes to. -/
def wireRec (name : String) (annF : List (String × JValue)) (q r : ℚ) : GVert :=
  { ty := .BOUNDARY, qubit := q, row := r, phase := 0, ground := false,
    vdata := foldSkip [("name", .str name)] annF ["boundary", "coord", "input", "output"] }

/-- Well-formedness of the decoder's growing graph: every vertex id is
below the fresh-id counter. -/
def VertIds (g : Graph) : Prop := ∀ p ∈ g.verts, p.1 < g.fresh

/-- Whether an external vertex entry's annotation marks `key` truthy
(follows the spec's words in §4.2 step 2). -/
def annTruthy (attr : JValue) (key : String) : Bool :=
  match attr with
  | .obj fields =>
    match lookAssoc fields "annotation" with
    | some (.obj annF) => (lookAssoc annF key).elim false JValue.truthy
    | _ => false
  | _ => false

/-- The boundary ids selected by a wire section, in iteration order,
with consecutively allocated vertex ids starting at `n` (follows the
spec's ordering contract in §4.2 step 2). -/
def wireSel (key : String) : List (String × JValue) → Nat → List Nat
  | [], _ => []
  | (_, attr) :: rest, n =>
    (if annTruthy attr key then [n] else []) ++ wireSel key rest (n + 1)

/-- The `wire_vertices` section of a document, as the decoder reads it
(empty when absent or malformed). -/
def wireSection (j : JValue) : List (String × JValue) :=
  match j with
  | .obj jf =>
    match (lookAssoc jf "wire_vertices").getD (.obj []) with
    | .obj l => l
    | _ => []
  | _ => []

/-- The `node_vertices` section of a document, as the decoder reads it
(empty when absent or malformed). -/
def nodeSection (j : JValue) : List (String × JValue) :=
  match j with
  | .obj jf =>
    match (lookAssoc jf "node_vertices").getD (.obj []) with
    | .obj l => l
    | _ => []
  | _ => []

/-- The entry keys of the non-stub `node_vertices` entries, in order. -/
def nonStubKeys : List (String × JValue) → List String
  | [] => []
  | (k, attr) :: rest =>
    match isHadamardStub attr with
    | .ok false => k :: nonStubKeys rest
    | _ => nonStubKeys rest

/-- Whether an entry's annotation object itself carries a `name` key
(which the decoder's annotation-copy loop would write over the
vertex's stored external name). -/
def annHasName (attr : JValue) : Bool :=
  match attr with
  | .obj fields =>
    match lookAssoc fields "annotation" with
    | some (.obj annF) => memA annF "name"
    | _ => false
  | _ => false

/-- The normalised neighbour pair of a Hadamard stub with exactly two
registered neighbours. -/
def stubPair : List Nat → Option (Nat × Nat)
  | [a, b] => some (pairKey a b)
  | _ => none

/-- A concrete document with a Hadamard stub referenced by exactly one
edge: node `h0` is a stub, node `n1` is a plain Z node, and the single
edge `n1 — h0` leaves the stub with one registered neighbour. -/
def c5doc : JValue := .obj
  [("node_vertices", .obj
     [("h0", .obj [("annotation", .obj [("coord", .arr [.num 0, .num 0])]),
                   ("data", .obj [("type", .str "hadamard"), ("is_edge", .str "true")])]),
      ("n1", .obj [("annotation", .obj [("coord", .arr [.num 1, .num 0])])])]),
   ("undir_edges", .obj
     [("e0", .obj [("src", .str "n1"), ("tgt", .str "h0")])])]

/-! Derived descriptions of the encoder's output (used to state the
encoder characterisation lemmas; they mirror `encodeVertex` and
`encodeEdge` branch by branch). -/

/-- The `coord` array emitted for a vertex. -/
def vCoord (w : GVert) : JValue := .arr [.num (round3 w.row), .num (round3 (-w.qubit))]

/-- The `data` section emitted for a non-boundary vertex. -/
def nodeEntryData (w : GVert) : List (String × JValue) :=
  (match w.ty with
   | .Z => [("type", .str "Z")]
   | .X => [("type", .str "X")]
   | .H_BOX => [("type", .str "hadamard"), ("is_edge", .str "false")]
   | .W_INPUT => [("type", .str "W_input")]
   | .W_OUTPUT => [("type", .str "W_output")]
   | .BOUNDARY => [])
  ++ (if _phase_to_quanto_value w.phase ≠ [] then
        [("value", .str ⟨_phase_to_quanto_value w.phase⟩)] else [])
  ++ (if w.ground then [("ground", .bool true)] else [])

/-- The `node_vertices` entry emitted for a non-boundary vertex. -/
def nodeEntry (w : GVert) : JValue :=
  .obj (if (nodeEntryData w).isEmpty then
          [("annotation", .obj (extendAnn [("coord", vCoord w)] w.vdata))]
        else
          [("annotation", .obj (extendAnn [("coord", vCoord w)] w.vdata)),
           ("data", .obj (nodeEntryData w))])

/-- The `wire_vertices` entry emitted for a boundary vertex. -/
def wireEntry (g : Graph) (v : Nat) (w : GVert) : JValue :=
  .obj [("annotation", .obj (extendAnn
    [("boundary", .bool true), ("coord", vCoord w),
     ("input", .bool (g.inputs.contains v)), ("output", .bool (g.outputs.contains v))]
    w.vdata))]

/-- The number of boundary vertices in a vertex list. -/
def boundCount (vl : List (Nat × GVert)) : Nat :=
  (vl.filter (fun p => decide (p.2.ty = .BOUNDARY))).length

/-- The number of non-boundary vertices in a vertex list. -/
def nonBoundCount (vl : List (Nat × GVert)) : Nat :=
  (vl.filter (fun p => !(decide (p.2.ty = .BOUNDARY)))).length

/-- The node entries, wire entries and name assignments produced by the
encoder's vertex loop on a diagram with no stored external names, given
the two name pools. -/
def encVertsSpec (g : Graph) :
    List (Nat × GVert) → List String → List String →
    List (String × JValue) × List (String × JValue) × List (Nat × String)
  | [], _, _ => ([], [], [])
  | (v, w) :: rest, fnv, fnb =>
    match w.ty with
    | .BOUNDARY =>
      let r := encVertsSpec g rest fnv fnb.tail
      (r.1, (fnb.headD "", wireEntry g v w) :: r.2.1, (v, fnb.headD "") :: r.2.2)
    | _ =>
      let r := encVertsSpec g rest fnv.tail fnb
      ((fnv.headD "", nodeEntry w) :: r.1, r.2.1, (v, fnv.headD "") :: r.2.2)

/-- The auxiliary stub entry emitted when a Hadamard edge `s — t` is
unfolded. -/
def auxEntry (g : Graph) (s t : Nat) : JValue :=
  .obj [("annotation", .obj [("coord", .arr
      [.num (round3 (qHalf (qAdd (g.row s) (g.row t)))),
       .num (round3 (qHalf (qAdd (-(g.qubit s)) (-(g.qubit t)))))])]),
    ("data", .obj [("type", .str "hadamard"), ("is_edge", .str "true")])]

/-- The number of Hadamard edges in an edge list. -/
def hadCount (el : List ((Nat × Nat) × EdgeType)) : Nat :=
  (el.filter (fun e => decide (e.2 = .HADAMARD))).length

/-- The number of edge names consumed by the encoder's edge loop. -/
def edgeNameCount : List ((Nat × Nat) × EdgeType) → Nat
  | [] => 0
  | e :: rest => (match e.2 with | .HADAMARD => 2 | _ => 1) + edgeNameCount rest

/-- The auxiliary node entries and edge entries produced by the
encoder's edge loop, given the name map, the remaining non-boundary
pool and the running edge index. -/
def encEdgesSpec (g : Graph) (names : List (Nat × String)) :
    List ((Nat × Nat) × EdgeType) → List String → Nat →
    List (String × JValue) × List (String × JValue)
  | [], _, _ => ([], [])
  | ((s, t), ty) :: rest, fnv, i =>
    match ty with
    | .SIMPLE =>
      let r := encEdgesSpec g names rest fnv (i + 1)
      (r.1, (eName i, .obj [("src", .str ((lookAssoc names s).getD "")),
                            ("tgt", .str ((lookAssoc names t).getD ""))]) :: r.2)
    | .HADAMARD =>
      let r := encEdgesSpec g names rest fnv.tail (i + 2)
      ((fnv.headD "", auxEntry g s t) :: r.1,
       (eName i, .obj [("src", .str ((lookAssoc names s).getD "")),
                       ("tgt", .str (fnv.headD ""))]) ::
       (eName (i + 1), .obj [("src", .str ((lookAssoc names t).getD "")),
                             ("tgt", .str (fnv.headD ""))]) :: r.2)
    | .W_IO_EDGE =>
      let r := encEdgesSpec g names rest fnv (i + 1)
      (r.1, (eName i, .obj [("src", .str ((lookAssoc names s).getD "")),
                            ("tgt", .str ((lookAssoc names t).getD "")),
                            ("type", .str "w_io")]) :: r.2)

/-- The non-boundary name pool the encoder starts from. -/
def vPool (g : Graph) : List String :=
  freenames 'v' (g.verts.length + g.edgeList.length)

/-- The boundary name pool the encoder starts from. -/
def bPool (g : Graph) : List String := freenames 'b' g.verts.length

/-- The encoder's vertex-loop output on a diagram with no stored
external names. -/
def encV (g : Graph) :
    List (String × JValue) × List (String × JValue) × List (Nat × String) :=
  encVertsSpec g g.verts (vPool g) (bPool g)

/-- The encoder's edge-loop output on a diagram with no stored external
names. -/
def encE (g : Graph) : List (String × JValue) × List (String × JValue) :=
  encEdgesSpec g (encV g).2.2 g.edgeList ((vPool g).drop (nonBoundCount g.verts)) 0

/-- The vertex record the decoder rebuilds from the encoded entry of a
non-boundary vertex `w` stored under entry key `nm`. -/
def decNodeRec (nm : String) (w : GVert) : GVert :=
  { ty := w.ty, qubit := pyNormNum (-(round3 (-w.qubit))),
    row := pyNormNum (round3 w.row), phase := w.phase, ground := w.ground,
    vdata := foldSkip [("name", .str nm)]
      (extendAnn [("coord", vCoord w)] w.vdata) ["coord"] }

/-- The vertex record the decoder rebuilds from the encoded entry of a
boundary vertex `(v, w)` of `g` stored under entry key `nm`. -/
def decWireRec (nm : String) (g : Graph) (v : Nat) (w : GVert) : GVert :=
  { ty := .BOUNDARY, qubit := pyNormNum (-(round3 (-w.qubit))),
    row := pyNormNum (round3 w.row), phase := 0, ground := false,
    vdata := foldSkip [("name", .str nm)]
      (extendAnn
        [("boundary", .bool true), ("coord", vCoord w),
         ("input", .bool (g.inputs.contains v)), ("output", .bool (g.outputs.contains v))]
        w.vdata)
      ["boundary", "coord", "input", "output"] }

/-- The claim C8 counterexample diagram: two Z vertices that both carry
the stored external name `x`. -/
def gC8 : Graph :=
  { verts := [(0, { ty := .Z, qubit := 0, row := 0, phase := 0, ground := false,
                    vdata := [("name", .str "x")] }),
              (1, { ty := .Z, qubit := 0, row := 1, phase := 0, ground := false,
                    vdata := [("name", .str "x")] })],
    edgeList := [], inputs := [], outputs := [], scalar := .null, fresh := 2 }

/-- The claim C10 counterexample diagram: an H-box and a Z-spider that
both carry the stored external name `x`. -/
def gC10 : Graph :=
  { verts := [(0, { ty := .H_BOX, qubit := 0, row := 0, phase := 0, ground := false,
                    vdata := [("name", .str "x")] }),
              (1, { ty := .Z, qubit := 0, row := 1, phase := 0, ground := false,
                    vdata := [("name", .str "x")] })],
    edgeList := [], inputs := [], outputs := [], scalar := .null, fresh := 2 }

/-! Derived descriptions for the full round trip (claim C1): the
decoder's output on an encoded document, vertex block by vertex
block. -/

/-- The non-boundary vertices of a diagram, in iteration order. -/
def nodeList (vl : List (Nat × GVert)) : List (Nat × GVert) :=
  vl.filter (fun p => !(decide (p.2.ty = .BOUNDARY)))

/-- The boundary vertices of a diagram, in iteration order. -/
def wireList (vl : List (Nat × GVert)) : List (Nat × GVert) :=
  vl.filter (fun p => decide (p.2.ty = .BOUNDARY))

/-- The Hadamard edges of a diagram, in iteration order. -/
def hadList (el : List ((Nat × Nat) × EdgeType)) : List ((Nat × Nat) × EdgeType) :=
  el.filter (fun e => decide (e.2 = .HADAMARD))

/-- Pool names paired with the non-boundary vertices they are assigned
to. -/
def nodePairs (g : Graph) : List (String × GVert) :=
  List.zipWith (fun nm p => (nm, p.2)) (vPool g) (nodeList g.verts)

/-- Pool names paired with the boundary vertices they are assigned
to. -/
def wirePairs (g : Graph) : List (String × (Nat × GVert)) :=
  List.zipWith (fun nm p => (nm, p)) (bPool g) (wireList g.verts)

/-- Auxiliary stub names paired with the endpoint pair of the Hadamard
edge they unfold. -/
def auxPairs (g : Graph) : List (String × (Nat × Nat)) :=
  List.zipWith (fun nm e => (nm, e.1)) ((vPool g).drop (nonBoundCount g.verts))
    (hadList g.edgeList)

/-- The vertex block the decoder creates from the non-boundary entries,
with ids starting at `F`. -/
def decNodeVerts : Nat → List (String × GVert) → List (Nat × GVert)
  | _, [] => []
  | F, q :: t => (F, decNodeRec q.1 q.2) :: decNodeVerts (F + 1) t

/-- The name map block the decoder builds for a run of entry keys with
ids starting at `F`. -/
def decNames : Nat → List String → List (String × Nat)
  | _, [] => []
  | F, nm :: t => (nm, F) :: decNames (F + 1) t

/-- The vertex block the decoder creates from the boundary entries of
the encoding of `g`, with ids starting at `F`. -/
def decWireVerts (g : Graph) : Nat → List (String × (Nat × GVert)) → List (Nat × GVert)
  | _, [] => []
  | F, q :: t => (F, decWireRec q.1 g q.2.1 q.2.2) :: decWireVerts g (F + 1) t

/-- The ids the decoder appends to the input (or output) sequence while
processing the boundary entries: the freshly created id of every
boundary vertex whose original id lies in `sel`. -/
def decFlags (sel : List Nat) : Nat → List (String × (Nat × GVert)) → List Nat
  | _, [] => []
  | F, q :: t => (if sel.contains q.2.1 then [F] else []) ++ decFlags sel (F + 1) t

/-- The decoder's complete name map after both vertex sections. -/
def decAllNames (g : Graph) : List (String × Nat) :=
  decNames 0 ((nodePairs g).map Prod.fst)
    ++ decNames (nodePairs g).length ((wirePairs g).map Prod.fst)

/-- The vertex correspondence a round trip induces: the encoder's name
for the vertex, resolved through the decoder's name map. -/
def phiOf (g : Graph) (v : Nat) : Nat :=
  (lookAssoc (decAllNames g) ((lookAssoc (encV g).2.2 v).getD "")).getD 0

/-- The isomorphism-relevant signature of a vertex record (claim C1:
kind, phase, ground flag; geometry is not part of the criterion). -/
def vertSig (w : GVert) : VertexType × ℚ × Bool := (w.ty, w.phase, w.ground)

/-- Diagram isomorphism along a vertex map `φ` in the sense of claim
C1: same multiset of (id, kind, phase, ground) after transport, same
ordered input/output sequences, same edge multiset by kind on unordered
endpoint pairs, same scalar. -/
def DiagramIso (φ : Nat → Nat) (g g' : Graph) : Prop :=
  List.Perm (g'.verts.map (fun p => (p.1, vertSig p.2)))
            (g.verts.map (fun p => (φ p.1, vertSig p.2)))
  ∧ g'.inputs = g.inputs.map φ
  ∧ g'.outputs = g.outputs.map φ
  ∧ List.Perm (g'.edgeList.map (fun e => (pairKey e.1.1 e.1.2, e.2)))
              (g.edgeList.map (fun e => (pairKey (φ e.1.1) (φ e.1.2), e.2)))
  ∧ g'.scalar = g.scalar

/-- The values of the encoded `undir_edges` section (entry names
dropped), given the name map and the remaining auxiliary pool. -/
def edgeVals (g : Graph) (names : List (Nat × String)) :
    List ((Nat × Nat) × EdgeType) → List String → List JValue
  | [], _ => []
  | ((s, t), ty) :: rest, fnv =>
    match ty with
    | .SIMPLE =>
      .obj [("src", .str ((lookAssoc names s).getD "")),
            ("tgt", .str ((lookAssoc names t).getD ""))] :: edgeVals g names rest fnv
    | .HADAMARD =>
      .obj [("src", .str ((lookAssoc names s).getD "")), ("tgt", .str (fnv.headD ""))]
        :: .obj [("src", .str ((lookAssoc names t).getD "")), ("tgt", .str (fnv.headD ""))]
        :: edgeVals g names rest fnv.tail
    | .W_IO_EDGE =>
      .obj [("src", .str ((lookAssoc names s).getD "")),
            ("tgt", .str ((lookAssoc names t).getD "")),
            ("type", .str "w_io")] :: edgeVals g names rest fnv

/-- The stub map after the edge pass: every stub holds the decoded ids
of its Hadamard edge's two endpoints. -/
def stubFill (ψ : Nat → Nat) (A : List (String × (Nat × Nat))) :
    List (String × List Nat) :=
  A.map (fun q => (q.1, [ψ q.2.1, ψ q.2.2]))

/-- The `w_io` edges the edge pass inserts directly, in order. -/
def wioEdges (ψ : Nat → Nat) (el : List ((Nat × Nat) × EdgeType)) :
    List ((Nat × Nat) × EdgeType) :=
  (el.filter (fun e => decide (e.2 = .W_IO_EDGE))).map
    (fun e => (pairKey (ψ e.1.1) (ψ e.1.2), .W_IO_EDGE))

/-- The edge-count table built from the plain edge entries. -/
def simpleTab (ψ : Nat → Nat) (el : List ((Nat × Nat) × EdgeType)) :
    List ((Nat × Nat) × (Nat × Nat)) :=
  (el.filter (fun e => decide (e.2 = .SIMPLE))).map
    (fun e => (pairKey (ψ e.1.1) (ψ e.1.2), (1, 0)))

/-- The hadamard-count entries the stub post-pass appends, in stub
order. -/
def hadTab (ψ : Nat → Nat) (A : List (String × (Nat × Nat))) :
    List ((Nat × Nat) × (Nat × Nat)) :=
  A.map (fun q => (pairKey (ψ q.2.1) (ψ q.2.2), (0, 1)))

/-- The edges `add_edge_table` inserts for a table of unit counts:
`(1,0)` gives one simple edge, `(0,1)` one hadamard edge. -/
def tabEdges (etab : List ((Nat × Nat) × (Nat × Nat))) :
    List ((Nat × Nat) × EdgeType) :=
  etab.map (fun p => (p.1, if p.2.1 = 0 then EdgeType.HADAMARD else EdgeType.SIMPLE))

/-- The claim C1 counterexample diagram: two X-spiders that both carry
the stored external name `y`. -/
def gC1 : Graph :=
  { verts := [(0, { ty := .X, qubit := 0, row := 0, phase := 0, ground := false,
                    vdata := [("name", .str "y")] }),
              (1, { ty := .X, qubit := 0, row := 1, phase := 0, ground := false,
                    vdata := [("name", .str "y")] })],
    edgeList := [], inputs := [], outputs := [], scalar := .null, fresh := 2 }

/-- The claim C1 witness diagram: a Z-spider wired to an output
boundary by a plain edge. -/
def gC1w : Graph :=
  { verts := [(0, { ty := .Z, qubit := 0, row := 0, phase := 0, ground := false,
                    vdata := [] }),
              (1, { ty := .BOUNDARY, qubit := 0, row := 1, phase := 0, ground := false,
                    vdata := [] })],
    edgeList := [((0, 1), .SIMPLE)], inputs := [], outputs := [1],
    scalar := .null, fresh := 2 }

/-- The general two-vertex diagram with a single Hadamard edge between
vertices `a` and `b` (claim C4's setting). -/
def gPair (a b : Nat) (wa wb : GVert) (sc : JValue) (f : Nat) : Graph :=
  ⟨[(a, wa), (b, wb)], [((a, b), .HADAMARD)], [], [], sc, f⟩

/-- The claim C4 counterexample diagram: two spiders that both carry
the stored external name `x`, joined by a Hadamard edge. -/
def gC4 : Graph :=
  { verts := [(0, { ty := .Z, qubit := 0, row := 0, phase := 0, ground := false,
                    vdata := [("name", .str "x")] }),
              (1, { ty := .X, qubit := 0, row := 1, phase := 0, ground := false,
                    vdata := [("name", .str "x")] })],
    edgeList := [((0, 1), .HADAMARD)], inputs := [], outputs := [],
    scalar := .null, fresh := 2 }

/-- The first vertex record of the claim C4 witness diagram. -/
def wC4a : GVert :=
  { ty := .Z, qubit := 0, row := 0, phase := 0, ground := false, vdata := [] }

/-- The second vertex record of the claim C4 witness diagram. -/
def wC4b : GVert :=
  { ty := .X, qubit := 0, row := 1, phase := 0, ground := false, vdata := [] }

/-- The H-box vertex record of the claim C10 witness diagram. -/
def wHB : GVert :=
  { ty := .H_BOX, qubit := 0, row := 0, phase := 0, ground := false, vdata := [] }

/-- The claim C10 witness diagram: a single H-box with no stored
external name. -/
def gC10w : Graph :=
  { verts := [(0, wHB)],
    edgeList := [], inputs := [], outputs := [], scalar := .null, fresh := 1 }

/-- The claim C8 witness diagram: a Z-spider joined to an output
boundary by a Hadamard edge, with no stored external names. -/
def gC8w : Graph :=
  { verts := [(0, { ty := .Z, qubit := 0, row := 0, phase := 0, ground := false,
                    vdata := [] }),
              (1, { ty := .BOUNDARY, qubit := 0, row := 1, phase := 0, ground := false,
                    vdata := [] })],
    edgeList := [((0, 1), .HADAMARD)], inputs := [], outputs := [1],
    scalar := .null, fresh := 2 }

/-- The claim C7 document: a single node entry with `coord = [0,0]` and
no `data` section. -/
def c7doc : JValue := .obj [("node_vertices", .obj
  [("v0", .obj [("annotation", .obj [("coord", .arr [.num 0, .num 0])])])])]

/-- A small concrete document used in examples: one clean node entry
`n0` and one clean wire entry `w0`. -/
def c9doc : JValue := .obj
  [("node_vertices", .obj [("n0", .obj [("annotation", .obj
      [("coord", .arr [.num 0, .num 0])])])]),
   ("wire_vertices", .obj [("w0", .obj [("annotation", .obj
      [("coord", .arr [.num 1, .num 0])])])])]

example : _quanto_value_to_phase ([] : List Char) = .ok 0 := rfl
example : _quanto_value_to_phase ['\\', 'p', 'i'] = .ok 1 := rfl
example : _quanto_value_to_phase ['-', '\\', 'p', 'i'] = .ok (-1) := rfl
example : _quanto_value_to_phase ['\\', 'p', 'i', '/', '2'] = .ok (mkRat 1 2) := rfl
example : _quanto_value_to_phase ['-', '3', '\\', 'p', 'i'] = .ok (-13) := rfl
example : _quanto_value_to_phase ['3', '/', '2'] = .ok (mkRat 3 2) := rfl
example : _phase_to_quanto_value (mkRat 1 2) = ['\\', 'p', 'i', '/', '2'] := rfl
example : _phase_to_quanto_value (-1) = ['-', '\\', 'p', 'i'] := rfl
example : _phase_to_quanto_value 3 = ['3', '\\', 'p', 'i'] := rfl
example : _phase_to_quanto_value (-2) = ['-', '2', '\\', 'p', 'i'] := rfl
example : _quanto_value_to_phase (_phase_to_quanto_value (-2)) = .ok (-12) := rfl

/-! ## Decimal digit lemmas -/

theorem natReprAux_eq (fuel n : Nat) (h : n < fuel) :
    natReprAux fuel n = ((Nat.digits 10 n).map Nat.digitChar).reverse := by
  induction fuel generalizing n with
  | zero => omega
  | succ f ih =>
    by_cases hn : n = 0
    · subst hn; simp [natReprAux]
    · have hdiv : n / 10 < f := by omega
      rw [natReprAux, if_neg hn, ih (n / 10) hdiv]
      conv_rhs =>
        rw [Nat.digits_def' (by norm_num : (1 : ℕ) < 10) (Nat.pos_of_ne_zero hn)]
      simp

theorem natRepr_eq (n : Nat) :
    natRepr n = if n = 0 then ['0']
      else ((Nat.digits 10 n).map Nat.digitChar).reverse := by
  by_cases hn : n = 0
  · simp [natRepr, hn]
  · rw [natRepr, if_neg hn, if_neg hn, natReprAux_eq n.succ n (Nat.lt_succ_self n)]

theorem digitChar_isDigit : ∀ d < 10, (Nat.digitChar d).isDigit = true := by decide

theorem digitVal_digitChar : ∀ d < 10, digitVal (Nat.digitChar d) = d := by decide

theorem mem_natRepr_isDigit (n : Nat) : ∀ c ∈ natRepr n, c.isDigit = true := by
  rw [natRepr_eq]
  by_cases hn : n = 0
  · simp [hn]
  · intro c hc
    rw [if_neg hn] at hc
    simp only [List.mem_reverse, List.mem_map] at hc
    obtain ⟨d, hd, rfl⟩ := hc
    exact digitChar_isDigit d (Nat.digits_lt_base (by norm_num) hd)

theorem natRepr_ne_nil (n : Nat) : natRepr n ≠ [] := by
  rw [natRepr_eq]
  by_cases hn : n = 0
  · simp [hn]
  · simp [hn, Nat.digits_ne_nil_iff_ne_zero]

theorem foldl_digitsVal (ds : List Nat) (a : Nat) (h : ∀ d ∈ ds, d < 10) :
    List.foldl (fun x c => x * 10 + digitVal c) a ((ds.map Nat.digitChar).reverse)
      = a * 10 ^ ds.length + Nat.ofDigits 10 ds := by
  induction ds generalizing a with
  | nil => simp
  | cons d ds ih =>
    simp only [List.map_cons, List.reverse_cons, List.foldl_append, List.foldl_cons,
      List.foldl_nil, List.length_cons, Nat.ofDigits_cons]
    rw [ih a (fun x hx => h x (List.mem_cons_of_mem d hx)),
      digitVal_digitChar d (h d (List.mem_cons_self d ds))]
    ring

theorem digitsVal_natRepr (n : Nat) : digitsVal (natRepr n) = n := by
  rw [natRepr_eq]
  by_cases hn : n = 0
  · simp [hn, digitsVal, digitVal]
  · rw [if_neg hn]
    unfold digitsVal
    rw [foldl_digitsVal _ 0 (fun d hd => Nat.digits_lt_base (by norm_num) hd)]
    simp [Nat.ofDigits_digits]

theorem digitsVal_one_cons (l : List Char) :
    digitsVal ('1' :: l) = List.foldl (fun x c => x * 10 + digitVal c) 1 l := by
  simp [digitsVal, digitVal]

theorem digitsVal_one_natRepr (n : Nat) :
    digitsVal ('1' :: natRepr n) = 10 ^ (natRepr n).length + n := by
  rw [digitsVal_one_cons, natRepr_eq]
  by_cases hn : n = 0
  · simp [hn, digitVal]
  · rw [if_neg hn,
      foldl_digitsVal _ 1 (fun d hd => Nat.digits_lt_base (by norm_num) hd)]
    simp [Nat.ofDigits_digits]

/-! ## Character class lemmas -/

theorem isDigit_ne_backslash {c : Char} (h : c.isDigit = true) : c ≠ '\\' := by
  rintro rfl; exact absurd h (by decide)

theorem isDigit_ne_minus {c : Char} (h : c.isDigit = true) : c ≠ '-' := by
  rintro rfl; exact absurd h (by decide)

theorem isDigit_ne_plus {c : Char} (h : c.isDigit = true) : c ≠ '+' := by
  rintro rfl; exact absurd h (by decide)

theorem isDigit_ne_slash {c : Char} (h : c.isDigit = true) : c ≠ '/' := by
  rintro rfl; exact absurd h (by decide)

theorem isDigit_not_space {c : Char} (h : c.isDigit = true) : isPySpace c = false := by
  have h1 : c ≠ ' ' := by rintro rfl; exact absurd h (by decide)
  have h2 : c ≠ '\t' := by rintro rfl; exact absurd h (by decide)
  have h3 : c ≠ '\n' := by rintro rfl; exact absurd h (by decide)
  have h4 : c ≠ '\r' := by rintro rfl; exact absurd h (by decide)
  have h5 : c ≠ '\x0b' := by rintro rfl; exact absurd h (by decide)
  have h6 : c ≠ '\x0c' := by rintro rfl; exact absurd h (by decide)
  simp [isPySpace, h1, h2, h3, h4, h5, h6]

/-! ## String helper lemmas -/

theorem dropWhile_eq_self_of (p : Char → Bool) (l : List Char)
    (h : ∀ c ∈ l, p c = false) : l.dropWhile p = l := by
  cases l with
  | nil => rfl
  | cons c t =>
    rw [List.dropWhile_cons, h c (List.mem_cons_self c t)]
    simp

theorem pyStrip_eq_self (l : List Char) (h : ∀ c ∈ l, isPySpace c = false) :
    pyStrip l = l := by
  unfold pyStrip
  rw [dropWhile_eq_self_of _ _ h,
    dropWhile_eq_self_of _ _ (fun c hc => h c (List.mem_reverse.mp hc)),
    List.reverse_reverse]

theorem removePi_cons_of_ne (c : Char) (h : c ≠ '\\') (l : List Char) :
    removePi (c :: l) = c :: removePi l := by
  match l with
  | [] => rfl
  | [d] => rfl
  | d :: e :: rest =>
    rw [removePi, if_neg]
    rintro ⟨rfl, -⟩
    exact h rfl

theorem removePi_of_no_backslash (l : List Char) (h : ∀ c ∈ l, c ≠ '\\') :
    removePi l = l := by
  induction l with
  | nil => rfl
  | cons c t ih =>
    rw [removePi_cons_of_ne c (h c (List.mem_cons_self c t)) t,
      ih (fun x hx => h x (List.mem_cons_of_mem c hx))]

theorem removePi_append_pi (a b : List Char) (ha : ∀ c ∈ a, c ≠ '\\')
    (hb : ∀ c ∈ b, c ≠ '\\') :
    removePi (a ++ '\\' :: 'p' :: 'i' :: b) = a ++ b := by
  induction a with
  | nil =>
    show removePi ('\\' :: 'p' :: 'i' :: b) = b
    rw [removePi, if_pos ⟨rfl, rfl, rfl⟩, removePi_of_no_backslash b hb]
  | cons c t ih =>
    show removePi (c :: (t ++ '\\' :: 'p' :: 'i' :: b)) = c :: (t ++ b)
    rw [removePi_cons_of_ne c (ha c (List.mem_cons_self c t)) _,
      ih (fun x hx => ha x (List.mem_cons_of_mem c hx))]

theorem hasPi_append_pi (a b : List Char) :
    hasPi (a ++ '\\' :: 'p' :: 'i' :: b) = true := by
  induction a with
  | nil => simp [hasPi]
  | cons c t ih => simp [hasPi, ih]

theorem splitSlash_of_no_slash (l : List Char) (h : ∀ c ∈ l, c ≠ '/') :
    splitSlash l = (l, none) := by
  induction l with
  | nil => rfl
  | cons c t ih =>
    rw [splitSlash, if_neg (h c (List.mem_cons_self c t))]
    simp [ih (fun x hx => h x (List.mem_cons_of_mem c hx))]

theorem splitSlash_append (a b : List Char) (ha : ∀ c ∈ a, c ≠ '/') :
    splitSlash (a ++ '/' :: b) = (a, some b) := by
  induction a with
  | nil => rfl
  | cons c t ih =>
    show splitSlash (c :: (t ++ '/' :: b)) = (c :: t, some b)
    rw [splitSlash, if_neg (ha c (List.mem_cons_self c t))]
    simp [ih (fun x hx => ha x (List.mem_cons_of_mem c hx))]

@[simp] theorem headIs_nil (c : Char) : headIs c [] = false := rfl

@[simp] theorem headIs_cons (c d : Char) (l : List Char) :
    headIs c (d :: l) = decide (d = c) := by
  simp [headIs]

/-! ## pyFraction on canonical numeral shapes -/

theorem pyFraction_digits (l : List Char) (hne : l ≠ [])
    (hd : ∀ c ∈ l, c.isDigit = true) :
    pyFraction l = .ok (digitsVal l) := by
  obtain ⟨x, t, rfl⟩ := List.exists_cons_of_ne_nil hne
  have hx := hd x (List.mem_cons_self x t)
  simp only [pyFraction]
  rw [pyStrip_eq_self _ (fun c hc => isDigit_not_space (hd c hc))]
  simp only [headIs_cons, decide_eq_false (isDigit_ne_minus hx),
    decide_eq_false (isDigit_ne_plus hx), Bool.or_self]
  rw [if_neg Bool.false_ne_true, if_neg Bool.false_ne_true,
    splitSlash_of_no_slash _ (fun c hc => isDigit_ne_slash (hd c hc))]
  simp only [List.all_eq_true]
  rw [if_neg (by push_neg; exact ⟨List.cons_ne_nil x t, fun c hc => hd c hc⟩)]
  simp [Rat.mkRat_one]

theorem pyFraction_neg_digits (l : List Char) (hne : l ≠ [])
    (hd : ∀ c ∈ l, c.isDigit = true) :
    pyFraction ('-' :: l) = .ok (-(digitsVal l : ℚ)) := by
  simp only [pyFraction]
  rw [pyStrip_eq_self _ (by
    intro c hc
    rcases List.mem_cons.mp hc with rfl | hc
    · decide
    · exact isDigit_not_space (hd c hc))]
  simp only [headIs_cons]
  have h2 : (decide True) = true := by decide
  simp only [h2, Bool.true_or, eq_self_iff_true, if_true, List.drop_succ_cons,
    List.drop_zero]
  rw [splitSlash_of_no_slash _ (fun c hc => isDigit_ne_slash (hd c hc))]
  have hall : l.all Char.isDigit = true := List.all_eq_true.mpr hd
  simp [hne, hall, Rat.mkRat_one]

theorem pyFraction_digits_slash (l m : List Char) (hlne : l ≠ []) (hmne : m ≠ [])
    (hl : ∀ c ∈ l, c.isDigit = true) (hm : ∀ c ∈ m, c.isDigit = true)
    (hden : digitsVal m ≠ 0) :
    pyFraction (l ++ '/' :: m) = .ok (mkRat (digitsVal l) (digitsVal m)) := by
  obtain ⟨x, t, rfl⟩ := List.exists_cons_of_ne_nil hlne
  have hx := hl x (List.mem_cons_self x t)
  simp only [pyFraction]
  rw [pyStrip_eq_self _ (by
    intro c hc
    rcases List.mem_append.mp hc with hc | hc
    · exact isDigit_not_space (hl c hc)
    · rcases List.mem_cons.mp hc with rfl | hc
      · decide
      · exact isDigit_not_space (hm c hc))]
  rw [show ((x :: t) ++ '/' :: m) = x :: (t ++ '/' :: m) from rfl]
  simp only [headIs_cons, decide_eq_false (isDigit_ne_minus hx),
    decide_eq_false (isDigit_ne_plus hx), Bool.or_self]
  rw [if_neg Bool.false_ne_true, if_neg Bool.false_ne_true]
  rw [show (x :: (t ++ '/' :: m)) = (x :: t) ++ '/' :: m from rfl]
  rw [splitSlash_append _ _ (fun c hc => isDigit_ne_slash (hl c hc))]
  simp only [List.all_eq_true]
  rw [if_neg (by push_neg; exact ⟨List.cons_ne_nil x t, fun c hc => hl c hc⟩)]
  rw [if_neg (by push_neg; exact ⟨hmne, fun c hc => hm c hc⟩), if_neg hden]
  simp

theorem hasPi_eq_false (l : List Char) (h : ∀ c ∈ l, c ≠ '\\') :
    hasPi l = false := by
  induction l with
  | nil => rfl
  | cons c t ih =>
    rw [hasPi, ih (fun x hx => h x (List.mem_cons_of_mem c hx)),
      decide_eq_false (h c (List.mem_cons_self c t))]
    simp

theorem quanto_decode_shape (v d : List Char)
    (hvb : ∀ c ∈ v, c ≠ '\\') (hdb : ∀ c ∈ d, c ≠ '\\')
    (hvs : ∀ c ∈ v, isPySpace c = false) (hds : ∀ c ∈ d, isPySpace c = false) :
    _quanto_value_to_phase (v ++ ['\\', 'p', 'i'] ++ d) = quantoTail (v ++ d) := by
  have hsh : v ++ ['\\', 'p', 'i'] ++ d = v ++ '\\' :: 'p' :: 'i' :: d := by simp
  rw [_quanto_value_to_phase, hsh, if_neg (by simp), if_pos (hasPi_append_pi v d),
    removePi_append_pi v d hvb hdb,
    pyStrip_eq_self _ (by
      intro c hc
      rcases List.mem_append.mp hc with hc | hc
      · exact hvs c hc
      · exact hds c hc)]

theorem pyFraction_neg_digits_slash (l m : List Char) (hlne : l ≠ []) (hmne : m ≠ [])
    (hl : ∀ c ∈ l, c.isDigit = true) (hm : ∀ c ∈ m, c.isDigit = true)
    (hden : digitsVal m ≠ 0) :
    pyFraction ('-' :: l ++ '/' :: m)
      = .ok (mkRat (-(digitsVal l : ℤ)) (digitsVal m)) := by
  simp only [pyFraction]
  rw [pyStrip_eq_self _ (by
    intro c hc
    rcases List.mem_cons.mp hc with rfl | hc
    · decide
    · rcases List.mem_append.mp hc with hc | hc
      · exact isDigit_not_space (hl c hc)
      · rcases List.mem_cons.mp hc with rfl | hc
        · decide
        · exact isDigit_not_space (hm c hc))]
  rw [List.cons_append]
  simp only [headIs_cons]
  have h2 : (decide True) = true := by decide
  simp only [h2, Bool.true_or, eq_self_iff_true, if_true, List.drop_succ_cons,
    List.drop_zero]
  rw [splitSlash_append _ _ (fun c hc => isDigit_ne_slash (hl c hc))]
  have hall : l.all Char.isDigit = true := List.all_eq_true.mpr hl
  have hallm : m.all Char.isDigit = true := List.all_eq_true.mpr hm
  simp [hlne, hmne, hall, hallm, hden]

/-! ## quantoTail case lemmas -/

theorem quantoTail_nil : quantoTail [] = .ok 1 := rfl

theorem quantoTail_minus (tl : List Char) :
    quantoTail ('-' :: tl) = pyFraction ('-' :: '1' :: tl) := by
  simp [quantoTail]

theorem quantoTail_slash (tl : List Char) :
    quantoTail ('/' :: tl) = pyFraction ('1' :: '/' :: tl) := by
  simp [quantoTail]

theorem quantoTail_digit (x : Char) (tl : List Char) (hx : x.isDigit = true) :
    quantoTail (x :: tl) = pyFraction (x :: tl) := by
  simp [quantoTail, headIs_cons, decide_eq_false (isDigit_ne_minus hx),
    decide_eq_false (isDigit_ne_slash hx)]

/-! ## Phase codec shape facts -/

theorem encode_shape (p : ℚ) (hp : p ≠ 0) :
    _phase_to_quanto_value p =
      (if p.num = -1 then ['-'] else if p.num = 1 then [] else intRepr p.num)
        ++ ['\\', 'p', 'i'] ++
      (if p.den ≠ 1 then '/' :: natRepr p.den else []) := by
  rw [_phase_to_quanto_value, if_neg hp]

theorem mem_digits_shape_facts (l : List Char) (hd : ∀ c ∈ l, c.isDigit = true) :
    (∀ c ∈ l, c ≠ '\\') ∧ (∀ c ∈ l, isPySpace c = false) :=
  ⟨fun c hc => isDigit_ne_backslash (hd c hc),
   fun c hc => isDigit_not_space (hd c hc)⟩

theorem slashD_facts (den : ℕ) :
    (∀ c ∈ '/' :: natRepr den, c ≠ '\\')
      ∧ (∀ c ∈ '/' :: natRepr den, isPySpace c = false) := by
  constructor <;>
  · intro c hc
    rcases List.mem_cons.mp hc with rfl | hc
    · decide
    · first
      | exact isDigit_ne_backslash (mem_natRepr_isDigit den c hc)
      | exact isDigit_not_space (mem_natRepr_isDigit den c hc)

/-- Shared helper: the phase codec round-trip law for reduced
numerators at least `-1` (used by the C2 claim theorem and by the
round-trip developments further below). -/
theorem phase_roundtrip_aux (p : ℚ) (h : -1 ≤ p.num) :
    _quanto_value_to_phase (_phase_to_quanto_value p) = .ok p := by
  by_cases hp : p = 0
  · subst hp; rfl
  · have hnum : p.num ≠ 0 := Rat.num_ne_zero.mpr hp
    have hDdig := mem_natRepr_isDigit p.den
    have hDne := natRepr_ne_nil p.den
    have hDval := digitsVal_natRepr p.den
    have hden0 : digitsVal (natRepr p.den) ≠ 0 := by rw [hDval]; exact p.den_nz
    have hslash := slashD_facts p.den
    rw [encode_shape p hp]
    by_cases hn1 : p.num = -1
    · rw [if_pos hn1]
      by_cases hden : p.den = 1
      · rw [if_neg (by simp [hden])]
        rw [quanto_decode_shape ['-'] []
          (by intro c hc; simp at hc; subst hc; decide)
          (by intro c hc; simp at hc)
          (by intro c hc; simp at hc; subst hc; decide)
          (by intro c hc; simp at hc)]
        have : p = -1 := by
          rw [← Rat.mkRat_self p, hn1, hden]
          norm_num
        rw [this]
        rfl
      · rw [if_pos hden]
        rw [quanto_decode_shape ['-'] ('/' :: natRepr p.den)
          (by intro c hc; simp at hc; subst hc; decide)
          hslash.1
          (by intro c hc; simp at hc; subst hc; decide)
          hslash.2]
        rw [show (['-'] ++ '/' :: natRepr p.den) = '-' :: '/' :: natRepr p.den from rfl,
          quantoTail_minus,
          show ('-' :: '1' :: '/' :: natRepr p.den)
            = '-' :: ['1'] ++ '/' :: natRepr p.den from rfl,
          pyFraction_neg_digits_slash ['1'] (natRepr p.den) (by simp) hDne
            (by intro c hc; simp at hc; subst hc; decide) hDdig hden0]
        rw [show digitsVal ['1'] = 1 from rfl, hDval]
        rw [show (-(1 : ℕ) : ℤ) = p.num by rw [hn1]; norm_num, Rat.mkRat_self]
    · by_cases hn2 : p.num = 1
      · rw [if_neg hn1, if_pos hn2]
        by_cases hden : p.den = 1
        · rw [if_neg (by simp [hden])]
          rw [quanto_decode_shape [] [] (by simp) (by simp) (by simp) (by simp)]
          have : p = 1 := by
            rw [← Rat.mkRat_self p, hn2, hden]
            norm_num
          rw [this]
          rfl
        · rw [if_pos hden]
          rw [quanto_decode_shape [] ('/' :: natRepr p.den)
            (by simp) hslash.1 (by simp) hslash.2]
          rw [show (([] : List Char) ++ '/' :: natRepr p.den)
              = '/' :: natRepr p.den from rfl,
            quantoTail_slash,
            show ('1' :: '/' :: natRepr p.den) = ['1'] ++ '/' :: natRepr p.den from rfl,
            pyFraction_digits_slash ['1'] (natRepr p.den) (by simp) hDne
              (by intro c hc; simp at hc; subst hc; decide) hDdig hden0]
          rw [show digitsVal ['1'] = 1 from rfl, hDval]
          rw [show ((1 : ℕ) : ℤ) = p.num by rw [hn2]; norm_num, Rat.mkRat_self]
      · have hge : 2 ≤ p.num := by omega
        have hnneg : ¬ p.num < 0 := by omega
        have hNdig := mem_natRepr_isDigit p.num.natAbs
        have hNne := natRepr_ne_nil p.num.natAbs
        have hNval := digitsVal_natRepr p.num.natAbs
        have hNfacts := mem_digits_shape_facts _ hNdig
        obtain ⟨x, t, hxt⟩ := List.exists_cons_of_ne_nil hNne
        have hx : x.isDigit = true := hNdig x (by rw [hxt]; exact List.mem_cons_self x t)
        have hcast : ((p.num.natAbs : ℕ) : ℤ) = p.num :=
          Int.natAbs_of_nonneg (by omega)
        rw [if_neg hn1, if_neg hn2, intRepr, if_neg hnneg]
        by_cases hden : p.den = 1
        · rw [if_neg (by simp [hden])]
          rw [quanto_decode_shape (natRepr p.num.natAbs) []
            hNfacts.1 (by simp) hNfacts.2 (by simp)]
          rw [List.append_nil, hxt, quantoTail_digit x t hx, ← hxt,
            pyFraction_digits _ hNne hNdig, hNval]
          have hpnum : ((p.num : ℤ) : ℚ) = p := by
            conv_rhs => rw [← Rat.mkRat_self p, hden]
            rw [Rat.mkRat_one]
          have hfin : ((p.num.natAbs : ℕ) : ℚ) = p := by
            calc ((p.num.natAbs : ℕ) : ℚ)
                = (((p.num.natAbs : ℕ) : ℤ) : ℚ) := (Int.cast_natCast p.num.natAbs).symm
              _ = ((p.num : ℤ) : ℚ) := by rw [hcast]
              _ = p := hpnum
          rw [hfin]
        · rw [if_pos hden]
          rw [quanto_decode_shape (natRepr p.num.natAbs) ('/' :: natRepr p.den)
            hNfacts.1 hslash.1 hNfacts.2 hslash.2]
          rw [hxt, List.cons_append, quantoTail_digit x _ hx, ← List.cons_append, ← hxt,
            pyFraction_digits_slash _ _ hNne hDne hNdig hDdig hden0, hNval, hDval,
            hcast, Rat.mkRat_self]

/-- Shared helper: on every encoder output the decoder succeeds —
with the original phase when the reduced numerator is at least `-1`,
and with the mangled coefficient otherwise. -/
theorem phase_decode_total (p : ℚ) :
    ∃ q : ℚ, _quanto_value_to_phase (_phase_to_quanto_value p) = .ok q := by
  by_cases h1 : -1 ≤ p.num
  · exact ⟨p, phase_roundtrip_aux p h1⟩
  · have hp : p ≠ 0 := by
      intro hc
      rw [hc] at h1
      exact h1 (by norm_num)
    have hn1 : p.num ≠ -1 := by omega
    have hn2 : p.num ≠ 1 := by omega
    have hnneg : p.num < 0 := by omega
    have hDdig := mem_natRepr_isDigit p.den
    have hDne := natRepr_ne_nil p.den
    have hDval := digitsVal_natRepr p.den
    have hden0 : digitsVal (natRepr p.den) ≠ 0 := by rw [hDval]; exact p.den_nz
    have hslash := slashD_facts p.den
    have hNdig := mem_natRepr_isDigit p.num.natAbs
    have hNfacts := mem_digits_shape_facts _ hNdig
    have hv1 : ∀ c ∈ '-' :: natRepr p.num.natAbs, c ≠ '\\' := by
      intro c hc
      rcases List.mem_cons.mp hc with rfl | hc
      · decide
      · exact hNfacts.1 c hc
    have hv2 : ∀ c ∈ '-' :: natRepr p.num.natAbs, isPySpace c = false := by
      intro c hc
      rcases List.mem_cons.mp hc with rfl | hc
      · decide
      · exact hNfacts.2 c hc
    have h1dig : ∀ c ∈ '1' :: natRepr p.num.natAbs, c.isDigit = true := by
      intro c hc
      rcases List.mem_cons.mp hc with rfl | hc
      · decide
      · exact hNdig c hc
    rw [encode_shape p hp, if_neg hn1, if_neg hn2, intRepr, if_pos hnneg]
    by_cases hden : p.den = 1
    · rw [if_neg (by simp [hden])]
      rw [quanto_decode_shape ('-' :: natRepr p.num.natAbs) []
        hv1 (by simp) hv2 (by simp)]
      rw [List.append_nil, quantoTail_minus]
      rw [pyFraction_neg_digits ('1' :: natRepr p.num.natAbs) (by simp) h1dig]
      exact ⟨_, rfl⟩
    · rw [if_pos hden]
      rw [quanto_decode_shape ('-' :: natRepr p.num.natAbs) ('/' :: natRepr p.den)
        hv1 hslash.1 hv2 hslash.2]
      rw [show (('-' :: natRepr p.num.natAbs) ++ '/' :: natRepr p.den)
          = '-' :: (natRepr p.num.natAbs ++ '/' :: natRepr p.den) from rfl]
      rw [quantoTail_minus]
      exact ⟨_, pyFraction_neg_digits_slash ('1' :: natRepr p.num.natAbs)
        (natRepr p.den) (by simp) hDne h1dig hDdig hden0⟩

/-- Claim C2 (amended): the phase codec round-trip law
`decode (encode p) = p` holds for every exact rational phase whose
reduced numerator is at least `-1` (in particular for every phase the
library itself produces, since those are normalised into `[0, 2)`);
for numerators `≤ -2` the decoder's leading-minus rewrite mangles the
coefficient, see `C2_phase_roundtrip_counterexample`. -/
theorem C2_phase_roundtrip (p : ℚ) (h : -1 ≤ p.num) :
    _quanto_value_to_phase (_phase_to_quanto_value p) = .ok p :=
  phase_roundtrip_aux p h

/-- Witness for `C2_phase_roundtrip` at the concrete phase `3/2`. -/
theorem C2_phase_roundtrip_witness :
    -1 ≤ (mkRat 3 2).num
      ∧ _quanto_value_to_phase (_phase_to_quanto_value (mkRat 3 2)) = .ok (mkRat 3 2) :=
  ⟨by decide, C2_phase_roundtrip (mkRat 3 2) (by decide)⟩

/-- Counterexample to claim C2 as stated: for the phase `-2` the codec is
not inverse — `encode (-2) = "-2\pi"`, but the decoder rewrites the
leading `-` to `-1`, producing the text `-12` and hence the phase `-12`. -/
theorem C2_phase_roundtrip_counterexample :
    _quanto_value_to_phase (_phase_to_quanto_value (-2)) = .ok (-12)
      ∧ ((-12 : ℚ) ≠ (-2 : ℚ)) :=
  ⟨rfl, by decide⟩

/-- Claim C3 (amended): characterisation of `_quanto_value_to_phase`.
Empty text decodes to 0.  Text with the pi marker: the marker is removed
and the remainder stripped; if the remainder starts with `-`, a `1` is
inserted after that `-` (so a lone `-` becomes coefficient `-1`, but
`-3\pi` decodes to `-13`, not `-3`); if the remainder starts with `/` a
`1` is prefixed (so `\pi/2` decodes to `1/2`); an empty remainder means
coefficient 1; otherwise the remainder is parsed as an exact rational.
Text without the marker is parsed directly as an exact rational. -/
theorem C3_decode_characterization :
    _quanto_value_to_phase [] = .ok 0
  ∧ _quanto_value_to_phase ['\\', 'p', 'i'] = .ok 1
  ∧ _quanto_value_to_phase ['-', '\\', 'p', 'i'] = .ok (-1)
  ∧ (∀ den : ℕ, 0 < den →
      _quanto_value_to_phase ('\\' :: 'p' :: 'i' :: '/' :: natRepr den)
        = .ok (mkRat 1 den))
  ∧ (∀ n : ℕ, 0 < n →
      _quanto_value_to_phase (natRepr n ++ ['\\', 'p', 'i']) = .ok n)
  ∧ (∀ n : ℕ, 0 < n →
      _quanto_value_to_phase ('-' :: natRepr n ++ ['\\', 'p', 'i'])
        = .ok (-((10 ^ (natRepr n).length + n : ℕ) : ℚ)))
  ∧ (∀ n den : ℕ, 0 < den →
      _quanto_value_to_phase (natRepr n ++ '/' :: natRepr den)
        = .ok (mkRat n den)) := by
  refine ⟨rfl, rfl, rfl, ?_, ?_, ?_, ?_⟩
  · intro den hden
    have hD := slashD_facts den
    have h0 : digitsVal (natRepr den) ≠ 0 := by rw [digitsVal_natRepr]; omega
    rw [show ('\\' :: 'p' :: 'i' :: '/' :: natRepr den)
        = ([] : List Char) ++ ['\\', 'p', 'i'] ++ '/' :: natRepr den from rfl,
      quanto_decode_shape [] _ (by simp) hD.1 (by simp) hD.2,
      List.nil_append, quantoTail_slash,
      show ('1' :: '/' :: natRepr den) = ['1'] ++ '/' :: natRepr den from rfl,
      pyFraction_digits_slash ['1'] _ (by simp) (natRepr_ne_nil den)
        (by intro c hc; simp at hc; subst hc; decide) (mem_natRepr_isDigit den) h0,
      digitsVal_natRepr]
    rfl
  · intro n hn
    have hfacts := mem_digits_shape_facts _ (mem_natRepr_isDigit n)
    obtain ⟨x, t, hxt⟩ := List.exists_cons_of_ne_nil (natRepr_ne_nil n)
    have hx : x.isDigit = true :=
      mem_natRepr_isDigit n x (by rw [hxt]; exact List.mem_cons_self x t)
    rw [show (natRepr n ++ ['\\', 'p', 'i'])
        = natRepr n ++ ['\\', 'p', 'i'] ++ [] from (List.append_nil _).symm,
      quanto_decode_shape _ [] hfacts.1 (by simp) hfacts.2 (by simp),
      List.append_nil, hxt, quantoTail_digit x t hx, ← hxt,
      pyFraction_digits _ (natRepr_ne_nil n) (mem_natRepr_isDigit n),
      digitsVal_natRepr]
  · intro n hn
    have hv : ∀ c ∈ '-' :: natRepr n, c ≠ '\\' := by
      intro c hc
      rcases List.mem_cons.mp hc with rfl | hc
      · decide
      · exact isDigit_ne_backslash (mem_natRepr_isDigit n c hc)
    have hvs : ∀ c ∈ '-' :: natRepr n, isPySpace c = false := by
      intro c hc
      rcases List.mem_cons.mp hc with rfl | hc
      · decide
      · exact isDigit_not_space (mem_natRepr_isDigit n c hc)
    rw [show (('-' :: natRepr n) ++ ['\\', 'p', 'i'])
        = ('-' :: natRepr n) ++ ['\\', 'p', 'i'] ++ [] from (List.append_nil _).symm,
      quanto_decode_shape _ [] hv (by simp) hvs (by simp),
      List.append_nil, quantoTail_minus,
      pyFraction_neg_digits ('1' :: natRepr n) (by simp)
        (by
          intro c hc
          rcases List.mem_cons.mp hc with rfl | hc
          · decide
          · exact mem_natRepr_isDigit n c hc),
      digitsVal_one_natRepr]
  · intro n den hden
    have h0 : digitsVal (natRepr den) ≠ 0 := by rw [digitsVal_natRepr]; omega
    have hme : (natRepr n ++ '/' :: natRepr den) ≠ [] := by
      simp
    have hnb : ∀ c ∈ natRepr n ++ '/' :: natRepr den, c ≠ '\\' := by
      intro c hc
      rcases List.mem_append.mp hc with hc | hc
      · exact isDigit_ne_backslash (mem_natRepr_isDigit n c hc)
      · rcases List.mem_cons.mp hc with rfl | hc
        · decide
        · exact isDigit_ne_backslash (mem_natRepr_isDigit den c hc)
    rw [_quanto_value_to_phase, if_neg hme, hasPi_eq_false _ hnb,
      if_neg Bool.false_ne_true,
      pyFraction_digits_slash _ _ (natRepr_ne_nil n) (natRepr_ne_nil den)
        (mem_natRepr_isDigit n) (mem_natRepr_isDigit den) h0,
      digitsVal_natRepr, digitsVal_natRepr]

/-- Witness for `C3_decode_characterization`: its leading-minus clause at
`n = 3` — the text `-3\pi` decodes to `-(10^1 + 3) = -13`. -/
theorem C3_decode_characterization_witness :
    0 < 3 ∧ _quanto_value_to_phase ('-' :: natRepr 3 ++ ['\\', 'p', 'i'])
      = .ok (-((10 ^ (natRepr 3).length + 3 : ℕ) : ℚ)) :=
  ⟨by decide, C3_decode_characterization.2.2.2.2.2.1 3 (by decide)⟩

/-- Counterexample to claim C3 as stated: the text `-3\pi` does not
decode to `-3`; the code rewrites every leading `-` (not just a lone
one) to `-1`, so `-3\pi` becomes the numeral `-13`. -/
theorem C3_decode_counterexample :
    _quanto_value_to_phase ['-', '3', '\\', 'p', 'i'] = .ok (-13)
      ∧ ((-13 : ℚ) ≠ (-3 : ℚ)) :=
  ⟨rfl, by decide⟩

/-! ## Association-list lemmas -/

theorem lookAssoc_updAssoc_self {κ : Type} [DecidableEq κ] {α : Type}
    (l : List (κ × α)) (k : κ) (v : α) :
    lookAssoc (updAssoc l k v) k = some v := by
  induction l with
  | nil => simp [updAssoc, lookAssoc]
  | cons p t ih =>
    obtain ⟨k', v'⟩ := p
    by_cases hk : k' = k
    · simp [updAssoc, hk, lookAssoc]
    · simp [updAssoc, hk, lookAssoc, ih]

theorem lookAssoc_updAssoc_ne {κ : Type} [DecidableEq κ] {α : Type}
    (l : List (κ × α)) (k k' : κ) (v : α) (hne : k' ≠ k) :
    lookAssoc (updAssoc l k v) k' = lookAssoc l k' := by
  have hkk : ¬ (k = k') := fun h => hne h.symm
  induction l with
  | nil => simp [updAssoc, lookAssoc, hkk]
  | cons p t ih =>
    obtain ⟨k0, v0⟩ := p
    by_cases hk : k0 = k
    · subst hk
      simp [updAssoc, lookAssoc, hkk]
    · simp [updAssoc, hk, lookAssoc, ih]

theorem updAssoc_absent {κ : Type} [DecidableEq κ] {α : Type}
    (l : List (κ × α)) (k : κ) (v : α) (h : lookAssoc l k = none) :
    updAssoc l k v = l ++ [(k, v)] := by
  induction l with
  | nil => rfl
  | cons p t ih =>
    obtain ⟨k0, v0⟩ := p
    by_cases hk : k0 = k
    · simp [lookAssoc, hk] at h
    · simp only [lookAssoc, if_neg hk] at h
      simp [updAssoc, hk, ih h]

/-! ## Graph-update shape lemmas -/

theorem add_vertex_eq (g : Graph) (ty : VertexType) (q r : ℚ) :
    g.add_vertex ty q r
      = (⟨g.verts ++ [(g.fresh, { ty := ty, qubit := q, row := r })],
          g.edgeList, g.inputs, g.outputs, g.scalar, g.fresh + 1⟩, g.fresh) := rfl

theorem map_updVert_id (vs : List (Nat × GVert)) (v : Nat) (f : GVert → GVert)
    (hv : ∀ p ∈ vs, p.1 ≠ v) :
    vs.map (fun p => if p.1 = v then (p.1, f p.2) else p) = vs := by
  induction vs with
  | nil => rfl
  | cons p t ih =>
    simp only [List.map_cons, if_neg (hv p (List.mem_cons_self p t))]
    rw [ih (fun x hx => hv x (List.mem_cons_of_mem p hx))]

theorem updVert_append (vs : List (Nat × GVert)) (v : Nat) (w : GVert)
    (f : GVert → GVert) (E : List ((Nat × Nat) × EdgeType)) (I O : List Nat)
    (S : JValue) (F : Nat) (hv : ∀ p ∈ vs, p.1 ≠ v) :
    Graph.updVert ⟨vs ++ [(v, w)], E, I, O, S, F⟩ v f
      = ⟨vs ++ [(v, f w)], E, I, O, S, F⟩ := by
  unfold Graph.updVert
  simp only [List.map_append, List.map_cons, List.map_nil]
  rw [map_updVert_id vs v f hv]
  simp

theorem copyAnnotations_append (annF : List (String × JValue)) (skips : List String)
    (vs : List (Nat × GVert)) (v : Nat) (w : GVert)
    (E : List ((Nat × Nat) × EdgeType)) (I O : List Nat) (S : JValue) (F : Nat)
    (hv : ∀ p ∈ vs, p.1 ≠ v) :
    copyAnnotations ⟨vs ++ [(v, w)], E, I, O, S, F⟩ v annF skips
      = ⟨vs ++ [(v, { w with vdata := foldSkip w.vdata annF skips })], E, I, O, S, F⟩ := by
  induction annF generalizing w with
  | nil => simp [copyAnnotations, foldSkip]
  | cons p t ih =>
    simp only [copyAnnotations, List.foldl_cons, foldSkip] at ih ⊢
    by_cases hp : p.1 ∈ skips
    · simp only [if_pos hp]
      exact ih w
    · simp only [if_neg hp, Graph.set_vdata, updVert_append vs v w _ E I O S F hv]
      exact ih _

/-! ## Decoder inversion lemmas -/

theorem jindex_inv {j : JValue} {k : String} {v : JValue} (h : jindex j k = .ok v) :
    ∃ l, j = .obj l ∧ lookAssoc l k = some v := by
  cases j <;> simp [jindex] at h
  case obj l =>
    cases hl : lookAssoc l k <;> rw [hl] at h <;> simp at h
    subst h
    exact ⟨l, rfl, hl⟩

theorem jitems_inv {j : JValue} {l : List (String × JValue)} (h : jitems j = .ok l) :
    j = .obj l := by
  cases j <;> simp [jitems] at h
  rw [h]

theorem processWire_ok {st : DecSt} {name : String} {attr : JValue} {st' : DecSt}
    (hids : VertIds st.g) (h : processWire st name attr = .ok st') :
    ∃ (annF : List (String × JValue)) (q r : ℚ),
      st'.g = ⟨st.g.verts ++ [(st.g.fresh, wireRec name annF q r)],
               st.g.edgeList, st.g.inputs, st.g.outputs, st.g.scalar, st.g.fresh + 1⟩
      ∧ st'.names = updAssoc st.names name st.g.fresh
      ∧ st'.hadamards = st.hadamards
      ∧ st'.inputs = st.inputs
          ++ (if annTruthy attr "input" then [st.g.fresh] else [])
      ∧ st'.outputs = st.outputs
          ++ (if annTruthy attr "output" then [st.g.fresh] else [])
      ∧ jindex attr "annotation" = .ok (.obj annF) := by
  have hv : ∀ p ∈ st.g.verts, p.1 ≠ st.g.fresh :=
    fun p hp => Nat.ne_of_lt (hids p hp)
  unfold processWire at h
  simp only [bind, Except.bind] at h
  split at h
  · exact absurd h (by simp)
  case h_2 ann hann =>
    split at h
    · exact absurd h (by simp)
    case h_2 annF hannF =>
      split at h
      · exact absurd h (by simp)
      case h_2 c hc =>
        split at h
        · exact absurd h (by simp)
        case h_2 qr hqr =>
          simp only [pure, Except.pure, Except.ok.injEq] at h
          subst h
          obtain ⟨fields, hj, hlook⟩ := jindex_inv hann
          have hao : ann = .obj annF := jitems_inv hannF
          have htr : ∀ key, annTruthy attr key
              = (lookAssoc annF key).elim false JValue.truthy := by
            intro key
            rw [hj, annTruthy, hlook, hao]
          refine ⟨annF, qr.1, qr.2, ?_, rfl, rfl, ?_, ?_, by rw [hann, hao]⟩
          · show copyAnnotations
              (((st.g.add_vertex .BOUNDARY qr.1 qr.2).1).set_vdata
                (st.g.add_vertex .BOUNDARY qr.1 qr.2).2 "name" (.str name))
              (st.g.add_vertex .BOUNDARY qr.1 qr.2).2 annF
              ["boundary", "coord", "input", "output"] = _
            rw [add_vertex_eq]
            show copyAnnotations
              (Graph.set_vdata ⟨st.g.verts ++ [(st.g.fresh, _)], _, _, _, _, _⟩
                st.g.fresh "name" (.str name)) st.g.fresh annF _ = _
            rw [Graph.set_vdata, updVert_append _ _ _ _ _ _ _ _ _ hv,
              copyAnnotations_append _ _ _ _ _ _ _ _ _ _ hv]
            rfl
          · rw [htr "input"]
            by_cases hc : (lookAssoc annF "input").elim false JValue.truthy = true <;>
              simp [hc, Graph.add_vertex]
          · rw [htr "output"]
            by_cases hc : (lookAssoc annF "output").elim false JValue.truthy = true <;>
              simp [hc, Graph.add_vertex]

/-! ## Field-preservation lemmas for the decoder passes -/

theorem map_fst_updVert (vs : List (Nat × GVert)) (v : Nat) (f : GVert → GVert) :
    (vs.map (fun p => if p.1 = v then (p.1, f p.2) else p)).map Prod.fst
      = vs.map Prod.fst := by
  induction vs with
  | nil => rfl
  | cons p t ih =>
    by_cases hp : p.1 = v <;> simp [hp, ih]

theorem VertIds_updVert {g : Graph} {v : Nat} {f : GVert → GVert}
    (h : VertIds g) : VertIds (g.updVert v f) := by
  intro p hp
  simp only [Graph.updVert, List.mem_map] at hp
  obtain ⟨p0, hp0, heq⟩ := hp
  have h0 := h p0 hp0
  show p.1 < g.fresh
  rw [← heq]
  have hfst : (if p0.1 = v then (p0.1, f p0.2) else p0).1 = p0.1 := by
    by_cases hc : p0.1 = v <;> simp [hc]
  rw [hfst]
  exact h0

theorem copyAnnotations_pres (annF : List (String × JValue)) (skips : List String)
    (g : Graph) (v : Nat) :
    (copyAnnotations g v annF skips).inputs = g.inputs
    ∧ (copyAnnotations g v annF skips).outputs = g.outputs
    ∧ (copyAnnotations g v annF skips).fresh = g.fresh
    ∧ (copyAnnotations g v annF skips).edgeList = g.edgeList
    ∧ (copyAnnotations g v annF skips).scalar = g.scalar
    ∧ (VertIds g → VertIds (copyAnnotations g v annF skips)) := by
  induction annF generalizing g with
  | nil => exact ⟨rfl, rfl, rfl, rfl, rfl, id⟩
  | cons p t ih =>
    simp only [copyAnnotations, List.foldl_cons] at ih ⊢
    by_cases hp : p.1 ∈ skips
    · simp only [if_pos hp]
      exact ih g
    · simp only [if_neg hp]
      obtain ⟨h1, h2, h3, h4, h5, h6⟩ := ih (g.set_vdata v p.1 p.2)
      exact ⟨h1, h2, h3, h4, h5, fun hg => h6 (VertIds_updVert hg)⟩

theorem processNodeData_pres {g : Graph} {v : Nat} {attrF : List (String × JValue)}
    {g' : Graph} (h : processNodeData g v attrF = .ok g') :
    g'.inputs = g.inputs ∧ g'.outputs = g.outputs ∧ g'.fresh = g.fresh
    ∧ g'.edgeList = g.edgeList ∧ g'.scalar = g.scalar
    ∧ (VertIds g → VertIds g') := by
  unfold processNodeData at h
  simp only [bind, Except.bind] at h
  repeat' split at h
  all_goals simp only [pure, Except.pure, Except.ok.injEq, reduceCtorEq] at h
  all_goals
    first
    | exact h.elim
    | (subst h
       refine ⟨rfl, rfl, rfl, rfl, rfl, fun hh => ?_⟩
       repeat
         first
         | exact hh
         | apply VertIds_updVert)

theorem processNode_pres {st : DecSt} {name : String} {attr : JValue} {st' : DecSt}
    (h : processNode st name attr = .ok st') :
    st'.inputs = st.inputs ∧ st'.outputs = st.outputs
    ∧ st'.g.inputs = st.g.inputs ∧ st'.g.outputs = st.g.outputs
    ∧ st'.g.scalar = st.g.scalar
    ∧ (VertIds st.g → VertIds st'.g) := by
  unfold processNode at h
  simp only [bind, Except.bind] at h
  split at h
  · exact absurd h (by simp)
  case h_2 stub hstub =>
    split at h
    · simp only [pure, Except.pure, Except.ok.injEq] at h
      subst h
      exact ⟨rfl, rfl, rfl, rfl, rfl, id⟩
    · split at h
      · exact absurd h (by simp)
      case h_2 ann hann =>
        split at h
        · exact absurd h (by simp)
        case h_2 c hc =>
          split at h
          · exact absurd h (by simp)
          case h_2 qr hqr =>
            split at h
            · exact absurd h (by simp)
            case h_2 attrF hattrF =>
              split at h
              · exact absurd h (by simp)
              case h_2 g3 hg3 =>
                split at h
                · exact absurd h (by simp)
                case h_2 annF hannF =>
                  simp only [pure, Except.pure, Except.ok.injEq] at h
                  subst h
                  obtain ⟨b1, b2, b3, b4, b5, b6⟩ := processNodeData_pres hg3
                  obtain ⟨c1, c2, c3, c4, c5, c6⟩ :=
                    copyAnnotations_pres annF ["coord"] g3 (st.g.add_vertex .BOUNDARY qr.1 qr.2).2
                  refine ⟨rfl, rfl, ?_, ?_, ?_, ?_⟩
                  · rw [c1, b1]; rfl
                  · rw [c2, b2]; rfl
                  · rw [c5, b5]; rfl
                  · intro hids
                    apply c6
                    apply b6
                    apply VertIds_updVert
                    intro p hp
                    rw [add_vertex_eq] at hp
                    simp only at hp
                    rcases List.mem_append.mp hp with hp | hp
                    · show p.1 < st.g.fresh + 1
                      exact Nat.lt_succ_of_lt (hids p hp)
                    · simp at hp
                      subst hp
                      exact Nat.lt_succ_self _

theorem processNodes_pres {nodes : List (String × JValue)} {st st' : DecSt}
    (h : processNodes nodes st = .ok st') :
    st'.inputs = st.inputs ∧ st'.outputs = st.outputs
    ∧ st'.g.inputs = st.g.inputs ∧ st'.g.outputs = st.g.outputs
    ∧ st'.g.scalar = st.g.scalar
    ∧ (VertIds st.g → VertIds st'.g) := by
  induction nodes generalizing st with
  | nil =>
    simp only [processNodes, Except.ok.injEq] at h
    subst h
    exact ⟨rfl, rfl, rfl, rfl, rfl, id⟩
  | cons p rest ih =>
    simp only [processNodes, bind, Except.bind] at h
    split at h
    · exact absurd h (by simp)
    case h_2 st1 hst1 =>
      obtain ⟨a1, a2, a3, a4, a5, a6⟩ := processNode_pres hst1
      obtain ⟨b1, b2, b3, b4, b5, b6⟩ := ih h
      exact ⟨b1.trans a1, b2.trans a2, b3.trans a3, b4.trans a4, b5.trans a5,
        fun hh => b6 (a6 hh)⟩

theorem add_edge_table_pres (etab : List ((Nat × Nat) × (Nat × Nat))) (g : Graph) :
    (g.add_edge_table etab).inputs = g.inputs
    ∧ (g.add_edge_table etab).outputs = g.outputs
    ∧ (g.add_edge_table etab).verts = g.verts
    ∧ (g.add_edge_table etab).scalar = g.scalar := by
  induction etab generalizing g with
  | nil => exact ⟨rfl, rfl, rfl, rfl⟩
  | cons p t ih =>
    simp only [Graph.add_edge_table, List.foldl_cons] at ih ⊢
    exact ih _

theorem processEdge_pres {st st' : ESt} {e : JValue}
    (h : processEdge st e = .ok st') :
    st'.g.inputs = st.g.inputs ∧ st'.g.outputs = st.g.outputs
    ∧ st'.g.scalar = st.g.scalar := by
  unfold processEdge at h
  simp only [bind, Except.bind] at h
  repeat' split at h
  all_goals simp only [pure, Except.pure, Except.ok.injEq, reduceCtorEq] at h
  all_goals
    first
    | exact h.elim
    | (subst h; exact ⟨rfl, rfl, rfl⟩)

theorem processEdges_pres {es : List JValue} {st st' : ESt}
    (h : processEdges es st = .ok st') :
    st'.g.inputs = st.g.inputs ∧ st'.g.outputs = st.g.outputs
    ∧ st'.g.scalar = st.g.scalar := by
  induction es generalizing st with
  | nil =>
    simp only [processEdges, Except.ok.injEq] at h
    subst h
    exact ⟨rfl, rfl, rfl⟩
  | cons e rest ih =>
    simp only [processEdges, bind, Except.bind] at h
    split at h
    · exact absurd h (by simp)
    case h_2 st1 hst1 =>
      obtain ⟨a1, a2, a3⟩ := processEdge_pres hst1
      obtain ⟨b1, b2, b3⟩ := ih h
      exact ⟨b1.trans a1, b2.trans a2, b3.trans a3⟩

theorem VertIds_wireStep {g : Graph} (hids : VertIds g) (name : String)
    (annF : List (String × JValue)) (q r : ℚ) :
    VertIds (⟨g.verts ++ [(g.fresh, wireRec name annF q r)],
      g.edgeList, g.inputs, g.outputs, g.scalar, g.fresh + 1⟩ : Graph) := by
  intro p hp
  simp only at hp
  rcases List.mem_append.mp hp with hp | hp
  · exact Nat.lt_succ_of_lt (hids p hp)
  · simp at hp
    subst hp
    exact Nat.lt_succ_self _

theorem processWires_io {wires : List (String × JValue)} {st st' : DecSt}
    (hids : VertIds st.g) (h : processWires wires st = .ok st') :
    st'.inputs = st.inputs ++ wireSel "input" wires st.g.fresh
    ∧ st'.outputs = st.outputs ++ wireSel "output" wires st.g.fresh := by
  induction wires generalizing st with
  | nil =>
    simp only [processWires, Except.ok.injEq] at h
    subst h
    simp [wireSel]
  | cons p rest ih =>
    obtain ⟨name, attr⟩ := p
    simp only [processWires, bind, Except.bind] at h
    split at h
    · exact absurd h (by simp)
    case h_2 st1 hst1 =>
      obtain ⟨annF, q, r, hg, hnm, hhad, hin, hout, hanneq⟩ := processWire_ok hids hst1
      have hids1 : VertIds st1.g := by
        rw [hg]
        exact VertIds_wireStep hids name annF q r
      obtain ⟨ihin, ihout⟩ := ih hids1 h
      have hfr : st1.g.fresh = st.g.fresh + 1 := by rw [hg]
      constructor
      · rw [ihin, hfr, hin, wireSel, List.append_assoc]
      · rw [ihout, hfr, hout, wireSel, List.append_assoc]

/-- Claim C6: the decoder appends boundary vertex ids to the diagram's
input and output sequences in exactly the iteration order of the
`wire_vertices` section, restricted to entries whose annotation marks
`input` (resp. `output`) truthy; the ids are allocated consecutively
from some starting id. -/
theorem C6_boundary_ordering (j : JValue) (g : Graph)
    (h : json_to_graph j = .ok g) :
    ∃ start : Nat,
      g.inputs = wireSel "input" (wireSection j) start
      ∧ g.outputs = wireSel "output" (wireSection j) start := by
  unfold json_to_graph at h
  simp only [bind, Except.bind] at h
  split at h
  · exact absurd h (by simp)
  case h_2 jf hjf =>
    split at h
    · exact absurd h (by simp)
    case h_2 nodes hnodes =>
      split at h
      · exact absurd h (by simp)
      case h_2 st1 hst1 =>
        split at h
        · exact absurd h (by simp)
        case h_2 wires hwires =>
          split at h
          · exact absurd h (by simp)
          case h_2 st2 hst2 =>
            split at h
            · exact absurd h (by simp)
            case h_2 edgeL hedgeL =>
              split at h
              · exact absurd h (by simp)
              case h_2 st3 hst3 =>
                split at h
                · exact absurd h (by simp)
                case h_2 etab hetab =>
                  simp only [pure, Except.pure, Except.ok.injEq] at h
                  have hids1 : VertIds st1.g :=
                    (processNodes_pres hst1).2.2.2.2.2 (fun p hp => by simp at hp)
                  have hnodein : st1.inputs = [] := (processNodes_pres hst1).1
                  have hnodeout : st1.outputs = [] := (processNodes_pres hst1).2.1
                  obtain ⟨hwin, hwout⟩ := processWires_io hids1 hst2
                  have hwires_sec : wireSection j = wires := by
                    rw [jitems_inv hjf, wireSection]
                    rw [jitems_inv hwires]
                  obtain ⟨e1, e2, e3⟩ := processEdges_pres hst3
                  refine ⟨st1.g.fresh, ?_, ?_⟩
                  · have : g.inputs = st3.g.inputs := by
                      rw [← h]
                      split <;> exact (add_edge_table_pres etab _).1
                    rw [this, e1]
                    show st2.inputs = _
                    rw [hwin, hnodein, hwires_sec, List.nil_append]
                  · have : g.outputs = st3.g.outputs := by
                      rw [← h]
                      split <;> exact (add_edge_table_pres etab _).2.1
                    rw [this, e2]
                    show st2.outputs = _
                    rw [hwout, hnodeout, hwires_sec, List.nil_append]

/-- Witness for `C6_boundary_ordering`: a document listing two
output-flagged wires in the order `w2, w1` decodes to the output
sequence `[vertex(w2), vertex(w1)] = [0, 1]`, in document order. -/
theorem C6_boundary_ordering_witness :
    ∃ g, json_to_graph (.obj [("wire_vertices", .obj
        [("w2", .obj [("annotation", .obj
            [("coord", .arr [.num 0, .num 0]), ("output", .bool true)])]),
         ("w1", .obj [("annotation", .obj
            [("coord", .arr [.num 1, .num 0]), ("output", .bool true)])])])])
      = .ok g
      ∧ g.outputs = [0, 1]
      ∧ g.vdata 0 "name" = some (.str "w2")
      ∧ g.vdata 1 "name" = some (.str "w1")
      ∧ ∃ start, g.inputs = wireSel "input" (wireSection (.obj [("wire_vertices", .obj
            [("w2", .obj [("annotation", .obj
                [("coord", .arr [.num 0, .num 0]), ("output", .bool true)])]),
             ("w1", .obj [("annotation", .obj
                [("coord", .arr [.num 1, .num 0]), ("output", .bool true)])])])])) start
          ∧ g.outputs = wireSel "output" (wireSection (.obj [("wire_vertices", .obj
            [("w2", .obj [("annotation", .obj
                [("coord", .arr [.num 0, .num 0]), ("output", .bool true)])]),
             ("w1", .obj [("annotation", .obj
                [("coord", .arr [.num 1, .num 0]), ("output", .bool true)])])])])) start :=
  ⟨_, rfl, rfl, rfl, rfl, C6_boundary_ordering _ _ rfl⟩

theorem updVert_append' {vs : List (Nat × GVert)} {v : Nat}
    (hv : ∀ p ∈ vs, p.1 ≠ v) (w : GVert) (f : GVert → GVert)
    (E : List ((Nat × Nat) × EdgeType)) (I O : List Nat) (S : JValue) (F : Nat) :
    Graph.updVert ⟨vs ++ [(v, w)], E, I, O, S, F⟩ v f
      = ⟨vs ++ [(v, f w)], E, I, O, S, F⟩ :=
  updVert_append vs v w f E I O S F hv

theorem processNodeData_shape (vs : List (Nat × GVert)) (v : Nat) (w : GVert)
    (E : List ((Nat × Nat) × EdgeType)) (I O : List Nat) (S : JValue) (F : Nat)
    (hv : ∀ p ∈ vs, p.1 ≠ v)
    {attrF : List (String × JValue)} {g' : Graph}
    (h : processNodeData ⟨vs ++ [(v, w)], E, I, O, S, F⟩ v attrF = .ok g') :
    ∃ ty ph gr,
      g' = ⟨vs ++ [(v, { w with ty := ty, phase := ph, ground := gr })],
            E, I, O, S, F⟩ := by
  unfold processNodeData at h
  simp only [bind, Except.bind] at h
  repeat' split at h
  all_goals simp only [pure, Except.pure, Except.ok.injEq, reduceCtorEq] at h
  all_goals subst h
  all_goals
    simp only [Graph.set_type, Graph.set_phase, Graph.set_ground, updVert_append' hv]
  all_goals exact ⟨_, _, _, rfl⟩

theorem processNode_ok {st : DecSt} {name : String} {attr : JValue} {st' : DecSt}
    (hids : VertIds st.g) (h : processNode st name attr = .ok st') :
    (isHadamardStub attr = .ok true
      ∧ st'.g = st.g ∧ st'.names = st.names
      ∧ st'.hadamards = updAssoc st.hadamards name []
      ∧ st'.inputs = st.inputs ∧ st'.outputs = st.outputs)
    ∨ (isHadamardStub attr = .ok false
      ∧ ∃ (annF : List (String × JValue)) (q r : ℚ) (ty : VertexType)
          (ph : ℚ) (gr : Bool),
        st'.g = ⟨st.g.verts ++ [(st.g.fresh,
            { ty := ty, qubit := q, row := r, phase := ph, ground := gr,
              vdata := foldSkip [("name", .str name)] annF ["coord"] })],
          st.g.edgeList, st.g.inputs, st.g.outputs, st.g.scalar, st.g.fresh + 1⟩
        ∧ st'.names = updAssoc st.names name st.g.fresh
        ∧ st'.hadamards = st.hadamards
        ∧ st'.inputs = st.inputs ∧ st'.outputs = st.outputs
        ∧ jindex attr "annotation" = .ok (.obj annF)) := by
  have hv : ∀ p ∈ st.g.verts, p.1 ≠ st.g.fresh :=
    fun p hp => Nat.ne_of_lt (hids p hp)
  unfold processNode at h
  simp only [bind, Except.bind] at h
  split at h
  · exact absurd h (by simp)
  case h_2 stub hstub =>
    split at h
    case isTrue htrue =>
      simp only [pure, Except.pure, Except.ok.injEq] at h
      subst h
      subst htrue
      exact Or.inl ⟨hstub, rfl, rfl, rfl, rfl, rfl⟩
    case isFalse hfalse =>
      have hsf : stub = false := by
        cases stub
        · rfl
        · exact absurd rfl hfalse
      have hstub' : isHadamardStub attr = .ok false := by
        rw [hstub, hsf]
      split at h
      · exact absurd h (by simp)
      case h_2 ann hann =>
        split at h
        · exact absurd h (by simp)
        case h_2 c hc =>
          split at h
          · exact absurd h (by simp)
          case h_2 qr hqr =>
            split at h
            · exact absurd h (by simp)
            case h_2 attrF hattrF =>
              split at h
              · exact absurd h (by simp)
              case h_2 g3 hg3 =>
                split at h
                · exact absurd h (by simp)
                case h_2 annF hannF =>
                  simp only [pure, Except.pure, Except.ok.injEq] at h
                  subst h
                  obtain ⟨fields, hj, hlook⟩ := jindex_inv hann
                  have hao : ann = .obj annF := jitems_inv hannF
                  rw [add_vertex_eq] at hg3
                  simp only at hg3
                  rw [Graph.set_vdata, updVert_append' hv] at hg3
                  obtain ⟨ty, ph, gr, hg3'⟩ :=
                    processNodeData_shape _ _ _ _ _ _ _ _ hv hg3
                  subst hg3'
                  refine Or.inr ⟨hstub', annF, qr.1, qr.2, ty, ph, gr, ?_, rfl, rfl,
                    rfl, rfl, by rw [hann, hao]⟩
                  exact copyAnnotations_append annF ["coord"] st.g.verts st.g.fresh
                    _ _ _ _ _ _ hv

/-! ## Key-tracking lemmas for vdata maps -/

theorem lookAssoc_none_forall {κ : Type} [DecidableEq κ] {α : Type}
    {l : List (κ × α)} {k : κ} (h : lookAssoc l k = none) :
    ∀ p ∈ l, p.1 ≠ k := by
  induction l with
  | nil => simp
  | cons p t ih =>
    intro x hx
    rcases List.mem_cons.mp hx with rfl | hx
    · intro hk
      rw [lookAssoc, if_pos hk] at h
      exact Option.noConfusion h
    · apply ih _ x hx
      by_cases hk : p.1 = k
      · rw [lookAssoc, if_pos hk] at h
        exact Option.noConfusion h
      · rw [lookAssoc, if_neg hk] at h
        exact h

theorem memA_false_forall {κ : Type} [DecidableEq κ] {α : Type}
    {l : List (κ × α)} {k : κ} (h : memA l k = false) :
    ∀ p ∈ l, p.1 ≠ k := by
  apply lookAssoc_none_forall
  rw [memA] at h
  exact Option.not_isSome_iff_eq_none.mp (by simp [h])

theorem lookAssoc_foldSkip_noKey {vd annF : List (String × JValue)}
    {skips : List String} {k : String} (h : ∀ p ∈ annF, p.1 ≠ k) :
    lookAssoc (foldSkip vd annF skips) k = lookAssoc vd k := by
  induction annF generalizing vd with
  | nil => rfl
  | cons p t ih =>
    simp only [foldSkip, List.foldl_cons] at ih ⊢
    by_cases hp : p.1 ∈ skips
    · rw [if_pos hp]
      exact ih (fun x hx => h x (List.mem_cons_of_mem p hx))
    · rw [if_neg hp, ih (fun x hx => h x (List.mem_cons_of_mem p hx)),
        lookAssoc_updAssoc_ne _ _ _ _ (fun he => h p (List.mem_cons_self p t) he.symm)]

theorem updAssoc_keys_sub {κ : Type} [DecidableEq κ] {α : Type}
    (l : List (κ × α)) (k : κ) (v : α) :
    ∀ x ∈ (updAssoc l k v).map Prod.fst, x = k ∨ x ∈ l.map Prod.fst := by
  induction l with
  | nil =>
    intro x hx
    simp [updAssoc] at hx
    exact Or.inl hx
  | cons p t ih =>
    obtain ⟨k0, v0⟩ := p
    intro x hx
    by_cases hk : k0 = k
    · subst hk
      simp only [updAssoc, if_pos rfl, List.map_cons] at hx
      rcases List.mem_cons.mp hx with h | h
      · exact Or.inl h
      · exact Or.inr (List.mem_cons_of_mem _ h)
    · simp only [updAssoc, if_neg hk, List.map_cons] at hx
      rcases List.mem_cons.mp hx with h | h
      · exact Or.inr (by simp [h])
      · rcases ih x h with h' | h'
        · exact Or.inl h'
        · exact Or.inr (List.mem_cons_of_mem _ h')

theorem updAssoc_keys_nodup {κ : Type} [DecidableEq κ] {α : Type}
    {l : List (κ × α)} (k : κ) (v : α) (h : (l.map Prod.fst).Nodup) :
    ((updAssoc l k v).map Prod.fst).Nodup := by
  induction l with
  | nil => simp [updAssoc]
  | cons p t ih =>
    obtain ⟨k0, v0⟩ := p
    simp only [List.map_cons, List.nodup_cons] at h
    by_cases hk : k0 = k
    · subst hk
      simpa [updAssoc] using h
    · simp only [updAssoc, if_neg hk, List.map_cons, List.nodup_cons]
      refine ⟨?_, ih h.2⟩
      intro hmem
      rcases updAssoc_keys_sub t k v k0 hmem with h' | h'
      · exact hk h'
      · exact h.1 h'

theorem foldSkip_keys_nodup {vd annF : List (String × JValue)} {skips : List String}
    (h : (vd.map Prod.fst).Nodup) :
    ((foldSkip vd annF skips).map Prod.fst).Nodup := by
  induction annF generalizing vd with
  | nil => exact h
  | cons p t ih =>
    simp only [foldSkip, List.foldl_cons] at ih ⊢
    by_cases hp : p.1 ∈ skips
    · rw [if_pos hp]
      exact ih h
    · rw [if_neg hp]
      exact ih (updAssoc_keys_nodup _ _ h)

/-! ## Name assignment during decoding (claim C9) -/

theorem annHasName_memA {attr : JValue} {annF : List (String × JValue)}
    (heq : jindex attr "annotation" = .ok (.obj annF))
    (h : annHasName attr = false) : memA annF "name" = false := by
  obtain ⟨fields, hj, hlook⟩ := jindex_inv heq
  rw [hj, annHasName, hlook] at h
  exact h

theorem processNodes_names {nodes : List (String × JValue)} {st st' : DecSt}
    (hids : VertIds st.g) (h : processNodes nodes st = .ok st')
    (hnn : ∀ p ∈ nodes, annHasName p.2 = false) :
    st'.g.verts.map (fun p => lookAssoc p.2.vdata "name")
      = st.g.verts.map (fun p => lookAssoc p.2.vdata "name")
        ++ (nonStubKeys nodes).map (fun k => some (.str k))
    ∧ ((∀ p ∈ st.g.verts, (p.2.vdata.map Prod.fst).Nodup)
        → ∀ p ∈ st'.g.verts, (p.2.vdata.map Prod.fst).Nodup)
    ∧ VertIds st'.g := by
  induction nodes generalizing st with
  | nil =>
    simp only [processNodes, Except.ok.injEq] at h
    subst h
    exact ⟨by simp [nonStubKeys], fun hh => hh, hids⟩
  | cons p rest ih =>
    obtain ⟨name, attr⟩ := p
    simp only [processNodes, bind, Except.bind] at h
    split at h
    · exact absurd h (by simp)
    case h_2 st1 hst1 =>
      rcases processNode_ok hids hst1 with
        ⟨hstub, hg, hnm, hhad, hin, hout⟩ |
        ⟨hstub, annF, q, r, ty, ph, gr, hg, hnm, hhad, hin, hout, hanneq⟩
      · have hids1 : VertIds st1.g := hg ▸ hids
        obtain ⟨ih1, ih2, ih3⟩ :=
          ih hids1 h (fun x hx => hnn x (List.mem_cons_of_mem _ hx))
        rw [hg] at ih1 ih2
        refine ⟨?_, ih2, ih3⟩
        rw [ih1, nonStubKeys, hstub]
      · have hids1 : VertIds st1.g := by
          rw [hg]
          intro x hx
          simp only at hx
          rcases List.mem_append.mp hx with hx | hx
          · exact Nat.lt_succ_of_lt (hids x hx)
          · simp at hx
            subst hx
            exact Nat.lt_succ_self _
        obtain ⟨ih1, ih2, ih3⟩ :=
          ih hids1 h (fun x hx => hnn x (List.mem_cons_of_mem _ hx))
        have hnoname : ∀ x ∈ annF, x.1 ≠ "name" :=
          memA_false_forall (annHasName_memA hanneq
            (hnn (name, attr) (List.mem_cons_self _ _)))
        refine ⟨?_, ?_, ih3⟩
        · rw [ih1, hg]
          simp only [List.map_append, List.map_cons, List.map_nil]
          rw [nonStubKeys, hstub]
          simp only [List.map_cons, List.append_assoc]
          have hname : lookAssoc (foldSkip [("name", JValue.str name)] annF ["coord"])
              "name" = some (.str name) := by
            rw [lookAssoc_foldSkip_noKey hnoname]
            rfl
          rw [List.singleton_append, hname]
        · intro hold
          apply ih2
          rw [hg]
          intro x hx
          rcases List.mem_append.mp hx with hx | hx
          · exact hold x hx
          · simp at hx
            rw [hx]
            exact foldSkip_keys_nodup (by simp)

theorem processWires_names {wires : List (String × JValue)} {st st' : DecSt}
    (hids : VertIds st.g) (h : processWires wires st = .ok st')
    (hnn : ∀ p ∈ wires, annHasName p.2 = false) :
    st'.g.verts.map (fun p => lookAssoc p.2.vdata "name")
      = st.g.verts.map (fun p => lookAssoc p.2.vdata "name")
        ++ wires.map (fun p => some (.str p.1))
    ∧ ((∀ p ∈ st.g.verts, (p.2.vdata.map Prod.fst).Nodup)
        → ∀ p ∈ st'.g.verts, (p.2.vdata.map Prod.fst).Nodup)
    ∧ VertIds st'.g := by
  induction wires generalizing st with
  | nil =>
    simp only [processWires, Except.ok.injEq] at h
    subst h
    exact ⟨by simp, fun hh => hh, hids⟩
  | cons p rest ih =>
    obtain ⟨name, attr⟩ := p
    simp only [processWires, bind, Except.bind] at h
    split at h
    · exact absurd h (by simp)
    case h_2 st1 hst1 =>
      obtain ⟨annF, q, r, hg, hnm, hhad, hin, hout, hanneq⟩ := processWire_ok hids hst1
      have hids1 : VertIds st1.g := by
        rw [hg]
        exact VertIds_wireStep hids name annF q r
      obtain ⟨ih1, ih2, ih3⟩ :=
        ih hids1 h (fun x hx => hnn x (List.mem_cons_of_mem _ hx))
      have hnoname : ∀ x ∈ annF, x.1 ≠ "name" :=
        memA_false_forall (annHasName_memA hanneq
          (hnn (name, attr) (List.mem_cons_self _ _)))
      refine ⟨?_, ?_, ih3⟩
      · rw [ih1, hg]
        simp only [List.map_append, List.map_cons, List.map_nil, List.append_assoc]
        have hname : lookAssoc (wireRec name annF q r).vdata "name"
            = some (.str name) := by
          simp only [wireRec]
          rw [lookAssoc_foldSkip_noKey hnoname]
          rfl
        rw [List.singleton_append, hname]
      · intro hold
        apply ih2
        rw [hg]
        intro x hx
        rcases List.mem_append.mp hx with hx | hx
        · exact hold x hx
        · simp at hx
          rw [hx]
          exact foldSkip_keys_nodup (by simp)

theorem processEdge_verts {st st' : ESt} {e : JValue} (hids : VertIds st.g)
    (h : processEdge st e = .ok st') :
    VertIds st'.g
    ∧ ∃ extra : List (Nat × GVert), st'.g.verts = st.g.verts ++ extra
      ∧ ∀ p ∈ extra, ∃ k, p.2.vdata = [("name", .str (vName k))] := by
  have hv : ∀ p ∈ st.g.verts, p.1 ≠ st.g.fresh :=
    fun p hp => Nat.ne_of_lt (hids p hp)
  unfold processEdge at h
  simp only [bind, Except.bind] at h
  repeat' split at h
  all_goals simp only [pure, Except.pure, Except.ok.injEq, reduceCtorEq] at h
  all_goals subst h
  all_goals
    try exact ⟨hids, [], (List.append_nil _).symm, by simp⟩
  -- remaining: the stub–stub branch, which synthesises a fresh Z vertex
  all_goals
    refine ⟨?_, [(st.g.fresh,
      { ty := .Z, qubit := -1, row := -1, phase := 0, ground := false,
        vdata := [("name", .str (vName st.names.length))] })], ?_, ?_⟩
  · show VertIds ((st.g.add_vertex .Z).1.set_vdata (st.g.add_vertex .Z).2 "name" _)
    rw [add_vertex_eq]
    simp only
    rw [Graph.set_vdata, updVert_append' hv]
    intro p hp
    simp only at hp
    rcases List.mem_append.mp hp with hp | hp
    · exact Nat.lt_succ_of_lt (hids p hp)
    · simp at hp
      subst hp
      exact Nat.lt_succ_self _
  · show ((st.g.add_vertex .Z).1.set_vdata (st.g.add_vertex .Z).2 "name" _).verts = _
    rw [add_vertex_eq]
    simp only
    rw [Graph.set_vdata, updVert_append' hv]
    rfl
  · intro p hp
    simp only [List.mem_singleton] at hp
    subst hp
    exact ⟨st.names.length, rfl⟩

theorem processEdges_verts {es : List JValue} {st st' : ESt} (hids : VertIds st.g)
    (h : processEdges es st = .ok st') :
    VertIds st'.g
    ∧ ∃ extra : List (Nat × GVert), st'.g.verts = st.g.verts ++ extra
      ∧ ∀ p ∈ extra, ∃ k, p.2.vdata = [("name", .str (vName k))] := by
  induction es generalizing st with
  | nil =>
    simp only [processEdges, Except.ok.injEq] at h
    subst h
    exact ⟨hids, [], (List.append_nil _).symm, by simp⟩
  | cons e rest ih =>
    simp only [processEdges, bind, Except.bind] at h
    split at h
    · exact absurd h (by simp)
    case h_2 st1 hst1 =>
      obtain ⟨hids1, ex1, hex1, hall1⟩ := processEdge_verts hids hst1
      obtain ⟨hids2, ex2, hex2, hall2⟩ := ih hids1 h
      refine ⟨hids2, ex1 ++ ex2, ?_, ?_⟩
      · rw [hex2, hex1, List.append_assoc]
      · intro p hp
        rcases List.mem_append.mp hp with hp | hp
        · exact hall1 p hp
        · exact hall2 p hp

/-- Claim C9 (amended): every vertex the decoder creates from a
`node_vertices` or `wire_vertices` entry whose annotation does not
itself contain a `name` key gets exactly the entry's own key as its
stored `externalName`, in section order (non-stub nodes first, then
wires; stub–stub synthesis appends `v<k>`-named vertices after them),
and every vertex's `vdata` map binds each key at most once, so a
vertex has at most one external name.  When an entry's annotation
does contain a `name` key the copy loop overwrites the stored name,
so the claim's "regardless of the entry's other annotation keys" is
false — see `C9_externalName_counterexample`. -/
theorem C9_externalName (j : JValue) (g : Graph) (h : json_to_graph j = .ok g)
    (hnn : ∀ p ∈ nodeSection j, annHasName p.2 = false)
    (hwn : ∀ p ∈ wireSection j, annHasName p.2 = false) :
    List.IsPrefix
      ((nonStubKeys (nodeSection j) ++ (wireSection j).map Prod.fst).map
        (fun k => some (JValue.str k)))
      (g.verts.map (fun p => lookAssoc p.2.vdata "name"))
    ∧ ∀ p ∈ g.verts, (p.2.vdata.map Prod.fst).Nodup := by
  unfold json_to_graph at h
  simp only [bind, Except.bind] at h
  split at h
  · exact absurd h (by simp)
  case h_2 jf hjf =>
    split at h
    · exact absurd h (by simp)
    case h_2 nodes hnodes =>
      split at h
      · exact absurd h (by simp)
      case h_2 st1 hst1 =>
        split at h
        · exact absurd h (by simp)
        case h_2 wires hwires =>
          split at h
          · exact absurd h (by simp)
          case h_2 st2 hst2 =>
            split at h
            · exact absurd h (by simp)
            case h_2 edgeL hedgeL =>
              split at h
              · exact absurd h (by simp)
              case h_2 st3 hst3 =>
                split at h
                · exact absurd h (by simp)
                case h_2 etab hetab =>
                  simp only [pure, Except.pure, Except.ok.injEq] at h
                  have hjo := jitems_inv hjf
                  have hnodesec : nodeSection j = nodes := by
                    rw [hjo, nodeSection]
                    rw [jitems_inv hnodes]
                  have hwiresec : wireSection j = wires := by
                    rw [hjo, wireSection]
                    rw [jitems_inv hwires]
                  have hids0 : VertIds ({} : DecSt).g := fun p hp => by simp at hp
                  obtain ⟨n1, n2, n3⟩ :=
                    processNodes_names hids0 hst1 (hnodesec ▸ hnn)
                  obtain ⟨w1, w2, w3⟩ :=
                    processWires_names n3 hst2 (hwiresec ▸ hwn)
                  have hg0ids :
                      VertIds ((st2.g.set_inputs st2.inputs).set_outputs st2.outputs) :=
                    w3
                  obtain ⟨e3, extra, hex, hall⟩ := processEdges_verts hg0ids hst3
                  have hgverts : g.verts = st3.g.verts := by
                    rw [← h]
                    split <;> exact (add_edge_table_pres etab _).2.2.1
                  have hex' : st3.g.verts = st2.g.verts ++ extra := hex
                  constructor
                  · refine ⟨extra.map (fun p => lookAssoc p.2.vdata "name"), ?_⟩
                    rw [hgverts, hex']
                    simp only [List.map_append]
                    rw [w1, n1]
                    simp [hnodesec, hwiresec, Function.comp, List.append_assoc]
                  · intro p hp
                    rw [hgverts, hex'] at hp
                    rcases List.mem_append.mp hp with hp | hp
                    · exact w2 (n2 (fun x hx => by simp at hx)) p hp
                    · obtain ⟨k, hk⟩ := hall p hp
                      rw [hk]
                      simp

/-- Witness for `C9_externalName`: a one-node, one-wire document with
clean annotations decodes so that the two vertices carry exactly their
entry keys `n0` and `w0` as stored names. -/
theorem C9_externalName_witness :
    ∃ g, json_to_graph c9doc = .ok g
      ∧ (∀ p ∈ nodeSection c9doc, annHasName p.2 = false)
      ∧ (∀ p ∈ wireSection c9doc, annHasName p.2 = false)
      ∧ g.verts.map (fun p => lookAssoc p.2.vdata "name")
          = [some (.str "n0"), some (.str "w0")]
      ∧ List.IsPrefix
          ((nonStubKeys (nodeSection c9doc)
            ++ (wireSection c9doc).map Prod.fst).map (fun k => some (JValue.str k)))
          (g.verts.map (fun p => lookAssoc p.2.vdata "name"))
      ∧ (∀ p ∈ g.verts, (p.2.vdata.map Prod.fst).Nodup) :=
  ⟨_, rfl, by decide, by decide, rfl,
    (C9_externalName c9doc _ rfl (by decide) (by decide)).1,
    (C9_externalName c9doc _ rfl (by decide) (by decide)).2⟩

/-- Counterexample to claim C9 as stated: an entry whose annotation
itself contains a `name` key does not keep its entry key as external
name — the annotation copy loop overwrites it (`v0`'s stored name
becomes `evil`). -/
theorem C9_externalName_counterexample :
    ∃ g, json_to_graph (.obj [("node_vertices", .obj
        [("v0", .obj [("annotation", .obj
            [("coord", .arr [.num 0, .num 0]), ("name", .str "evil")])])])]) = .ok g
      ∧ g.vdata 0 "name" = some (.str "evil")
      ∧ some (JValue.str "evil") ≠ some (JValue.str "v0") :=
  ⟨_, rfl, rfl, by simp⟩

/-! ## The Hadamard-stub post-pass (claim C5) -/

theorem checkHadamards_err {stubs : List (String × List Nat)}
    {etab : List ((Nat × Nat) × (Nat × Nat))}
    (hbad : ∃ s ∈ stubs, s.2.length ≠ 2) :
    checkHadamards stubs etab = .error .malformedHadamard := by
  induction stubs generalizing etab with
  | nil => simp at hbad
  | cons s rest ih =>
    obtain ⟨k, l⟩ := s
    rcases l with _ | ⟨a, _ | ⟨b, _ | ⟨c, t⟩⟩⟩
    · rfl
    · rfl
    · obtain ⟨x, hx, hlen⟩ := hbad
      rcases List.mem_cons.mp hx with rfl | hx
      · simp at hlen
      · exact ih ⟨x, hx, hlen⟩
    · rfl

theorem checkHadamards_ok_counts {stubs : List (String × List Nat)}
    {etab etab' : List ((Nat × Nat) × (Nat × Nat))}
    (h : checkHadamards stubs etab = .ok etab') (e : Nat × Nat) :
    ((lookAssoc etab' e).getD (0, 0)).2
      = ((lookAssoc etab e).getD (0, 0)).2
        + (stubs.filter (fun s => decide (stubPair s.2 = some e))).length := by
  induction stubs generalizing etab with
  | nil =>
    simp only [checkHadamards, Except.ok.injEq] at h
    subst h
    simp
  | cons s rest ih =>
    obtain ⟨k, l⟩ := s
    rcases l with _ | ⟨a, _ | ⟨b, _ | ⟨c, t⟩⟩⟩
    · exact absurd h (by simp [checkHadamards])
    · exact absurd h (by simp [checkHadamards])
    · simp only [checkHadamards] at h
      have := ih h
      rw [this]
      by_cases he : pairKey a b = e
      · rw [List.filter_cons]
        simp only [stubPair, he, decide_eq_true_eq]
        rw [if_pos (by simp [he])]
        subst he
        rw [lookAssoc_updAssoc_self]
        simp only [Option.getD_some, List.length_cons]
        omega
      · rw [List.filter_cons, if_neg (by simp [stubPair, he]),
          lookAssoc_updAssoc_ne _ _ _ _ (fun hh => he hh.symm)]
    · exact absurd h (by simp [checkHadamards])

theorem checkHadamards_ok_of_all2 (stubs : List (String × List Nat))
    (etab : List ((Nat × Nat) × (Nat × Nat)))
    (hall : ∀ s ∈ stubs, s.2.length = 2) :
    ∃ etab', checkHadamards stubs etab = .ok etab' := by
  induction stubs generalizing etab with
  | nil => exact ⟨etab, rfl⟩
  | cons s rest ih =>
    obtain ⟨k, l⟩ := s
    have hl := hall (k, l) (List.mem_cons_self _ _)
    rcases l with _ | ⟨a, _ | ⟨b, _ | ⟨c, t⟩⟩⟩
    · simp at hl
    · simp at hl
    · exact ih _ (fun x hx => hall x (List.mem_cons_of_mem _ hx))
    · simp at hl

/-- Claim C5: when the vertex and edge passes of the decoder succeed and
some Hadamard stub has accumulated a number of neighbours different
from 2, the whole decode fails with the malformed-Hadamard error (and
returns no diagram); when every stub has exactly two neighbours, the
post-pass succeeds and each stub contributes exactly one
hadamard-count increment for its neighbour pair in the edge table. -/
theorem C5_malformed_hadamard (j : JValue) (jf nodes wires edgeL : List (String × JValue))
    (st1 st2 : DecSt) (st3 : ESt)
    (hjf : jitems j = .ok jf)
    (hnodes : jitems ((lookAssoc jf "node_vertices").getD (.obj [])) = .ok nodes)
    (hst1 : processNodes nodes {} = .ok st1)
    (hwires : jitems ((lookAssoc jf "wire_vertices").getD (.obj [])) = .ok wires)
    (hst2 : processWires wires st1 = .ok st2)
    (hedge : jitems ((lookAssoc jf "undir_edges").getD (.obj [])) = .ok edgeL)
    (hst3 : processEdges (edgeL.map Prod.snd)
      { g := (st2.g.set_inputs st2.inputs).set_outputs st2.outputs,
        names := st2.names, hadamards := st2.hadamards } = .ok st3) :
    ((∃ s ∈ st3.hadamards, s.2.length ≠ 2) →
      json_to_graph j = .error .malformedHadamard)
    ∧ ((∀ s ∈ st3.hadamards, s.2.length = 2) →
      ∃ etab', checkHadamards st3.hadamards st3.etab = .ok etab'
        ∧ ∀ e : Nat × Nat,
          ((lookAssoc etab' e).getD (0, 0)).2
            = ((lookAssoc st3.etab e).getD (0, 0)).2
              + (st3.hadamards.filter
                  (fun s => decide (stubPair s.2 = some e))).length) := by
  constructor
  · intro hbad
    unfold json_to_graph
    simp only [bind, Except.bind, hjf, hnodes, hst1, hwires, hst2, hedge, hst3,
      checkHadamards_err hbad]
  · intro hall
    obtain ⟨etab', hetab'⟩ := checkHadamards_ok_of_all2 st3.hadamards st3.etab hall
    exact ⟨etab', hetab', fun e => checkHadamards_ok_counts hetab' e⟩

/-- Witness for `C5_malformed_hadamard`: the concrete document `c5doc`,
whose stub `h0` is referenced by exactly one edge, fails to decode with
the malformed-Hadamard error. -/
theorem C5_malformed_hadamard_witness :
    json_to_graph c5doc = .error .malformedHadamard :=
  (C5_malformed_hadamard c5doc _ _ _ _ _ _ _ rfl rfl rfl rfl rfl rfl rfl).1
    (by decide)

/-- Claim C7 (amended): the single-node document with `coord=[0,0]` and
no `data` decodes to one vertex with `qubit=0, row=0, kind Z, phase 0`
(and stored external name `v0`); re-encoding that diagram yields a
`node_vertices` entry whose `data` section is exactly
`{"type": "Z"}` — `value` and `ground` are omitted because the phase
is 0 and the ground flag unset, but the section itself is present,
since the encoder always writes the `type` key. -/
theorem C7_concrete_scenario :
    ∃ g doc', json_to_graph c7doc = .ok g
      ∧ g.verts = [(0, { ty := .Z, qubit := 0, row := 0, phase := 0, ground := false,
                         vdata := [("name", .str "v0")] })]
      ∧ graph_to_json g = .ok doc'
      ∧ jindex doc' "node_vertices" = .ok (.obj [("v0", .obj
          [("annotation", .obj [("coord", .arr [.num 0, .num 0]), ("name", .str "v0")]),
           ("data", .obj [("type", .str "Z")])])]) :=
  ⟨_, _, rfl, rfl, rfl, rfl⟩

/-- Counterexample to claim C7 as stated: re-encoding the decoded
one-node diagram does not omit the `data` section — the emitted entry
contains a `data` key (holding `{"type": "Z"}`). -/
theorem C7_concrete_scenario_counterexample :
    ∃ g, json_to_graph c7doc = .ok g
      ∧ ∃ doc', graph_to_json g = .ok doc'
      ∧ ∃ entryFields, jindex doc' "node_vertices"
          = .ok (.obj [("v0", .obj entryFields)])
      ∧ memA entryFields "data" = true :=
  ⟨_, rfl, _, rfl, _, rfl, rfl⟩

/-! ## Characterisation of the encoder's vertex loop -/

theorem lookAssoc_append_none {κ : Type} [DecidableEq κ] {α : Type}
    (l₁ l₂ : List (κ × α)) (k : κ) (h : lookAssoc l₁ k = none) :
    lookAssoc (l₁ ++ l₂) k = lookAssoc l₂ k := by
  induction l₁ with
  | nil => rfl
  | cons p t ih =>
    obtain ⟨k0, v0⟩ := p
    rw [List.cons_append]
    by_cases hk : k0 = k
    · simp [lookAssoc, hk] at h
    · simp only [lookAssoc, if_neg hk] at h ⊢
      exact ih h

theorem lookAssoc_append_some {κ : Type} [DecidableEq κ] {α : Type}
    (l₁ l₂ : List (κ × α)) (k : κ) (v : α) (h : lookAssoc l₁ k = some v) :
    lookAssoc (l₁ ++ l₂) k = some v := by
  induction l₁ with
  | nil => simp [lookAssoc] at h
  | cons p t ih =>
    obtain ⟨k0, v0⟩ := p
    rw [List.cons_append]
    by_cases hk : k0 = k
    · simp only [lookAssoc, if_pos hk] at h ⊢
      exact h
    · simp only [lookAssoc, if_neg hk] at h ⊢
      exact ih h

theorem boundCount_cons_bound {w : GVert} (hb : w.ty = .BOUNDARY)
    (v : Nat) (rest : List (Nat × GVert)) :
    boundCount ((v, w) :: rest) = boundCount rest + 1 := by
  simp [boundCount, List.filter, hb]

theorem boundCount_cons_node {w : GVert} (hb : w.ty ≠ .BOUNDARY)
    (v : Nat) (rest : List (Nat × GVert)) :
    boundCount ((v, w) :: rest) = boundCount rest := by
  simp [boundCount, List.filter, hb]

theorem nonBoundCount_cons_bound {w : GVert} (hb : w.ty = .BOUNDARY)
    (v : Nat) (rest : List (Nat × GVert)) :
    nonBoundCount ((v, w) :: rest) = nonBoundCount rest := by
  simp [nonBoundCount, List.filter, hb]

theorem nonBoundCount_cons_node {w : GVert} (hb : w.ty ≠ .BOUNDARY)
    (v : Nat) (rest : List (Nat × GVert)) :
    nonBoundCount ((v, w) :: rest) = nonBoundCount rest + 1 := by
  simp [nonBoundCount, List.filter, hb]

theorem encVertsSpec_cons_bound (g : Graph) {w : GVert} (hb : w.ty = .BOUNDARY)
    (v : Nat) (rest : List (Nat × GVert)) (fnv fnb : List String) :
    encVertsSpec g ((v, w) :: rest) fnv fnb =
      ((encVertsSpec g rest fnv fnb.tail).1,
       (fnb.headD "", wireEntry g v w) :: (encVertsSpec g rest fnv fnb.tail).2.1,
       (v, fnb.headD "") :: (encVertsSpec g rest fnv fnb.tail).2.2) := by
  obtain ⟨ty, q, r, ph, gr, vd⟩ := w
  cases ty
  case BOUNDARY => rfl
  all_goals simp at hb

theorem encVertsSpec_cons_node (g : Graph) {w : GVert} (hb : w.ty ≠ .BOUNDARY)
    (v : Nat) (rest : List (Nat × GVert)) (fnv fnb : List String) :
    encVertsSpec g ((v, w) :: rest) fnv fnb =
      ((fnv.headD "", nodeEntry w) :: (encVertsSpec g rest fnv.tail fnb).1,
       (encVertsSpec g rest fnv.tail fnb).2.1,
       (v, fnv.headD "") :: (encVertsSpec g rest fnv.tail fnb).2.2) := by
  obtain ⟨ty, q, r, ph, gr, vd⟩ := w
  cases ty
  case BOUNDARY => exact absurd rfl hb
  all_goals rfl

theorem encodeVertex_noName_bound (g : Graph) (st : EncSt) (v : Nat) (w : GVert)
    (hn : storedName w = none) (hb : w.ty = .BOUNDARY)
    (nm : String) (rest : List String) (hfnb : st.fnb = nm :: rest) :
    encodeVertex g st v w = .ok { st with
      wire_vs := updAssoc st.wire_vs nm (wireEntry g v w),
      names := st.names ++ [(v, nm)],
      fnb := rest } := by
  obtain ⟨ty, q, r, ph, gr, vd⟩ := w
  cases ty
  case BOUNDARY =>
    simp only [encodeVertex, hn, hfnb, bind, Except.bind]
    rfl
  all_goals simp at hb

theorem encodeVertex_noName_node (g : Graph) (st : EncSt) (v : Nat) (w : GVert)
    (hn : storedName w = none) (hb : w.ty ≠ .BOUNDARY)
    (nm : String) (rest : List String) (hfnv : st.fnv = nm :: rest) :
    encodeVertex g st v w = .ok { st with
      node_vs := updAssoc st.node_vs nm (nodeEntry w),
      names := st.names ++ [(v, nm)],
      fnv := rest } := by
  obtain ⟨ty, q, r, ph, gr, vd⟩ := w
  cases ty
  case BOUNDARY => exact absurd rfl hb
  all_goals
    simp only [encodeVertex, hn, hfnv, bind, Except.bind]
    rfl

theorem encodeVerts_noNames (g : Graph) (vl : List (Nat × GVert)) :
    ∀ st : EncSt,
    (∀ p ∈ vl, storedName p.2 = none) →
    nonBoundCount vl ≤ st.fnv.length →
    boundCount vl ≤ st.fnb.length →
    st.fnv.Nodup → st.fnb.Nodup →
    (∀ nm ∈ st.fnv, lookAssoc st.node_vs nm = none) →
    (∀ nm ∈ st.fnb, lookAssoc st.wire_vs nm = none) →
    encodeVerts g vl st = .ok
      { node_vs := st.node_vs ++ (encVertsSpec g vl st.fnv st.fnb).1,
        wire_vs := st.wire_vs ++ (encVertsSpec g vl st.fnv st.fnb).2.1,
        names := st.names ++ (encVertsSpec g vl st.fnv st.fnb).2.2,
        fnv := st.fnv.drop (nonBoundCount vl),
        fnb := st.fnb.drop (boundCount vl) } := by
  induction vl with
  | nil =>
    intro st _ _ _ _ _ _ _
    simp [encodeVerts, encVertsSpec, nonBoundCount, boundCount]
  | cons p rest ih =>
    obtain ⟨v, w⟩ := p
    intro st hnn hlv hlb hnv hnb hkv hkb
    have hnhead : storedName w = none := hnn (v, w) (List.mem_cons_self _ _)
    have hntail : ∀ q ∈ rest, storedName q.2 = none :=
      fun q hq => hnn q (List.mem_cons_of_mem _ hq)
    by_cases hb : w.ty = .BOUNDARY
    · cases hfnb : st.fnb with
      | nil =>
        rw [boundCount_cons_bound hb, hfnb] at hlb
        simp at hlb
      | cons nm fnb' =>
        have hstep := encodeVertex_noName_bound g st v w hnhead hb nm fnb' hfnb
        have hwnm : lookAssoc st.wire_vs nm = none := by
          refine hkb nm ?_
          rw [hfnb]; exact List.mem_cons_self _ _
        have hupd : updAssoc st.wire_vs nm (wireEntry g v w)
            = st.wire_vs ++ [(nm, wireEntry g v w)] := updAssoc_absent _ _ _ hwnm
        have hkb' : ∀ x ∈ fnb',
            lookAssoc (st.wire_vs ++ [(nm, wireEntry g v w)]) x = none := by
          intro x hx
          have hxs : x ∈ st.fnb := by rw [hfnb]; exact List.mem_cons_of_mem _ hx
          rw [lookAssoc_append_none _ _ _ (hkb x hxs)]
          have hne : nm ≠ x := by
            intro hEq
            rw [hfnb] at hnb
            exact (List.nodup_cons.mp hnb).1 (hEq ▸ hx)
          simp [lookAssoc, hne]
        have hnb' : fnb'.Nodup := by
          rw [hfnb] at hnb
          exact (List.nodup_cons.mp hnb).2
        have hlb' : boundCount rest ≤ fnb'.length := by
          rw [boundCount_cons_bound hb, hfnb] at hlb
          simpa using hlb
        have hlv' : nonBoundCount rest ≤ st.fnv.length := by
          rw [nonBoundCount_cons_bound hb] at hlv
          exact hlv
        have hih := ih { st with
            wire_vs := updAssoc st.wire_vs nm (wireEntry g v w),
            names := st.names ++ [(v, nm)],
            fnb := fnb' }
          hntail hlv' hlb' hnv hnb' hkv (by rw [hupd]; exact hkb')
        simp only [encodeVerts, bind, Except.bind, hstep]
        rw [hih]
        rw [encVertsSpec_cons_bound g hb v rest st.fnv (nm :: fnb')]
        simp [hupd, boundCount_cons_bound hb, nonBoundCount_cons_bound hb,
              List.append_assoc, List.drop_succ_cons]
    · cases hfnv : st.fnv with
      | nil =>
        rw [nonBoundCount_cons_node hb, hfnv] at hlv
        simp at hlv
      | cons nm fnv' =>
        have hstep := encodeVertex_noName_node g st v w hnhead hb nm fnv' hfnv
        have hvnm : lookAssoc st.node_vs nm = none := by
          refine hkv nm ?_
          rw [hfnv]; exact List.mem_cons_self _ _
        have hupd : updAssoc st.node_vs nm (nodeEntry w)
            = st.node_vs ++ [(nm, nodeEntry w)] := updAssoc_absent _ _ _ hvnm
        have hkv' : ∀ x ∈ fnv',
            lookAssoc (st.node_vs ++ [(nm, nodeEntry w)]) x = none := by
          intro x hx
          have hxs : x ∈ st.fnv := by rw [hfnv]; exact List.mem_cons_of_mem _ hx
          rw [lookAssoc_append_none _ _ _ (hkv x hxs)]
          have hne : nm ≠ x := by
            intro hEq
            rw [hfnv] at hnv
            exact (List.nodup_cons.mp hnv).1 (hEq ▸ hx)
          simp [lookAssoc, hne]
        have hnv' : fnv'.Nodup := by
          rw [hfnv] at hnv
          exact (List.nodup_cons.mp hnv).2
        have hlv' : nonBoundCount rest ≤ fnv'.length := by
          rw [nonBoundCount_cons_node hb, hfnv] at hlv
          simpa using hlv
        have hlb' : boundCount rest ≤ st.fnb.length := by
          rw [boundCount_cons_node hb] at hlb
          exact hlb
        have hih := ih { st with
            node_vs := updAssoc st.node_vs nm (nodeEntry w),
            names := st.names ++ [(v, nm)],
            fnv := fnv' }
          hntail hlv' hlb' hnv' hnb (by rw [hupd]; exact hkv') hkb
        simp only [encodeVerts, bind, Except.bind, hstep]
        rw [hih]
        rw [encVertsSpec_cons_node g hb v rest (nm :: fnv') st.fnb]
        simp [hupd, boundCount_cons_node hb, nonBoundCount_cons_node hb,
              List.append_assoc, List.drop_succ_cons]

/-! ## Characterisation of the encoder's edge loop -/

theorem natRepr_inj {m n : Nat} (h : natRepr m = natRepr n) : m = n := by
  have h2 := digitsVal_natRepr m
  rw [h, digitsVal_natRepr] at h2
  exact h2.symm

theorem eName_inj {i j : Nat} (h : eName i = eName j) : i = j := by
  have h2 : 'e' :: natRepr i = 'e' :: natRepr j := congrArg String.data h
  simp only [List.cons.injEq] at h2
  exact natRepr_inj h2.2

theorem encodeEdge_simple (g : Graph) (names : List (Nat × String)) (st : EdgeEncSt)
    (s t : Nat) (ns nt : String)
    (hs : lookAssoc names s = some ns) (ht : lookAssoc names t = some nt) :
    encodeEdge g names st ((s, t), .SIMPLE) = .ok { st with
      edges := updAssoc st.edges (eName st.i)
        (.obj [("src", .str ns), ("tgt", .str nt)]),
      i := st.i + 1 } := by
  simp only [encodeEdge, hs, ht, bind, Except.bind]

theorem encodeEdge_wio (g : Graph) (names : List (Nat × String)) (st : EdgeEncSt)
    (s t : Nat) (ns nt : String)
    (hs : lookAssoc names s = some ns) (ht : lookAssoc names t = some nt) :
    encodeEdge g names st ((s, t), .W_IO_EDGE) = .ok { st with
      edges := updAssoc st.edges (eName st.i)
        (.obj [("src", .str ns), ("tgt", .str nt), ("type", .str "w_io")]),
      i := st.i + 1 } := by
  simp only [encodeEdge, hs, ht, bind, Except.bind]

theorem encodeEdge_had (g : Graph) (names : List (Nat × String)) (st : EdgeEncSt)
    (s t : Nat) (ns nt nm : String) (rest : List String)
    (hs : lookAssoc names s = some ns) (ht : lookAssoc names t = some nt)
    (hfnv : st.fnv = nm :: rest) :
    encodeEdge g names st ((s, t), .HADAMARD) = .ok { st with
      node_vs := updAssoc st.node_vs nm (auxEntry g s t),
      edges := updAssoc (updAssoc st.edges (eName st.i)
          (.obj [("src", .str ns), ("tgt", .str nm)]))
        (eName (st.i + 1)) (.obj [("src", .str nt), ("tgt", .str nm)]),
      i := st.i + 2,
      fnv := rest } := by
  simp only [encodeEdge, hs, ht, hfnv, bind, Except.bind]
  rfl

theorem encodeEdges_ok (g : Graph) (names : List (Nat × String))
    (el : List ((Nat × Nat) × EdgeType)) :
    ∀ st : EdgeEncSt,
    (∀ e ∈ el, (lookAssoc names e.1.1).isSome ∧ (lookAssoc names e.1.2).isSome) →
    hadCount el ≤ st.fnv.length →
    st.fnv.Nodup →
    (∀ nm ∈ st.fnv, lookAssoc st.node_vs nm = none) →
    (∀ j, st.i ≤ j → lookAssoc st.edges (eName j) = none) →
    encodeEdges g names el st = .ok
      { node_vs := st.node_vs ++ (encEdgesSpec g names el st.fnv st.i).1,
        edges := st.edges ++ (encEdgesSpec g names el st.fnv st.i).2,
        i := st.i + edgeNameCount el,
        fnv := st.fnv.drop (hadCount el) } := by
  induction el with
  | nil =>
    intro st _ _ _ _ _
    simp [encodeEdges, encEdgesSpec, edgeNameCount, hadCount]
  | cons e rest ih =>
    obtain ⟨⟨s, t⟩, ty⟩ := e
    intro st hnames hlen hnv hkeys hek
    obtain ⟨hss, hts⟩ := hnames _ (List.mem_cons_self _ _)
    obtain ⟨ns, hns⟩ := Option.isSome_iff_exists.mp hss
    obtain ⟨nt, hnt⟩ := Option.isSome_iff_exists.mp hts
    have hntail : ∀ e ∈ rest,
        (lookAssoc names e.1.1).isSome ∧ (lookAssoc names e.1.2).isSome :=
      fun e he => hnames e (List.mem_cons_of_mem _ he)
    cases ty
    case SIMPLE =>
      have hc : hadCount (((s, t), .SIMPLE) :: rest) = hadCount rest := by
        simp [hadCount, List.filter]
      have hupd : updAssoc st.edges (eName st.i)
            (.obj [("src", .str ns), ("tgt", .str nt)])
          = st.edges ++ [(eName st.i, .obj [("src", .str ns), ("tgt", .str nt)])] :=
        updAssoc_absent _ _ _ (hek st.i (Nat.le_refl _))
      have hek' : ∀ j, st.i + 1 ≤ j →
          lookAssoc (st.edges ++ [(eName st.i,
              (.obj [("src", .str ns), ("tgt", .str nt)] : JValue))]) (eName j) = none := by
        intro j hj
        rw [lookAssoc_append_none _ _ _ (hek j (Nat.le_of_succ_le hj))]
        have hne : eName st.i ≠ eName j := by
          intro hEq
          have := eName_inj hEq
          omega
        simp [lookAssoc, hne]
      have hih := ih { st with
          edges := updAssoc st.edges (eName st.i)
            (.obj [("src", .str ns), ("tgt", .str nt)]),
          i := st.i + 1 }
        hntail (hc ▸ hlen) hnv hkeys (by rw [hupd]; exact hek')
      simp only [encodeEdges, bind, Except.bind,
        encodeEdge_simple g names st s t ns nt hns hnt]
      rw [hih]
      simp [encEdgesSpec, edgeNameCount, hupd, hc, hns, hnt,
            List.append_assoc, Nat.add_assoc]
    case W_IO_EDGE =>
      have hc : hadCount (((s, t), .W_IO_EDGE) :: rest) = hadCount rest := by
        simp [hadCount, List.filter]
      have hupd : updAssoc st.edges (eName st.i)
            (.obj [("src", .str ns), ("tgt", .str nt), ("type", .str "w_io")])
          = st.edges ++ [(eName st.i,
              .obj [("src", .str ns), ("tgt", .str nt), ("type", .str "w_io")])] :=
        updAssoc_absent _ _ _ (hek st.i (Nat.le_refl _))
      have hek' : ∀ j, st.i + 1 ≤ j →
          lookAssoc (st.edges ++ [(eName st.i,
              (.obj [("src", .str ns), ("tgt", .str nt), ("type", .str "w_io")] : JValue))])
            (eName j) = none := by
        intro j hj
        rw [lookAssoc_append_none _ _ _ (hek j (Nat.le_of_succ_le hj))]
        have hne : eName st.i ≠ eName j := by
          intro hEq
          have := eName_inj hEq
          omega
        simp [lookAssoc, hne]
      have hih := ih { st with
          edges := updAssoc st.edges (eName st.i)
            (.obj [("src", .str ns), ("tgt", .str nt), ("type", .str "w_io")]),
          i := st.i + 1 }
        hntail (hc ▸ hlen) hnv hkeys (by rw [hupd]; exact hek')
      simp only [encodeEdges, bind, Except.bind,
        encodeEdge_wio g names st s t ns nt hns hnt]
      rw [hih]
      simp [encEdgesSpec, edgeNameCount, hupd, hc, hns, hnt,
            List.append_assoc, Nat.add_assoc]
    case HADAMARD =>
      have hc : hadCount (((s, t), .HADAMARD) :: rest) = hadCount rest + 1 := by
        simp [hadCount, List.filter]
      cases hfnv : st.fnv with
      | nil =>
        rw [hc, hfnv] at hlen
        simp at hlen
      | cons nm fnv' =>
        have hstep := encodeEdge_had g names st s t ns nt nm fnv' hns hnt hfnv
        have hvnm : lookAssoc st.node_vs nm = none := by
          refine hkeys nm ?_
          rw [hfnv]; exact List.mem_cons_self _ _
        have hupdn : updAssoc st.node_vs nm (auxEntry g s t)
            = st.node_vs ++ [(nm, auxEntry g s t)] := updAssoc_absent _ _ _ hvnm
        have hupd1 : updAssoc st.edges (eName st.i)
              (.obj [("src", .str ns), ("tgt", .str nm)])
            = st.edges ++ [(eName st.i, .obj [("src", .str ns), ("tgt", .str nm)])] :=
          updAssoc_absent _ _ _ (hek st.i (Nat.le_refl _))
        have hlook1 : lookAssoc (st.edges ++ [(eName st.i,
              (.obj [("src", .str ns), ("tgt", .str nm)] : JValue))])
            (eName (st.i + 1)) = none := by
          rw [lookAssoc_append_none _ _ _ (hek (st.i + 1) (Nat.le_succ _))]
          have hne : eName st.i ≠ eName (st.i + 1) := by
            intro hEq
            have := eName_inj hEq
            omega
          simp [lookAssoc, hne]
        have hupd2 : updAssoc (st.edges ++ [(eName st.i,
                (.obj [("src", .str ns), ("tgt", .str nm)] : JValue))])
              (eName (st.i + 1)) (.obj [("src", .str nt), ("tgt", .str nm)])
            = st.edges ++ [(eName st.i, .obj [("src", .str ns), ("tgt", .str nm)]),
                (eName (st.i + 1), .obj [("src", .str nt), ("tgt", .str nm)])] := by
          rw [updAssoc_absent _ _ _ hlook1, List.append_assoc]
          rfl
        have hek' : ∀ j, st.i + 2 ≤ j →
            lookAssoc (st.edges ++ [(eName st.i,
                  (.obj [("src", .str ns), ("tgt", .str nm)] : JValue)),
                (eName (st.i + 1), .obj [("src", .str nt), ("tgt", .str nm)])])
              (eName j) = none := by
          intro j hj
          rw [lookAssoc_append_none _ _ _ (hek j (by omega))]
          have hne1 : eName st.i ≠ eName j := by
            intro hEq
            have := eName_inj hEq
            omega
          have hne2 : eName (st.i + 1) ≠ eName j := by
            intro hEq
            have := eName_inj hEq
            omega
          simp [lookAssoc, hne1, hne2]
        have hnv' : fnv'.Nodup := by
          rw [hfnv] at hnv
          exact (List.nodup_cons.mp hnv).2
        have hlen' : hadCount rest ≤ fnv'.length := by
          rw [hc, hfnv] at hlen
          simpa using hlen
        have hkeys' : ∀ x ∈ fnv',
            lookAssoc (st.node_vs ++ [(nm, auxEntry g s t)]) x = none := by
          intro x hx
          have hxs : x ∈ st.fnv := by rw [hfnv]; exact List.mem_cons_of_mem _ hx
          rw [lookAssoc_append_none _ _ _ (hkeys x hxs)]
          have hne : nm ≠ x := by
            intro hEq
            rw [hfnv] at hnv
            exact (List.nodup_cons.mp hnv).1 (hEq ▸ hx)
          simp [lookAssoc, hne]
        have hih := ih { st with
            node_vs := updAssoc st.node_vs nm (auxEntry g s t),
            edges := updAssoc (updAssoc st.edges (eName st.i)
                (.obj [("src", .str ns), ("tgt", .str nm)]))
              (eName (st.i + 1)) (.obj [("src", .str nt), ("tgt", .str nm)]),
            i := st.i + 2,
            fnv := fnv' }
          hntail hlen' hnv' (by rw [hupdn]; exact hkeys')
          (by rw [hupd1, hupd2]; exact hek')
        simp only [encodeEdges, bind, Except.bind, hstep]
        rw [hih]
        simp [encEdgesSpec, edgeNameCount, hupdn, hupd1, hupd2, hc, hns, hnt,
              List.append_assoc, Nat.add_assoc, List.drop_succ_cons]

/-! ## Shape of the encoder output -/

theorem lookAssoc_eq_none_of_not_mem {κ : Type} [DecidableEq κ] {α : Type}
    {l : List (κ × α)} {k : κ} (h : k ∉ l.map Prod.fst) : lookAssoc l k = none := by
  induction l with
  | nil => rfl
  | cons p t ih =>
    obtain ⟨k0, v0⟩ := p
    simp only [List.map_cons, List.mem_cons] at h
    push_neg at h
    rw [lookAssoc, if_neg (fun he => h.1 he.symm)]
    exact ih h.2

theorem lookAssoc_isSome_of_mem {κ : Type} [DecidableEq κ] {α : Type}
    {l : List (κ × α)} {k : κ} (h : k ∈ l.map Prod.fst) : (lookAssoc l k).isSome := by
  induction l with
  | nil => simp at h
  | cons p t ih =>
    obtain ⟨k0, v0⟩ := p
    by_cases hk : k0 = k
    · simp [lookAssoc, hk]
    · simp only [List.map_cons, List.mem_cons] at h
      rcases h with h | h
      · exact absurd h.symm hk
      · simp only [lookAssoc, if_neg hk]
        exact ih h

theorem freenames_length (c : Char) (n : Nat) : (freenames c n).length = n := by
  simp [freenames]

theorem freenames_nodup (c : Char) (n : Nat) : (freenames c n).Nodup := by
  rw [freenames]
  refine List.Nodup.map ?_ (List.nodup_range n)
  intro i j hij
  have h2 : c :: natRepr i = c :: natRepr j := congrArg String.data hij
  simp only [List.cons.injEq] at h2
  exact natRepr_inj h2.2

theorem freenames_head (c : Char) {n : Nat} {s : String} (h : s ∈ freenames c n) :
    ∃ i, i < n ∧ s = ⟨c :: natRepr i⟩ := by
  rw [freenames] at h
  obtain ⟨i, hi, hs⟩ := List.mem_map.mp h
  exact ⟨i, List.mem_range.mp hi, hs.symm⟩

theorem freenames_disjoint {c d : Char} (hcd : c ≠ d) {n m : Nat} {s : String}
    (hc : s ∈ freenames c n) (hd : s ∈ freenames d m) : False := by
  obtain ⟨i, _, hi⟩ := freenames_head c hc
  obtain ⟨j, _, hj⟩ := freenames_head d hd
  rw [hi] at hj
  have h2 : c :: natRepr i = d :: natRepr j := congrArg String.data hj
  simp only [List.cons.injEq] at h2
  exact hcd h2.1

theorem encVertsSpec_names_keys (g : Graph) (vl : List (Nat × GVert)) :
    ∀ fnv fnb : List String,
    (encVertsSpec g vl fnv fnb).2.2.map Prod.fst = vl.map Prod.fst := by
  induction vl with
  | nil => intro fnv fnb; rfl
  | cons p rest ih =>
    obtain ⟨v, w⟩ := p
    intro fnv fnb
    by_cases hb : w.ty = .BOUNDARY
    · rw [encVertsSpec_cons_bound g hb]
      simp [ih]
    · rw [encVertsSpec_cons_node g hb]
      simp [ih]

theorem encVertsSpec_node_keys (g : Graph) (vl : List (Nat × GVert)) :
    ∀ fnv fnb : List String, nonBoundCount vl ≤ fnv.length →
    (encVertsSpec g vl fnv fnb).1.map Prod.fst = fnv.take (nonBoundCount vl) := by
  induction vl with
  | nil =>
    intro fnv fnb _
    simp [encVertsSpec, nonBoundCount]
  | cons p rest ih =>
    obtain ⟨v, w⟩ := p
    intro fnv fnb hl
    by_cases hb : w.ty = .BOUNDARY
    · rw [encVertsSpec_cons_bound g hb, nonBoundCount_cons_bound hb]
      rw [nonBoundCount_cons_bound hb] at hl
      exact ih fnv fnb.tail hl
    · rw [nonBoundCount_cons_node hb] at hl ⊢
      cases fnv with
      | nil => simp at hl
      | cons nm fnv' =>
        rw [encVertsSpec_cons_node g hb]
        simp only [List.map_cons, List.headD_cons, List.tail_cons, List.take_succ_cons]
        rw [ih fnv' fnb (by simpa using hl)]

theorem encVertsSpec_wire_keys (g : Graph) (vl : List (Nat × GVert)) :
    ∀ fnv fnb : List String, boundCount vl ≤ fnb.length →
    (encVertsSpec g vl fnv fnb).2.1.map Prod.fst = fnb.take (boundCount vl) := by
  induction vl with
  | nil =>
    intro fnv fnb _
    simp [encVertsSpec, boundCount]
  | cons p rest ih =>
    obtain ⟨v, w⟩ := p
    intro fnv fnb hl
    by_cases hb : w.ty = .BOUNDARY
    · rw [boundCount_cons_bound hb] at hl ⊢
      cases fnb with
      | nil => simp at hl
      | cons nm fnb' =>
        rw [encVertsSpec_cons_bound g hb]
        simp only [List.map_cons, List.headD_cons, List.tail_cons, List.take_succ_cons]
        rw [ih fnv fnb' (by simpa using hl)]
    · rw [encVertsSpec_cons_node g hb, boundCount_cons_node hb]
      rw [boundCount_cons_node hb] at hl
      exact ih fnv.tail fnb hl

theorem encEdgesSpec_node_keys (g : Graph) (names : List (Nat × String))
    (el : List ((Nat × Nat) × EdgeType)) :
    ∀ (fnv : List String) (i : Nat), hadCount el ≤ fnv.length →
    (encEdgesSpec g names el fnv i).1.map Prod.fst = fnv.take (hadCount el) := by
  induction el with
  | nil =>
    intro fnv i _
    simp [encEdgesSpec, hadCount]
  | cons e rest ih =>
    obtain ⟨⟨s, t⟩, ty⟩ := e
    intro fnv i hl
    cases ty
    case SIMPLE =>
      have hc : hadCount (((s, t), .SIMPLE) :: rest) = hadCount rest := by
        simp [hadCount, List.filter]
      rw [hc] at hl ⊢
      simpa [encEdgesSpec] using ih fnv (i + 1) hl
    case W_IO_EDGE =>
      have hc : hadCount (((s, t), .W_IO_EDGE) :: rest) = hadCount rest := by
        simp [hadCount, List.filter]
      rw [hc] at hl ⊢
      simpa [encEdgesSpec] using ih fnv (i + 1) hl
    case HADAMARD =>
      have hc : hadCount (((s, t), .HADAMARD) :: rest) = hadCount rest + 1 := by
        simp [hadCount, List.filter]
      rw [hc] at hl ⊢
      cases fnv with
      | nil => simp at hl
      | cons nm fnv' =>
        simp only [encEdgesSpec, List.map_cons, List.headD_cons, List.tail_cons,
          List.take_succ_cons]
        rw [ih fnv' (i + 2) (by simpa using hl)]

theorem hadCount_le_length (el : List ((Nat × Nat) × EdgeType)) :
    hadCount el ≤ el.length := List.length_filter_le _ _

theorem boundCount_le_length (vl : List (Nat × GVert)) :
    boundCount vl ≤ vl.length := List.length_filter_le _ _

theorem nonBoundCount_le_length (vl : List (Nat × GVert)) :
    nonBoundCount vl ≤ vl.length := List.length_filter_le _ _

theorem graph_to_json_noNames (g : Graph)
    (hnn : ∀ p ∈ g.verts, storedName p.2 = none)
    (hep : ∀ e ∈ g.edgeList,
      e.1.1 ∈ g.verts.map Prod.fst ∧ e.1.2 ∈ g.verts.map Prod.fst) :
    graph_to_json g = .ok (.obj
      [("wire_vertices", .obj (encV g).2.1),
       ("node_vertices", .obj ((encV g).1 ++ (encE g).1)),
       ("undir_edges", .obj (encE g).2),
       ("scalar", Scalar.to_json g.scalar)]) := by
  have hlenv : nonBoundCount g.verts ≤ (vPool g).length := by
    rw [vPool, freenames_length]
    have := nonBoundCount_le_length g.verts
    omega
  have hlenb : boundCount g.verts ≤ (bPool g).length := by
    rw [bPool, freenames_length]
    exact boundCount_le_length g.verts
  have hpv : (vPool g).Nodup := freenames_nodup _ _
  have hpb : (bPool g).Nodup := freenames_nodup _ _
  have h1 := encodeVerts_noNames g g.verts
    { node_vs := [], wire_vs := [], names := [],
      fnv := vPool g, fnb := bPool g }
    hnn hlenv hlenb hpv hpb (fun _ _ => rfl) (fun _ _ => rfl)
  have hnames : ∀ e ∈ g.edgeList,
      (lookAssoc (encV g).2.2 e.1.1).isSome ∧ (lookAssoc (encV g).2.2 e.1.2).isSome := by
    intro e he
    have hkeys := encVertsSpec_names_keys g g.verts (vPool g) (bPool g)
    constructor
    · exact lookAssoc_isSome_of_mem (by rw [encV, hkeys]; exact (hep e he).1)
    · exact lookAssoc_isSome_of_mem (by rw [encV, hkeys]; exact (hep e he).2)
  have hlen2 : hadCount g.edgeList ≤ ((vPool g).drop (nonBoundCount g.verts)).length := by
    rw [List.length_drop, vPool, freenames_length]
    have h3 := hadCount_le_length g.edgeList
    have h4 := nonBoundCount_le_length g.verts
    omega
  have hnv2 : ((vPool g).drop (nonBoundCount g.verts)).Nodup :=
    List.Sublist.nodup (List.drop_sublist _ _) hpv
  have hkeys2 : ∀ nm ∈ (vPool g).drop (nonBoundCount g.verts),
      lookAssoc (encV g).1 nm = none := by
    intro nm hnm
    refine lookAssoc_eq_none_of_not_mem ?_
    rw [encV, encVertsSpec_node_keys g g.verts (vPool g) (bPool g) hlenv]
    intro htake
    have hnd : ((vPool g).take (nonBoundCount g.verts)
        ++ (vPool g).drop (nonBoundCount g.verts)).Nodup := by
      rw [List.take_append_drop]
      exact hpv
    exact (List.nodup_append.mp hnd).2.2 htake hnm
  have h2 := encodeEdges_ok g (encV g).2.2 g.edgeList
    { node_vs := (encV g).1, edges := [], i := 0,
      fnv := (vPool g).drop (nonBoundCount g.verts) }
    hnames hlen2 hnv2 hkeys2 (fun _ _ => rfl)
  simp only [vPool, bPool] at h1
  simp only [graph_to_json, bind, Except.bind, h1]
  simp only [List.nil_append]
  rw [show (encVertsSpec g g.verts
      (freenames 'v' (g.verts.length + g.edgeList.length))
      (freenames 'b' g.verts.length)) = encV g from by rw [encV, vPool, bPool]]
  simp only [vPool] at h2
  rw [h2]
  simp [encE, vPool]

theorem bound_add_nonBound (vl : List (Nat × GVert)) :
    boundCount vl + nonBoundCount vl = vl.length := by
  induction vl with
  | nil => rfl
  | cons p rest ih =>
    obtain ⟨v, w⟩ := p
    by_cases hb : w.ty = .BOUNDARY
    · rw [boundCount_cons_bound hb, nonBoundCount_cons_bound hb, List.length_cons]
      omega
    · rw [boundCount_cons_node hb, nonBoundCount_cons_node hb, List.length_cons]
      omega

/-! ## Claim C8: distinctness of emitted external names -/

/-- Claim C8 (amended: the reuse of a stored external name is NOT
collision-free — see the counterexample — so the distinctness guarantee
is proved for diagrams with no stored external names): for every
diagram with no stored `name` annotations and well-formed edge
endpooints, the encoder assigns pairwise distinct names to all emitted
entries — no two entries of `wire_vertices` and `node_vertices`
(including Hadamard auxiliary nodes) share a name — and no entry is
lost: the two sections together hold one entry per vertex plus one per
Hadamard edge. -/
theorem C8_name_distinctness (g : Graph)
    (hnn : ∀ p ∈ g.verts, storedName p.2 = none)
    (hep : ∀ e ∈ g.edgeList,
      e.1.1 ∈ g.verts.map Prod.fst ∧ e.1.2 ∈ g.verts.map Prod.fst) :
    ∃ wire node edges,
      graph_to_json g = .ok (.obj
        [("wire_vertices", .obj wire), ("node_vertices", .obj node),
         ("undir_edges", .obj edges), ("scalar", Scalar.to_json g.scalar)])
      ∧ (wire.map Prod.fst ++ node.map Prod.fst).Nodup
      ∧ wire.length + node.length = g.verts.length + hadCount g.edgeList := by
  have hlenv : nonBoundCount g.verts ≤ (vPool g).length := by
    rw [vPool, freenames_length]
    have := nonBoundCount_le_length g.verts
    omega
  have hlenb : boundCount g.verts ≤ (bPool g).length := by
    rw [bPool, freenames_length]
    exact boundCount_le_length g.verts
  have hlen2 : hadCount g.edgeList ≤ ((vPool g).drop (nonBoundCount g.verts)).length := by
    rw [List.length_drop, vPool, freenames_length]
    have h3 := hadCount_le_length g.edgeList
    have h4 := nonBoundCount_le_length g.verts
    omega
  have hwk : (encV g).2.1.map Prod.fst = (bPool g).take (boundCount g.verts) := by
    rw [encV]
    exact encVertsSpec_wire_keys g g.verts (vPool g) (bPool g) hlenb
  have hnk : (encV g).1.map Prod.fst = (vPool g).take (nonBoundCount g.verts) := by
    rw [encV]
    exact encVertsSpec_node_keys g g.verts (vPool g) (bPool g) hlenv
  have hak : (encE g).1.map Prod.fst
      = ((vPool g).drop (nonBoundCount g.verts)).take (hadCount g.edgeList) := by
    rw [encE]
    exact encEdgesSpec_node_keys g (encV g).2.2 g.edgeList
      ((vPool g).drop (nonBoundCount g.verts)) 0 hlen2
  have hnodeSub : List.Sublist
      ((vPool g).take (nonBoundCount g.verts)
        ++ ((vPool g).drop (nonBoundCount g.verts)).take (hadCount g.edgeList))
      (vPool g) := by
    have h5 : List.Sublist
        ((vPool g).take (nonBoundCount g.verts)
          ++ ((vPool g).drop (nonBoundCount g.verts)).take (hadCount g.edgeList))
        ((vPool g).take (nonBoundCount g.verts)
          ++ (vPool g).drop (nonBoundCount g.verts)) :=
      List.Sublist.append (List.Sublist.refl _) (List.take_sublist _ _)
    rw [List.take_append_drop] at h5
    exact h5
  refine ⟨(encV g).2.1, (encV g).1 ++ (encE g).1, (encE g).2,
    graph_to_json_noNames g hnn hep, ?_, ?_⟩
  · rw [List.map_append, hwk, hnk, hak]
    rw [List.nodup_append]
    refine ⟨List.Sublist.nodup (List.take_sublist _ _) (freenames_nodup _ _),
      List.Sublist.nodup hnodeSub (freenames_nodup _ _), ?_⟩
    intro a ha hb
    have hav : a ∈ bPool g := (List.take_sublist _ _).subset ha
    have hbv : a ∈ vPool g := hnodeSub.subset hb
    rw [bPool] at hav
    rw [vPool] at hbv
    exact freenames_disjoint (by decide) hbv hav
  · have hwl : (encV g).2.1.length = boundCount g.verts := by
      have h6 := congrArg List.length hwk
      rw [List.length_map, List.length_take] at h6
      rw [h6]
      exact Nat.min_eq_left hlenb
    have hnl : (encV g).1.length = nonBoundCount g.verts := by
      have h6 := congrArg List.length hnk
      rw [List.length_map, List.length_take] at h6
      rw [h6]
      exact Nat.min_eq_left hlenv
    have hal : (encE g).1.length = hadCount g.edgeList := by
      have h6 := congrArg List.length hak
      rw [List.length_map, List.length_take] at h6
      rw [h6]
      exact Nat.min_eq_left hlen2
    rw [List.length_append, hwl, hnl, hal, ← bound_add_nonBound g.verts]
    omega

/-- Witness for claim C8: the amended distinctness theorem applied to
the concrete diagram `gC8w` (a Z-spider, an output boundary, one
Hadamard edge between them). -/
theorem C8_name_distinctness_witness :
    ∃ wire node edges,
      graph_to_json gC8w = .ok (.obj
        [("wire_vertices", .obj wire), ("node_vertices", .obj node),
         ("undir_edges", .obj edges), ("scalar", Scalar.to_json gC8w.scalar)])
      ∧ (wire.map Prod.fst ++ node.map Prod.fst).Nodup
      ∧ wire.length + node.length = gC8w.verts.length + hadCount gC8w.edgeList :=
  C8_name_distinctness gC8w (by decide) (by decide)

/-! ## Forward evaluation of the decoder on encoded entries -/

theorem phase_encode_eq_nil {p : ℚ} (h : _phase_to_quanto_value p = []) : p = 0 := by
  by_contra hp
  rw [_phase_to_quanto_value, if_neg hp] at h
  simp at h

theorem quantoOfJ_encoded {ph : ℚ} (hne : _phase_to_quanto_value ph ≠ [])
    (hph : _quanto_value_to_phase (_phase_to_quanto_value ph) = .ok ph) :
    quantoOfJ (.str ⟨_phase_to_quanto_value ph⟩) = .ok ph := by
  have hs : (⟨_phase_to_quanto_value ph⟩ : String) ≠ "" :=
    fun hc => hne (congrArg String.data hc)
  have hd : (JValue.str ⟨_phase_to_quanto_value ph⟩).truthy = true := by
    simp [JValue.truthy, hs]
  rw [quantoOfJ, hd]
  simpa using hph

theorem lookAssoc_extendAnn_present (vd : List (String × JValue)) :
    ∀ (a0 : List (String × JValue)) (k : String), (lookAssoc a0 k).isSome →
    lookAssoc (extendAnn a0 vd) k = lookAssoc a0 k := by
  induction vd with
  | nil =>
    intro a0 k _
    rfl
  | cons p t ih =>
    intro a0 k h
    simp only [extendAnn, List.foldl_cons] at ih ⊢
    by_cases hm : memA a0 p.1
    · rw [if_pos hm]
      exact ih a0 k h
    · rw [if_neg hm]
      obtain ⟨v, hv⟩ := Option.isSome_iff_exists.mp h
      have h2 : lookAssoc (a0 ++ [(p.1, p.2)]) k = lookAssoc a0 k := by
        rw [lookAssoc_append_some _ _ _ _ hv, hv]
      rw [ih _ k (by rw [h2]; exact h), h2]

theorem nodeEntry_fields (w : GVert) (hb : w.ty ≠ .BOUNDARY) :
    nodeEntry w = .obj
      [("annotation", .obj (extendAnn [("coord", vCoord w)] w.vdata)),
       ("data", .obj (nodeEntryData w))] := by
  obtain ⟨ty, q, r, ph, gr, vd⟩ := w
  cases ty
  case BOUNDARY => exact absurd rfl hb
  all_goals rfl

theorem isHadamardStub_nodeEntry (w : GVert) (hb : w.ty ≠ .BOUNDARY) :
    isHadamardStub (nodeEntry w) = .ok false := by
  obtain ⟨ty, q, r, ph, gr, vd⟩ := w
  cases ty
  case BOUNDARY => exact absurd rfl hb
  all_goals rfl

theorem processNodeData_nodeEntry (g : Graph) (v : Nat) (w : GVert)
    (hb : w.ty ≠ .BOUNDARY)
    (hph : _quanto_value_to_phase (_phase_to_quanto_value w.phase) = .ok w.phase) :
    processNodeData g v
      [("annotation", .obj (extendAnn [("coord", vCoord w)] w.vdata)),
       ("data", .obj (nodeEntryData w))]
      = .ok (if w.ground
          then ((g.set_type v w.ty).set_phase v w.phase).set_ground v
          else (g.set_type v w.ty).set_phase v w.phase) := by
  obtain ⟨ty, q, r, ph, gr, vd⟩ := w
  dsimp only at hph ⊢
  cases ty
  case BOUNDARY => exact absurd rfl hb
  all_goals
    by_cases hval : _phase_to_quanto_value ph = []
    case pos =>
      have hz0 : ph = 0 := phase_encode_eq_nil hval
      subst hz0
      cases gr
      · rfl
      · rfl
    case neg =>
      have hq := quantoOfJ_encoded hval hph
      have hcond : (if _phase_to_quanto_value ph ≠ [] then
            [("value", JValue.str ⟨_phase_to_quanto_value ph⟩)]
          else ([] : List (String × JValue)))
          = [("value", JValue.str ⟨_phase_to_quanto_value ph⟩)] := if_pos hval
      cases gr
      · simp only [nodeEntryData, hcond, processNodeData, bind, Except.bind,
          lookAssoc, jitems, hq, String.reduceEq, reduceIte, if_true, if_false,
          List.cons_append, List.nil_append]
        rfl
      · simp only [nodeEntryData, hcond, processNodeData, bind, Except.bind,
          lookAssoc, jitems, hq, String.reduceEq, reduceIte, if_true, if_false,
          List.cons_append, List.nil_append]
        rfl

theorem processNode_nodeEntry (st : DecSt) (nm : String) (w : GVert)
    (hb : w.ty ≠ .BOUNDARY)
    (hph : _quanto_value_to_phase (_phase_to_quanto_value w.phase) = .ok w.phase)
    (hids : VertIds st.g) :
    processNode st nm (nodeEntry w) = .ok { st with
      g := ⟨st.g.verts ++ [(st.g.fresh, decNodeRec nm w)],
        st.g.edgeList, st.g.inputs, st.g.outputs, st.g.scalar, st.g.fresh + 1⟩,
      names := updAssoc st.names nm st.g.fresh } := by
  have hv : ∀ p ∈ st.g.verts, p.1 ≠ st.g.fresh :=
    fun p hp => Nat.ne_of_lt (hids p hp)
  have hstub := isHadamardStub_nodeEntry w hb
  have hfields := nodeEntry_fields w hb
  have hcl : lookAssoc (extendAnn [("coord", vCoord w)] w.vdata) "coord"
      = some (vCoord w) := by
    rw [lookAssoc_extendAnn_present w.vdata [("coord", vCoord w)] "coord" (by rfl)]
    rfl
  have hpnd := processNodeData_nodeEntry
    ⟨st.g.verts ++ [(st.g.fresh,
        { ty := .BOUNDARY, qubit := pyNormNum (-(round3 (-w.qubit))),
          row := pyNormNum (round3 w.row), phase := 0, ground := false,
          vdata := [("name", .str nm)] })],
      st.g.edgeList, st.g.inputs, st.g.outputs, st.g.scalar, st.g.fresh + 1⟩
    st.g.fresh w hb hph
  rw [processNode]
  simp only [bind, Except.bind, hstub]
  rw [if_neg (by simp)]
  simp only [hfields, jindex, jitems, lookAssoc, String.reduceEq, reduceIte,
    if_true, if_false, bind, Except.bind]
  rw [hcl]
  simp only [vCoord] at hpnd
  simp only [coordOf, vCoord, jnum, bind, Except.bind, add_vertex_eq]
  simp only [Graph.set_vdata, updVert_append' hv]
  simp only [show updAssoc ([] : List (String × JValue)) "name" (.str nm)
      = [("name", .str nm)] from rfl]
  rw [hpnd]
  have hv2 : ∀ p ∈ st.g.verts ++ [(st.g.fresh,
      ({ ty := .BOUNDARY, qubit := pyNormNum (-(round3 (-w.qubit))),
         row := pyNormNum (round3 w.row), phase := 0, ground := false,
         vdata := [("name", .str nm)] } : GVert))], True := fun _ _ => trivial
  clear hv2
  clear hpnd
  cases hgr : w.ground
  · simp only [Bool.false_eq_true, if_false]
    simp only [Graph.set_type, Graph.set_phase, updVert_append' hv]
    rw [copyAnnotations_append _ _ _ _ _ _ _ _ _ _ hv]
    simp only [pure, Except.pure, Except.ok.injEq]
    rw [decNodeRec, hgr]
    simp only [vCoord]
  · simp only [if_true]
    simp only [Graph.set_type, Graph.set_phase, Graph.set_ground, updVert_append' hv]
    rw [copyAnnotations_append _ _ _ _ _ _ _ _ _ _ hv]
    simp only [pure, Except.pure, Except.ok.injEq]
    rw [decNodeRec, hgr]
    simp only [vCoord]

theorem quantoOfJ_encoded_dec {ph q : ℚ} (hne : _phase_to_quanto_value ph ≠ [])
    (hph : _quanto_value_to_phase (_phase_to_quanto_value ph) = .ok q) :
    quantoOfJ (.str ⟨_phase_to_quanto_value ph⟩) = .ok q := by
  have hs : (⟨_phase_to_quanto_value ph⟩ : String) ≠ "" :=
    fun hc => hne (congrArg String.data hc)
  have hd : (JValue.str ⟨_phase_to_quanto_value ph⟩).truthy = true := by
    simp [JValue.truthy, hs]
  rw [quantoOfJ, hd]
  simpa using hph

theorem processNodeData_nodeEntry_dec (g : Graph) (v : Nat) (w : GVert) (q : ℚ)
    (hb : w.ty ≠ .BOUNDARY)
    (hph : _quanto_value_to_phase (_phase_to_quanto_value w.phase) = .ok q) :
    processNodeData g v
      [("annotation", .obj (extendAnn [("coord", vCoord w)] w.vdata)),
       ("data", .obj (nodeEntryData w))]
      = .ok (if w.ground
          then ((g.set_type v w.ty).set_phase v q).set_ground v
          else (g.set_type v w.ty).set_phase v q) := by
  obtain ⟨ty, qb, r, ph, gr, vd⟩ := w
  dsimp only at hph ⊢
  cases ty
  case BOUNDARY => exact absurd rfl hb
  all_goals
    by_cases hval : _phase_to_quanto_value ph = []
    case pos =>
      have hz0 : ph = 0 := phase_encode_eq_nil hval
      subst hz0
      rw [hval] at hph
      have h0 : (Except.ok (0 : ℚ) : Except PyExc ℚ) = .ok q := hph
      have hq0 : q = 0 := ((Except.ok.injEq _ _).mp h0).symm
      subst hq0
      cases gr
      · rfl
      · rfl
    case neg =>
      have hq := quantoOfJ_encoded_dec hval hph
      have hcond : (if _phase_to_quanto_value ph ≠ [] then
            [("value", JValue.str ⟨_phase_to_quanto_value ph⟩)]
          else ([] : List (String × JValue)))
          = [("value", JValue.str ⟨_phase_to_quanto_value ph⟩)] := if_pos hval
      cases gr
      · simp only [nodeEntryData, hcond, processNodeData, bind, Except.bind,
          lookAssoc, jitems, hq, String.reduceEq, reduceIte, if_true, if_false,
          List.cons_append, List.nil_append]
        rfl
      · simp only [nodeEntryData, hcond, processNodeData, bind, Except.bind,
          lookAssoc, jitems, hq, String.reduceEq, reduceIte, if_true, if_false,
          List.cons_append, List.nil_append]
        rfl

theorem processNode_nodeEntry_dec (st : DecSt) (nm : String) (w : GVert) (q : ℚ)
    (hb : w.ty ≠ .BOUNDARY)
    (hph : _quanto_value_to_phase (_phase_to_quanto_value w.phase) = .ok q)
    (hids : VertIds st.g) :
    processNode st nm (nodeEntry w) = .ok { st with
      g := ⟨st.g.verts ++ [(st.g.fresh, { decNodeRec nm w with phase := q })],
        st.g.edgeList, st.g.inputs, st.g.outputs, st.g.scalar, st.g.fresh + 1⟩,
      names := updAssoc st.names nm st.g.fresh } := by
  have hv : ∀ p ∈ st.g.verts, p.1 ≠ st.g.fresh :=
    fun p hp => Nat.ne_of_lt (hids p hp)
  have hstub := isHadamardStub_nodeEntry w hb
  have hfields := nodeEntry_fields w hb
  have hcl : lookAssoc (extendAnn [("coord", vCoord w)] w.vdata) "coord"
      = some (vCoord w) := by
    rw [lookAssoc_extendAnn_present w.vdata [("coord", vCoord w)] "coord" (by rfl)]
    rfl
  have hpnd := processNodeData_nodeEntry_dec
    ⟨st.g.verts ++ [(st.g.fresh,
        { ty := .BOUNDARY, qubit := pyNormNum (-(round3 (-w.qubit))),
          row := pyNormNum (round3 w.row), phase := 0, ground := false,
          vdata := [("name", .str nm)] })],
      st.g.edgeList, st.g.inputs, st.g.outputs, st.g.scalar, st.g.fresh + 1⟩
    st.g.fresh w q hb hph
  rw [processNode]
  simp only [bind, Except.bind, hstub]
  rw [if_neg (by simp)]
  simp only [hfields, jindex, jitems, lookAssoc, String.reduceEq, reduceIte,
    if_true, if_false, bind, Except.bind]
  rw [hcl]
  simp only [vCoord] at hpnd
  simp only [coordOf, vCoord, jnum, bind, Except.bind, add_vertex_eq]
  simp only [Graph.set_vdata, updVert_append' hv]
  simp only [show updAssoc ([] : List (String × JValue)) "name" (.str nm)
      = [("name", .str nm)] from rfl]
  rw [hpnd]
  clear hpnd
  cases hgr : w.ground
  · simp only [Bool.false_eq_true, if_false]
    simp only [Graph.set_type, Graph.set_phase, updVert_append' hv]
    rw [copyAnnotations_append _ _ _ _ _ _ _ _ _ _ hv]
    simp only [pure, Except.pure, Except.ok.injEq]
    simp only [decNodeRec, hgr]
    simp only [vCoord]
  · simp only [if_true]
    simp only [Graph.set_type, Graph.set_phase, Graph.set_ground, updVert_append' hv]
    rw [copyAnnotations_append _ _ _ _ _ _ _ _ _ _ hv]
    simp only [pure, Except.pure, Except.ok.injEq]
    simp only [decNodeRec, hgr]
    simp only [vCoord]

theorem processWire_wireEntry (st : DecSt) (nm : String) (g : Graph) (v : Nat)
    (w : GVert) (hids : VertIds st.g) :
    processWire st nm (wireEntry g v w) = .ok { st with
      g := ⟨st.g.verts ++ [(st.g.fresh, decWireRec nm g v w)],
        st.g.edgeList, st.g.inputs, st.g.outputs, st.g.scalar, st.g.fresh + 1⟩,
      names := updAssoc st.names nm st.g.fresh,
      inputs := if g.inputs.contains v then st.inputs ++ [st.g.fresh] else st.inputs,
      outputs := if g.outputs.contains v then st.outputs ++ [st.g.fresh] else st.outputs
      } := by
  have hv : ∀ p ∈ st.g.verts, p.1 ≠ st.g.fresh :=
    fun p hp => Nat.ne_of_lt (hids p hp)
  have hcl : lookAssoc (extendAnn
      [("boundary", .bool true), ("coord", vCoord w),
       ("input", .bool (g.inputs.contains v)), ("output", .bool (g.outputs.contains v))]
      w.vdata) "coord" = some (vCoord w) := by
    rw [lookAssoc_extendAnn_present w.vdata _ "coord" (by rfl)]
    rfl
  have hin : lookAssoc (extendAnn
      [("boundary", .bool true), ("coord", vCoord w),
       ("input", .bool (g.inputs.contains v)), ("output", .bool (g.outputs.contains v))]
      w.vdata) "input" = some (.bool (g.inputs.contains v)) := by
    rw [lookAssoc_extendAnn_present w.vdata _ "input" (by rfl)]
    rfl
  have hout : lookAssoc (extendAnn
      [("boundary", .bool true), ("coord", vCoord w),
       ("input", .bool (g.inputs.contains v)), ("output", .bool (g.outputs.contains v))]
      w.vdata) "output" = some (.bool (g.outputs.contains v)) := by
    rw [lookAssoc_extendAnn_present w.vdata _ "output" (by rfl)]
    rfl
  rw [processWire, wireEntry]
  simp only [jindex, jitems, lookAssoc, String.reduceEq, reduceIte, if_true, if_false,
    bind, Except.bind]
  rw [hcl, hin, hout]
  simp only [coordOf, vCoord, jnum, bind, Except.bind, add_vertex_eq, Option.elim,
    JValue.truthy]
  simp only [Graph.set_vdata, updVert_append' hv]
  simp only [show updAssoc ([] : List (String × JValue)) "name" (.str nm)
      = [("name", .str nm)] from rfl]
  rw [copyAnnotations_append _ _ _ _ _ _ _ _ _ _ hv]
  simp only [pure, Except.pure, Except.ok.injEq]
  rw [decWireRec]
  simp only [vCoord]

/-- Counterexample to claim C8 as stated: when stored external names
are reused they are NOT collision-free — in `gC8` two Z-spiders both
carry the stored name `x`, the second `node_vertices` entry overwrites
the first, and the encoded document retains a single entry for two
vertices. -/
theorem C8_name_distinctness_counterexample :
    ∃ doc, graph_to_json gC8 = .ok doc
      ∧ (∃ entries, jindex doc "node_vertices" = .ok (.obj entries)
          ∧ entries.length = 1)
      ∧ gC8.verts.length = 2 :=
  ⟨_, rfl, ⟨_, rfl, rfl⟩, rfl⟩

/-! ## Stub entries and fresh-id bookkeeping -/

theorem VertIds_append_fresh {g : Graph} (hids : VertIds g) (w : GVert)
    (E : List ((Nat × Nat) × EdgeType)) (I O : List Nat) (S : JValue) :
    VertIds (⟨g.verts ++ [(g.fresh, w)], E, I, O, S, g.fresh + 1⟩ : Graph) := by
  intro p hp
  simp only at hp
  rcases List.mem_append.mp hp with hp | hp
  · exact Nat.lt_succ_of_lt (hids p hp)
  · rw [List.mem_singleton] at hp
    subst hp
    exact Nat.lt_succ_self _

theorem processNode_auxEntry (st : DecSt) (nm : String) (g : Graph) (s t : Nat) :
    processNode st nm (auxEntry g s t)
      = .ok { st with hadamards := updAssoc st.hadamards nm [] } := by
  rw [processNode]
  simp only [bind, Except.bind,
    show isHadamardStub (auxEntry g s t) = .ok true from rfl]
  rfl

/-! ## Claim C10: H-box vertices versus folded Hadamard edges -/

theorem encVertsSpec_mem_node (g : Graph) (vl : List (Nat × GVert)) :
    ∀ fnv fnb : List String, ∀ (v : Nat) (w : GVert), (v, w) ∈ vl →
    w.ty ≠ .BOUNDARY →
    ∃ nm, (nm, nodeEntry w) ∈ (encVertsSpec g vl fnv fnb).1 := by
  induction vl with
  | nil =>
    intro _ _ _ _ h _
    simp at h
  | cons p rest ih =>
    intro fnv fnb v w hmem hb
    rcases List.mem_cons.mp hmem with heq | hmem'
    · rw [← heq, encVertsSpec_cons_node g hb]
      exact ⟨fnv.headD "", List.mem_cons_self _ _⟩
    · obtain ⟨v0, w0⟩ := p
      by_cases hb0 : w0.ty = .BOUNDARY
      · rw [encVertsSpec_cons_bound g hb0]
        exact ih fnv fnb.tail v w hmem' hb
      · rw [encVertsSpec_cons_node g hb0]
        obtain ⟨nm, hnm⟩ := ih fnv.tail fnb v w hmem' hb
        exact ⟨nm, List.mem_cons_of_mem _ hnm⟩

theorem nodeEntryData_hbox (w : GVert) (hb : w.ty = .H_BOX) :
    lookAssoc (nodeEntryData w) "type" = some (.str "hadamard")
    ∧ lookAssoc (nodeEntryData w) "is_edge" = some (.str "false") := by
  obtain ⟨ty, q, r, ph, gr, vd⟩ := w
  dsimp only at hb
  subst hb
  exact ⟨rfl, rfl⟩

/-- Claim C10 (amended: restricted to diagrams with no stored external
names, since a stored-name collision can delete the H-box's entry
altogether — see the counterexample): in a diagram with no stored
names, every H-box vertex is emitted as a `node_vertices` entry whose
`data` carries `type = "hadamard"` together with `is_edge = "false"`,
the decoder's stub test answers `false` on that entry (it requires
`is_edge` to be the string `"true"`), and processing the entry creates
an ordinary H-box vertex — with the stub map untouched — rather than
registering a Hadamard stub; the created vertex's phase is whatever the
phase codec's decode of the encoded phase yields. -/
theorem C10_hbox_disambiguation (g : Graph) (v : Nat) (w : GVert)
    (hnn : ∀ p ∈ g.verts, storedName p.2 = none)
    (hep : ∀ e ∈ g.edgeList,
      e.1.1 ∈ g.verts.map Prod.fst ∧ e.1.2 ∈ g.verts.map Prod.fst)
    (hmem : (v, w) ∈ g.verts) (hh : w.ty = .H_BOX) :
    ∃ doc, graph_to_json g = .ok doc
    ∧ ∃ nodeSec, jindex doc "node_vertices" = .ok (.obj nodeSec)
    ∧ ∃ nm, (nm, nodeEntry w) ∈ nodeSec
      ∧ lookAssoc (nodeEntryData w) "type" = some (.str "hadamard")
      ∧ lookAssoc (nodeEntryData w) "is_edge" = some (.str "false")
      ∧ isHadamardStub (nodeEntry w) = .ok false
      ∧ ∃ ph, _quanto_value_to_phase (_phase_to_quanto_value w.phase) = .ok ph
        ∧ (∀ st : DecSt, VertIds st.g →
            processNode st nm (nodeEntry w) = .ok { st with
              g := ⟨st.g.verts
                  ++ [(st.g.fresh, { decNodeRec nm w with phase := ph })],
                st.g.edgeList, st.g.inputs, st.g.outputs, st.g.scalar,
                st.g.fresh + 1⟩,
              names := updAssoc st.names nm st.g.fresh })
        ∧ ({ decNodeRec nm w with phase := ph } : GVert).ty = .H_BOX := by
  have hb : w.ty ≠ .BOUNDARY := by
    rw [hh]
    intro hc
    cases hc
  obtain ⟨nm, hnm⟩ := encVertsSpec_mem_node g g.verts (vPool g) (bPool g) v w hmem hb
  obtain ⟨ph, hph⟩ := phase_decode_total w.phase
  refine ⟨_, graph_to_json_noNames g hnn hep, (encV g).1 ++ (encE g).1, rfl,
    nm, ?_, (nodeEntryData_hbox w hh).1, (nodeEntryData_hbox w hh).2,
    isHadamardStub_nodeEntry w hb, ph, hph, ?_, ?_⟩
  · rw [encV]
    exact List.mem_append_left _ hnm
  · intro st hids
    exact processNode_nodeEntry_dec st nm w ph hb hph hids
  · show (decNodeRec nm w).ty = .H_BOX
    rw [decNodeRec]
    exact hh

/-- Witness for claim C10 at the one-H-box diagram `gC10w`. -/
theorem C10_hbox_disambiguation_witness :
    ∃ doc, graph_to_json gC10w = .ok doc
    ∧ ∃ nodeSec, jindex doc "node_vertices" = .ok (.obj nodeSec)
    ∧ ∃ nm, (nm, nodeEntry wHB) ∈ nodeSec
      ∧ lookAssoc (nodeEntryData wHB) "type" = some (.str "hadamard")
      ∧ lookAssoc (nodeEntryData wHB) "is_edge" = some (.str "false")
      ∧ isHadamardStub (nodeEntry wHB) = .ok false
      ∧ ∃ ph, _quanto_value_to_phase (_phase_to_quanto_value wHB.phase) = .ok ph
        ∧ (∀ st : DecSt, VertIds st.g →
            processNode st nm (nodeEntry wHB) = .ok { st with
              g := ⟨st.g.verts
                  ++ [(st.g.fresh, { decNodeRec nm wHB with phase := ph })],
                st.g.edgeList, st.g.inputs, st.g.outputs, st.g.scalar,
                st.g.fresh + 1⟩,
              names := updAssoc st.names nm st.g.fresh })
        ∧ ({ decNodeRec nm wHB with phase := ph } : GVert).ty = .H_BOX :=
  C10_hbox_disambiguation gC10w 0 wHB
    (by
      intro p hp
      rw [show gC10w.verts = [(0, wHB)] from rfl, List.mem_singleton] at hp
      subst hp
      rfl)
    (by
      intro e he
      rw [show gC10w.edgeList = [] from rfl] at he
      simp at he)
    (List.mem_singleton.mpr rfl)
    rfl

/-- Counterexample to claim C10 as stated: `gC10` contains an H-box,
but a stored-name collision with a later Z-spider erases its entry —
the encoded `node_vertices` section is a single Z entry, so no entry
with `data.type = "hadamard"` is emitted for the H-box at all. -/
theorem C10_hbox_disambiguation_counterexample :
    ∃ doc, graph_to_json gC10 = .ok doc
    ∧ ∃ nodeSec, jindex doc "node_vertices" = .ok (.obj nodeSec)
    ∧ (∃ p, gC10.verts.head? = some p ∧ p.2.ty = .H_BOX)
    ∧ ∃ e, nodeSec = [("x", e)]
      ∧ jindex e "data" = .ok (.obj [("type", .str "Z")]) :=
  ⟨_, rfl, _, rfl, ⟨_, rfl, rfl⟩, _, rfl, rfl⟩

theorem eName_zero : eName 0 = "e0" := rfl

theorem eName_one : eName 1 = "e1" := rfl

/-! ## Claim C4: Hadamard fold/unfold -/

/-- Claim C4 (amended: stated for diagrams with no stored external
names — stored-name collisions break the claim, see the counterexample
— and with the two endpoints non-boundary, distinct and with
`-1 ≤ phase.num`): the diagram with exactly one Hadamard edge between
`a` and `b` encodes to a document with exactly one auxiliary stub entry
(`type "hadamard"`, `is_edge "true"`) and exactly two plain edge
entries joining the two vertex names to the stub and nothing else; and
decoding that document reconstructs exactly one Hadamard edge between
the images of `a` and `b`, with exactly the two vertices (kinds,
phases and ground flags preserved) and no leftover auxiliary vertex. -/
theorem C4_hadamard_fold_unfold (a b : Nat) (wa wb : GVert) (sc : JValue) (f : Nat)
    (hab : a ≠ b) (hta : wa.ty ≠ .BOUNDARY) (htb : wb.ty ≠ .BOUNDARY)
    (hna : storedName wa = none) (hnb : storedName wb = none)
    (hpa : -1 ≤ wa.phase.num) (hpb : -1 ≤ wb.phase.num) :
    graph_to_json (gPair a b wa wb sc f) = .ok (.obj
      [("wire_vertices", .obj []),
       ("node_vertices", .obj
          [("v0", nodeEntry wa), ("v1", nodeEntry wb),
           ("v2", auxEntry (gPair a b wa wb sc f) a b)]),
       ("undir_edges", .obj
          [("e0", .obj [("src", .str "v0"), ("tgt", .str "v2")]),
           ("e1", .obj [("src", .str "v1"), ("tgt", .str "v2")])]),
       ("scalar", sc)])
    ∧ isHadamardStub (nodeEntry wa) = .ok false
    ∧ isHadamardStub (nodeEntry wb) = .ok false
    ∧ isHadamardStub (auxEntry (gPair a b wa wb sc f) a b) = .ok true
    ∧ jindex (auxEntry (gPair a b wa wb sc f) a b) "data"
        = .ok (.obj [("type", .str "hadamard"), ("is_edge", .str "true")])
    ∧ json_to_graph (.obj
        [("wire_vertices", .obj []),
         ("node_vertices", .obj
            [("v0", nodeEntry wa), ("v1", nodeEntry wb),
             ("v2", auxEntry (gPair a b wa wb sc f) a b)]),
         ("undir_edges", .obj
            [("e0", .obj [("src", .str "v0"), ("tgt", .str "v2")]),
             ("e1", .obj [("src", .str "v1"), ("tgt", .str "v2")])]),
         ("scalar", sc)])
        = .ok (⟨[(0, decNodeRec "v0" wa), (1, decNodeRec "v1" wb)],
            [((0, 1), .HADAMARD)], [], [], sc, 2⟩ : Graph)
    ∧ (decNodeRec "v0" wa).ty = wa.ty ∧ (decNodeRec "v0" wa).phase = wa.phase
    ∧ (decNodeRec "v0" wa).ground = wa.ground
    ∧ (decNodeRec "v1" wb).ty = wb.ty ∧ (decNodeRec "v1" wb).phase = wb.phase
    ∧ (decNodeRec "v1" wb).ground = wb.ground := by
  have hla : lookAssoc [(a, "v0"), (b, "v1")] a = some "v0" := by
    simp [lookAssoc]
  have hlb2 : lookAssoc [(a, "v0"), (b, "v1")] b = some "v1" := by
    simp [lookAssoc, hab]
  refine ⟨?_, isHadamardStub_nodeEntry wa hta, isHadamardStub_nodeEntry wb htb,
    rfl, rfl, ?_, rfl, rfl, rfl, rfl, rfl, rfl⟩
  · -- the encoding
    have s1 : encodeVertex (gPair a b wa wb sc f)
        { fnv := ["v0", "v1", "v2"], fnb := ["b0", "b1"] } a wa
        = .ok { node_vs := [("v0", nodeEntry wa)], wire_vs := [],
                names := [(a, "v0")], fnv := ["v1", "v2"], fnb := ["b0", "b1"] } :=
      encodeVertex_noName_node _ _ a wa hna hta "v0" ["v1", "v2"] rfl
    have s2 : encodeVertex (gPair a b wa wb sc f)
        { node_vs := [("v0", nodeEntry wa)], wire_vs := [],
          names := [(a, "v0")], fnv := ["v1", "v2"], fnb := ["b0", "b1"] } b wb
        = .ok { node_vs := [("v0", nodeEntry wa), ("v1", nodeEntry wb)], wire_vs := [],
                names := [(a, "v0"), (b, "v1")], fnv := ["v2"], fnb := ["b0", "b1"] } :=
      encodeVertex_noName_node _ _ b wb hnb htb "v1" ["v2"] rfl
    have hverts : encodeVerts (gPair a b wa wb sc f) [(a, wa), (b, wb)]
        { fnv := ["v0", "v1", "v2"], fnb := ["b0", "b1"] }
        = .ok { node_vs := [("v0", nodeEntry wa), ("v1", nodeEntry wb)], wire_vs := [],
                names := [(a, "v0"), (b, "v1")], fnv := ["v2"], fnb := ["b0", "b1"] } := by
      simp only [encodeVerts, bind, Except.bind, s1, s2]
    have se : encodeEdge (gPair a b wa wb sc f) [(a, "v0"), (b, "v1")]
        { node_vs := [("v0", nodeEntry wa), ("v1", nodeEntry wb)], edges := [],
          i := 0, fnv := ["v2"] }
        ((a, b), .HADAMARD)
        = .ok { node_vs := [("v0", nodeEntry wa), ("v1", nodeEntry wb),
                  ("v2", auxEntry (gPair a b wa wb sc f) a b)],
                edges := [("e0", .obj [("src", .str "v0"), ("tgt", .str "v2")]),
                  ("e1", .obj [("src", .str "v1"), ("tgt", .str "v2")])],
                i := 2, fnv := [] } := by
      rw [encodeEdge_had _ _ _ a b "v0" "v1" "v2" [] hla hlb2 rfl]
      simp only [Nat.reduceAdd, updAssoc, eName_zero, eName_one, String.reduceEq,
        reduceIte]
    have hedges : encodeEdges (gPair a b wa wb sc f) [(a, "v0"), (b, "v1")]
        [((a, b), .HADAMARD)]
        { node_vs := [("v0", nodeEntry wa), ("v1", nodeEntry wb)], edges := [],
          i := 0, fnv := ["v2"] }
        = .ok { node_vs := [("v0", nodeEntry wa), ("v1", nodeEntry wb),
                  ("v2", auxEntry (gPair a b wa wb sc f) a b)],
                edges := [("e0", .obj [("src", .str "v0"), ("tgt", .str "v2")]),
                  ("e1", .obj [("src", .str "v1"), ("tgt", .str "v2")])],
                i := 2, fnv := [] } := by
      simp only [encodeEdges, bind, Except.bind, se]
    rw [graph_to_json]
    rw [show (gPair a b wa wb sc f).verts = [(a, wa), (b, wb)] from rfl,
        show (gPair a b wa wb sc f).edgeList = [((a, b), .HADAMARD)] from rfl]
    simp only [List.length_cons, List.length_nil, Nat.reduceAdd]
    rw [show freenames 'v' 3 = ["v0", "v1", "v2"] from rfl,
        show freenames 'b' 2 = ["b0", "b1"] from rfl]
    simp only [bind, Except.bind, hverts]
    simp only [hedges]
    rfl
  · -- the decoding
    have hd0 : VertIds ({} : DecSt).g := fun p hp => absurd hp (List.not_mem_nil p)
    have hn1 : processNode {} "v0" (nodeEntry wa)
        = .ok ⟨⟨[(0, decNodeRec "v0" wa)], [], [], [], .null, 1⟩,
            [("v0", 0)], [], [], []⟩ :=
      processNode_nodeEntry {} "v0" wa hta (phase_roundtrip_aux _ hpa) hd0
    have hd1 : VertIds (⟨[(0, decNodeRec "v0" wa)], [], [], [], .null, 1⟩ : Graph) := by
      intro p hp
      rw [List.mem_singleton] at hp
      subst hp
      exact Nat.zero_lt_one
    have hn2 : processNode
        ⟨⟨[(0, decNodeRec "v0" wa)], [], [], [], .null, 1⟩, [("v0", 0)], [], [], []⟩
        "v1" (nodeEntry wb)
        = .ok ⟨⟨[(0, decNodeRec "v0" wa), (1, decNodeRec "v1" wb)],
            [], [], [], .null, 2⟩, [("v0", 0), ("v1", 1)], [], [], []⟩ :=
      processNode_nodeEntry _ "v1" wb htb (phase_roundtrip_aux _ hpb) hd1
    have hn3 : processNode
        ⟨⟨[(0, decNodeRec "v0" wa), (1, decNodeRec "v1" wb)],
          [], [], [], .null, 2⟩, [("v0", 0), ("v1", 1)], [], [], []⟩
        "v2" (auxEntry (gPair a b wa wb sc f) a b)
        = .ok ⟨⟨[(0, decNodeRec "v0" wa), (1, decNodeRec "v1" wb)],
            [], [], [], .null, 2⟩, [("v0", 0), ("v1", 1)], [("v2", [])], [], []⟩ :=
      processNode_auxEntry _ "v2" _ a b
    have hnodes : processNodes
        [("v0", nodeEntry wa), ("v1", nodeEntry wb),
         ("v2", auxEntry (gPair a b wa wb sc f) a b)] {}
        = .ok ⟨⟨[(0, decNodeRec "v0" wa), (1, decNodeRec "v1" wb)],
            [], [], [], .null, 2⟩, [("v0", 0), ("v1", 1)], [("v2", [])], [], []⟩ := by
      simp only [processNodes, bind, Except.bind, hn1, hn2, hn3]
    have he1 : processEdge
        ⟨⟨[(0, decNodeRec "v0" wa), (1, decNodeRec "v1" wb)], [], [], [], .null, 2⟩,
          [("v0", 0), ("v1", 1)], [("v2", [])], []⟩
        (.obj [("src", .str "v0"), ("tgt", .str "v2")])
        = .ok ⟨⟨[(0, decNodeRec "v0" wa), (1, decNodeRec "v1" wb)], [], [], [], .null, 2⟩,
            [("v0", 0), ("v1", 1)], [("v2", [0])], []⟩ := rfl
    have he2 : processEdge
        ⟨⟨[(0, decNodeRec "v0" wa), (1, decNodeRec "v1" wb)], [], [], [], .null, 2⟩,
          [("v0", 0), ("v1", 1)], [("v2", [0])], []⟩
        (.obj [("src", .str "v1"), ("tgt", .str "v2")])
        = .ok ⟨⟨[(0, decNodeRec "v0" wa), (1, decNodeRec "v1" wb)], [], [], [], .null, 2⟩,
            [("v0", 0), ("v1", 1)], [("v2", [0, 1])], []⟩ := rfl
    have hedgesd : processEdges
        [.obj [("src", .str "v0"), ("tgt", .str "v2")],
         .obj [("src", .str "v1"), ("tgt", .str "v2")]]
        ⟨⟨[(0, decNodeRec "v0" wa), (1, decNodeRec "v1" wb)], [], [], [], .null, 2⟩,
          [("v0", 0), ("v1", 1)], [("v2", [])], []⟩
        = .ok ⟨⟨[(0, decNodeRec "v0" wa), (1, decNodeRec "v1" wb)], [], [], [], .null, 2⟩,
            [("v0", 0), ("v1", 1)], [("v2", [0, 1])], []⟩ := by
      simp only [processEdges, bind, Except.bind, he1, he2]
    have hch : checkHadamards [("v2", ([0, 1] : List Nat))]
        ([] : List ((Nat × Nat) × (Nat × Nat)))
        = .ok [((0, 1), (0, 1))] := rfl
    rw [json_to_graph]
    simp only [bind, Except.bind, jitems, lookAssoc, String.reduceEq, reduceIte,
      Option.getD_some, List.map_cons, List.map_nil, hnodes]
    simp only [processWires, Graph.set_inputs, Graph.set_outputs]
    simp only [hedgesd, hch]
    rfl

/-- Witness for claim C4 at the concrete diagram `gPair 0 1 wC4a wC4b
.null 2` (a Z-spider and an X-spider joined by one Hadamard edge). -/
theorem C4_hadamard_fold_unfold_witness :
    graph_to_json (gPair 0 1 wC4a wC4b .null 2) = .ok (.obj
      [("wire_vertices", .obj []),
       ("node_vertices", .obj
          [("v0", nodeEntry wC4a), ("v1", nodeEntry wC4b),
           ("v2", auxEntry (gPair 0 1 wC4a wC4b .null 2) 0 1)]),
       ("undir_edges", .obj
          [("e0", .obj [("src", .str "v0"), ("tgt", .str "v2")]),
           ("e1", .obj [("src", .str "v1"), ("tgt", .str "v2")])]),
       ("scalar", .null)])
    ∧ isHadamardStub (nodeEntry wC4a) = .ok false
    ∧ isHadamardStub (nodeEntry wC4b) = .ok false
    ∧ isHadamardStub (auxEntry (gPair 0 1 wC4a wC4b .null 2) 0 1) = .ok true
    ∧ jindex (auxEntry (gPair 0 1 wC4a wC4b .null 2) 0 1) "data"
        = .ok (.obj [("type", .str "hadamard"), ("is_edge", .str "true")])
    ∧ json_to_graph (.obj
        [("wire_vertices", .obj []),
         ("node_vertices", .obj
            [("v0", nodeEntry wC4a), ("v1", nodeEntry wC4b),
             ("v2", auxEntry (gPair 0 1 wC4a wC4b .null 2) 0 1)]),
         ("undir_edges", .obj
            [("e0", .obj [("src", .str "v0"), ("tgt", .str "v2")]),
             ("e1", .obj [("src", .str "v1"), ("tgt", .str "v2")])]),
         ("scalar", .null)])
        = .ok (⟨[(0, decNodeRec "v0" wC4a), (1, decNodeRec "v1" wC4b)],
            [((0, 1), .HADAMARD)], [], [], .null, 2⟩ : Graph)
    ∧ (decNodeRec "v0" wC4a).ty = wC4a.ty ∧ (decNodeRec "v0" wC4a).phase = wC4a.phase
    ∧ (decNodeRec "v0" wC4a).ground = wC4a.ground
    ∧ (decNodeRec "v1" wC4b).ty = wC4b.ty ∧ (decNodeRec "v1" wC4b).phase = wC4b.phase
    ∧ (decNodeRec "v1" wC4b).ground = wC4b.ground :=
  C4_hadamard_fold_unfold 0 1 wC4a wC4b .null 2 (by decide) (by decide) (by decide)
    (by decide) (by decide) (by decide) (by decide)

/-- Counterexample to claim C4 as stated: in `gC4` the two endpoints of
the Hadamard edge both carry the stored external name `x`; round
tripping collapses them to one vertex and yields a Hadamard self-loop,
not a Hadamard edge between two vertices. -/
theorem C4_hadamard_fold_unfold_counterexample :
    ∃ doc, graph_to_json gC4 = .ok doc
    ∧ ∃ g', json_to_graph doc = .ok g'
      ∧ gC4.verts.length = 2
      ∧ g'.verts.length = 1
      ∧ g'.edgeList = [((0, 0), .HADAMARD)] :=
  ⟨_, rfl, _, rfl, rfl, rfl, rfl⟩

/-! ## Claim C1: the encoder output in zipped form -/

theorem nonBoundCount_eq_nodeList (vl : List (Nat × GVert)) :
    nonBoundCount vl = (nodeList vl).length := rfl

theorem boundCount_eq_wireList (vl : List (Nat × GVert)) :
    boundCount vl = (wireList vl).length := rfl

theorem hadCount_eq_hadList (el : List ((Nat × Nat) × EdgeType)) :
    hadCount el = (hadList el).length := rfl

theorem encVertsSpec_node_zip (g : Graph) (vl : List (Nat × GVert)) :
    ∀ fnv fnb : List String, nonBoundCount vl ≤ fnv.length →
    (encVertsSpec g vl fnv fnb).1
      = (List.zipWith (fun nm p => (nm, p.2)) fnv (nodeList vl)).map
          (fun q => (q.1, nodeEntry q.2)) := by
  induction vl with
  | nil =>
    intro fnv fnb _
    simp [encVertsSpec, nodeList]
  | cons p rest ih =>
    obtain ⟨v, w⟩ := p
    intro fnv fnb hl
    by_cases hb : w.ty = .BOUNDARY
    · rw [encVertsSpec_cons_bound g hb]
      rw [nonBoundCount_cons_bound hb] at hl
      rw [show nodeList ((v, w) :: rest) = nodeList rest from by
        simp [nodeList, List.filter, hb]]
      exact ih fnv fnb.tail hl
    · rw [nonBoundCount_cons_node hb] at hl
      cases fnv with
      | nil => simp at hl
      | cons nm fnv' =>
        rw [encVertsSpec_cons_node g hb]
        rw [show nodeList ((v, w) :: rest) = (v, w) :: nodeList rest from by
          simp [nodeList, List.filter, hb]]
        simp only [List.zipWith_cons_cons, List.map_cons, List.headD_cons,
          List.tail_cons]
        rw [ih fnv' fnb (by simpa using hl)]

theorem encVertsSpec_wire_zip (g : Graph) (vl : List (Nat × GVert)) :
    ∀ fnv fnb : List String, boundCount vl ≤ fnb.length →
    (encVertsSpec g vl fnv fnb).2.1
      = (List.zipWith (fun nm p => (nm, p)) fnb (wireList vl)).map
          (fun q => (q.1, wireEntry g q.2.1 q.2.2)) := by
  induction vl with
  | nil =>
    intro fnv fnb _
    simp [encVertsSpec, wireList]
  | cons p rest ih =>
    obtain ⟨v, w⟩ := p
    intro fnv fnb hl
    by_cases hb : w.ty = .BOUNDARY
    · rw [boundCount_cons_bound hb] at hl
      cases fnb with
      | nil => simp at hl
      | cons nm fnb' =>
        rw [encVertsSpec_cons_bound g hb]
        rw [show wireList ((v, w) :: rest) = (v, w) :: wireList rest from by
          simp [wireList, List.filter, hb]]
        simp only [List.zipWith_cons_cons, List.map_cons, List.headD_cons,
          List.tail_cons]
        rw [ih fnv fnb' (by simpa using hl)]
    · rw [encVertsSpec_cons_node g hb]
      rw [boundCount_cons_node hb] at hl
      rw [show wireList ((v, w) :: rest) = wireList rest from by
        simp [wireList, List.filter, hb]]
      exact ih fnv.tail fnb hl

theorem encVertsSpec_names_perm (g : Graph) (vl : List (Nat × GVert)) :
    ∀ fnv fnb : List String, nonBoundCount vl ≤ fnv.length →
    boundCount vl ≤ fnb.length →
    List.Perm (encVertsSpec g vl fnv fnb).2.2
      (List.zipWith (fun p nm => (p.1, nm)) (nodeList vl) fnv
        ++ List.zipWith (fun p nm => (p.1, nm)) (wireList vl) fnb) := by
  induction vl with
  | nil =>
    intro fnv fnb _ _
    simp [encVertsSpec, nodeList, wireList]
  | cons p rest ih =>
    obtain ⟨v, w⟩ := p
    intro fnv fnb hlv hlb
    by_cases hb : w.ty = .BOUNDARY
    · rw [boundCount_cons_bound hb] at hlb
      rw [nonBoundCount_cons_bound hb] at hlv
      rw [encVertsSpec_cons_bound g hb]
      rw [show nodeList ((v, w) :: rest) = nodeList rest from by
            simp [nodeList, List.filter, hb],
          show wireList ((v, w) :: rest) = (v, w) :: wireList rest from by
            simp [wireList, List.filter, hb]]
      cases fnb with
      | nil => simp at hlb
      | cons nm fnb' =>
        simp only [List.zipWith_cons_cons, List.headD_cons, List.tail_cons]
        refine List.Perm.trans
          (List.Perm.cons _ (ih fnv fnb' hlv (by simpa using hlb))) ?_
        exact (List.perm_middle).symm
    · rw [nonBoundCount_cons_node hb] at hlv
      rw [boundCount_cons_node hb] at hlb
      rw [encVertsSpec_cons_node g hb]
      rw [show nodeList ((v, w) :: rest) = (v, w) :: nodeList rest from by
            simp [nodeList, List.filter, hb],
          show wireList ((v, w) :: rest) = wireList rest from by
            simp [wireList, List.filter, hb]]
      cases fnv with
      | nil => simp at hlv
      | cons nm fnv' =>
        simp only [List.zipWith_cons_cons, List.headD_cons, List.tail_cons,
          List.cons_append]
        exact List.Perm.cons _ (ih fnv' fnb (by simpa using hlv) hlb)

theorem encEdgesSpec_aux_zip (g : Graph) (names : List (Nat × String))
    (el : List ((Nat × Nat) × EdgeType)) :
    ∀ (fnv : List String) (i : Nat), hadCount el ≤ fnv.length →
    (encEdgesSpec g names el fnv i).1
      = (List.zipWith (fun nm e => (nm, e.1)) fnv (hadList el)).map
          (fun q => (q.1, auxEntry g q.2.1 q.2.2)) := by
  induction el with
  | nil =>
    intro fnv i _
    simp [encEdgesSpec, hadList]
  | cons e rest ih =>
    obtain ⟨⟨s, t⟩, ty⟩ := e
    intro fnv i hl
    cases ty
    case SIMPLE =>
      rw [show hadCount (((s, t), .SIMPLE) :: rest) = hadCount rest from by
        simp [hadCount, List.filter]] at hl
      rw [show hadList (((s, t), .SIMPLE) :: rest) = hadList rest from by
        simp [hadList, List.filter]]
      simpa [encEdgesSpec] using ih fnv (i + 1) hl
    case W_IO_EDGE =>
      rw [show hadCount (((s, t), .W_IO_EDGE) :: rest) = hadCount rest from by
        simp [hadCount, List.filter]] at hl
      rw [show hadList (((s, t), .W_IO_EDGE) :: rest) = hadList rest from by
        simp [hadList, List.filter]]
      simpa [encEdgesSpec] using ih fnv (i + 1) hl
    case HADAMARD =>
      rw [show hadCount (((s, t), .HADAMARD) :: rest) = hadCount rest + 1 from by
        simp [hadCount, List.filter]] at hl
      rw [show hadList (((s, t), .HADAMARD) :: rest)
          = ((s, t), .HADAMARD) :: hadList rest from by
        simp [hadList, List.filter]]
      cases fnv with
      | nil => simp at hl
      | cons nm fnv' =>
        simp only [encEdgesSpec, List.zipWith_cons_cons, List.map_cons,
          List.headD_cons, List.tail_cons]
        rw [ih fnv' (i + 2) (by simpa using hl)]

theorem encEdgesSpec_vals (g : Graph) (names : List (Nat × String))
    (el : List ((Nat × Nat) × EdgeType)) :
    ∀ (fnv : List String) (i : Nat),
    (encEdgesSpec g names el fnv i).2.map Prod.snd = edgeVals g names el fnv := by
  induction el with
  | nil =>
    intro fnv i
    rfl
  | cons e rest ih =>
    obtain ⟨⟨s, t⟩, ty⟩ := e
    intro fnv i
    cases ty
    case SIMPLE => simpa [encEdgesSpec, edgeVals] using ih fnv (i + 1)
    case W_IO_EDGE => simpa [encEdgesSpec, edgeVals] using ih fnv (i + 1)
    case HADAMARD => simpa [encEdgesSpec, edgeVals] using ih fnv.tail (i + 2)

/-! ## Claim C1: the decoder on the encoded vertex sections -/

theorem processNodes_append (l1 l2 : List (String × JValue)) :
    ∀ st : DecSt, processNodes (l1 ++ l2) st
      = (processNodes l1 st).bind (fun st1 => processNodes l2 st1) := by
  induction l1 with
  | nil =>
    intro st
    rfl
  | cons q t ih =>
    intro st
    obtain ⟨nm, attr⟩ := q
    rw [List.cons_append]
    simp only [processNodes, bind, Except.bind]
    cases h : processNode st nm attr with
    | error e => rfl
    | ok st1 => exact ih st1

theorem processNodes_nodeEntries (L : List (String × GVert)) :
    ∀ st : DecSt, VertIds st.g →
    (∀ q ∈ L, q.2.ty ≠ .BOUNDARY) →
    (∀ q ∈ L, _quanto_value_to_phase (_phase_to_quanto_value q.2.phase)
      = .ok q.2.phase) →
    (∀ q ∈ L, lookAssoc st.names q.1 = none) →
    (L.map Prod.fst).Nodup →
    processNodes (L.map (fun q => (q.1, nodeEntry q.2))) st = .ok
      { g := ⟨st.g.verts ++ decNodeVerts st.g.fresh L, st.g.edgeList, st.g.inputs,
          st.g.outputs, st.g.scalar, st.g.fresh + L.length⟩,
        names := st.names ++ decNames st.g.fresh (L.map Prod.fst),
        hadamards := st.hadamards, inputs := st.inputs, outputs := st.outputs } := by
  induction L with
  | nil =>
    intro st _ _ _ _ _
    simp [processNodes, decNodeVerts, decNames]
  | cons q L' ih =>
    obtain ⟨nm, w⟩ := q
    intro st hids hb hph hfresh hnd
    have hstep := processNode_nodeEntry st nm w (hb _ (List.mem_cons_self _ _))
      (hph _ (List.mem_cons_self _ _)) hids
    have hupd : updAssoc st.names nm st.g.fresh = st.names ++ [(nm, st.g.fresh)] :=
      updAssoc_absent _ _ _ (hfresh _ (List.mem_cons_self _ _))
    have hids1 : VertIds (⟨st.g.verts ++ [(st.g.fresh, decNodeRec nm w)],
        st.g.edgeList, st.g.inputs, st.g.outputs, st.g.scalar,
        st.g.fresh + 1⟩ : Graph) :=
      VertIds_append_fresh hids _ _ _ _ _
    have hfresh1 : ∀ q' ∈ L',
        lookAssoc (st.names ++ [(nm, st.g.fresh)]) q'.1 = none := by
      intro q' hq'
      rw [lookAssoc_append_none _ _ _ (hfresh q' (List.mem_cons_of_mem _ hq'))]
      have hne : nm ≠ q'.1 := by
        intro hEq
        simp only [List.map_cons, List.nodup_cons] at hnd
        exact hnd.1 (hEq ▸ List.mem_map_of_mem Prod.fst hq')
      simp [lookAssoc, hne]
    have hih := ih ⟨⟨st.g.verts ++ [(st.g.fresh, decNodeRec nm w)],
        st.g.edgeList, st.g.inputs, st.g.outputs, st.g.scalar, st.g.fresh + 1⟩,
        updAssoc st.names nm st.g.fresh, st.hadamards, st.inputs, st.outputs⟩
      hids1
      (fun q' hq' => hb q' (List.mem_cons_of_mem _ hq'))
      (fun q' hq' => hph q' (List.mem_cons_of_mem _ hq'))
      (by
        intro q' hq'
        rw [hupd]
        exact hfresh1 q' hq')
      (by
        simp only [List.map_cons, List.nodup_cons] at hnd
        exact hnd.2)
    simp only [List.map_cons, processNodes, bind, Except.bind, hstep]
    rw [hih, hupd]
    simp only [decNodeVerts, decNames, List.map_cons]
    simp [List.append_assoc, Nat.add_assoc, Nat.add_comm, Nat.add_left_comm]

theorem processNodes_auxEntries (g0 : Graph) (A : List (String × (Nat × Nat))) :
    ∀ st : DecSt,
    (∀ q ∈ A, lookAssoc st.hadamards q.1 = none) →
    (A.map Prod.fst).Nodup →
    processNodes (A.map (fun q => (q.1, auxEntry g0 q.2.1 q.2.2))) st = .ok
      { st with hadamards := st.hadamards
          ++ A.map (fun q => (q.1, ([] : List Nat))) } := by
  induction A with
  | nil =>
    intro st _ _
    simp [processNodes]
  | cons q A' ih =>
    obtain ⟨nm, ⟨s, t⟩⟩ := q
    intro st hfresh hnd
    have hupd : updAssoc st.hadamards nm ([] : List Nat)
        = st.hadamards ++ [(nm, ([] : List Nat))] :=
      updAssoc_absent _ _ _ (hfresh _ (List.mem_cons_self _ _))
    have hfresh1 : ∀ q' ∈ A',
        lookAssoc (st.hadamards ++ [(nm, ([] : List Nat))]) q'.1 = none := by
      intro q' hq'
      rw [lookAssoc_append_none _ _ _ (hfresh q' (List.mem_cons_of_mem _ hq'))]
      have hne : nm ≠ q'.1 := by
        intro hEq
        simp only [List.map_cons, List.nodup_cons] at hnd
        exact hnd.1 (hEq ▸ List.mem_map_of_mem Prod.fst hq')
      simp [lookAssoc, hne]
    have hih := ih ⟨st.g, st.names, updAssoc st.hadamards nm [], st.inputs,
        st.outputs⟩
      (by
        intro q' hq'
        rw [hupd]
        exact hfresh1 q' hq')
      (by
        simp only [List.map_cons, List.nodup_cons] at hnd
        exact hnd.2)
    simp only [List.map_cons, processNodes, bind, Except.bind,
      processNode_auxEntry st nm g0 s t]
    rw [hih, hupd]
    simp [List.append_assoc]

theorem if_append_flag (b : Bool) (x : List Nat) (f : Nat) :
    (if b then x ++ [f] else x) = x ++ (if b then [f] else []) := by
  cases b <;> simp

theorem processWires_wireEntries (g0 : Graph) (W : List (String × (Nat × GVert))) :
    ∀ st : DecSt, VertIds st.g →
    (∀ q ∈ W, lookAssoc st.names q.1 = none) →
    (W.map Prod.fst).Nodup →
    processWires (W.map (fun q => (q.1, wireEntry g0 q.2.1 q.2.2))) st = .ok
      { g := ⟨st.g.verts ++ decWireVerts g0 st.g.fresh W, st.g.edgeList, st.g.inputs,
          st.g.outputs, st.g.scalar, st.g.fresh + W.length⟩,
        names := st.names ++ decNames st.g.fresh (W.map Prod.fst),
        hadamards := st.hadamards,
        inputs := st.inputs ++ decFlags g0.inputs st.g.fresh W,
        outputs := st.outputs ++ decFlags g0.outputs st.g.fresh W } := by
  induction W with
  | nil =>
    intro st _ _ _
    simp [processWires, decWireVerts, decNames, decFlags]
  | cons q W' ih =>
    obtain ⟨nm, ⟨v, w⟩⟩ := q
    intro st hids hfresh hnd
    have hstep := processWire_wireEntry st nm g0 v w hids
    have hupd : updAssoc st.names nm st.g.fresh = st.names ++ [(nm, st.g.fresh)] :=
      updAssoc_absent _ _ _ (hfresh _ (List.mem_cons_self _ _))
    have hids1 : VertIds (⟨st.g.verts ++ [(st.g.fresh, decWireRec nm g0 v w)],
        st.g.edgeList, st.g.inputs, st.g.outputs, st.g.scalar,
        st.g.fresh + 1⟩ : Graph) :=
      VertIds_append_fresh hids _ _ _ _ _
    have hfresh1 : ∀ q' ∈ W',
        lookAssoc (st.names ++ [(nm, st.g.fresh)]) q'.1 = none := by
      intro q' hq'
      rw [lookAssoc_append_none _ _ _ (hfresh q' (List.mem_cons_of_mem _ hq'))]
      have hne : nm ≠ q'.1 := by
        intro hEq
        simp only [List.map_cons, List.nodup_cons] at hnd
        exact hnd.1 (hEq ▸ List.mem_map_of_mem Prod.fst hq')
      simp [lookAssoc, hne]
    have hih := ih ⟨⟨st.g.verts ++ [(st.g.fresh, decWireRec nm g0 v w)],
        st.g.edgeList, st.g.inputs, st.g.outputs, st.g.scalar, st.g.fresh + 1⟩,
        updAssoc st.names nm st.g.fresh, st.hadamards,
        if g0.inputs.contains v then st.inputs ++ [st.g.fresh] else st.inputs,
        if g0.outputs.contains v then st.outputs ++ [st.g.fresh] else st.outputs⟩
      hids1
      (by
        intro q' hq'
        rw [hupd]
        exact hfresh1 q' hq')
      (by
        simp only [List.map_cons, List.nodup_cons] at hnd
        exact hnd.2)
    simp only [List.map_cons, processWires, bind, Except.bind, hstep]
    rw [hih, hupd]
    simp only [decWireVerts, decNames, decFlags, List.map_cons,
      if_append_flag]
    simp [List.append_assoc, Nat.add_assoc, Nat.add_comm, Nat.add_left_comm]

/-! ## Claim C1: name resolution across the round trip -/

theorem decNames_keys (L : List String) :
    ∀ F : Nat, (decNames F L).map Prod.fst = L := by
  induction L with
  | nil => intro F; rfl
  | cons nm t ih =>
    intro F
    simp only [decNames, List.map_cons, ih (F + 1)]

theorem decNames_length (L : List String) :
    ∀ F : Nat, (decNames F L).length = L.length := by
  induction L with
  | nil => intro F; rfl
  | cons nm t ih =>
    intro F
    simp [decNames, ih (F + 1)]

theorem lookAssoc_decNames_get (L : List String) :
    ∀ (F i : Nat) (hi : i < L.length), L.Nodup →
    lookAssoc (decNames F L) (L.get ⟨i, hi⟩) = some (F + i) := by
  induction L with
  | nil =>
    intro F i hi _
    simp at hi
  | cons nm t ih =>
    intro F i hi hnd
    cases i with
    | zero =>
      simp [decNames, lookAssoc]
    | succ j =>
      have hj : j < t.length := by simpa using hi
      have hne : nm ≠ t.get ⟨j, hj⟩ := by
        intro hEq
        exact (List.nodup_cons.mp hnd).1 (hEq ▸ t.get_mem j hj)
      simp only [decNames, List.get_cons_succ, lookAssoc, if_neg hne]
      rw [ih (F + 1) j hj (List.nodup_cons.mp hnd).2]
      congr 1
      omega

theorem lookAssoc_eq_some_iff {κ : Type} [DecidableEq κ] {α : Type}
    {l : List (κ × α)} (hnd : (l.map Prod.fst).Nodup) (k : κ) (x : α) :
    lookAssoc l k = some x ↔ (k, x) ∈ l := by
  induction l with
  | nil => simp [lookAssoc]
  | cons p t ih =>
    obtain ⟨k0, v0⟩ := p
    simp only [List.map_cons, List.nodup_cons] at hnd
    by_cases hk : k0 = k
    · subst hk
      simp only [lookAssoc, eq_self_iff_true, if_true, List.mem_cons,
        Option.some.injEq]
      constructor
      · intro h
        subst h
        exact Or.inl rfl
      · intro h
        rcases h with h | h
        · exact (((Prod.mk.injEq _ _ _ _).mp h).2).symm
        · exact absurd (List.mem_map_of_mem Prod.fst h) hnd.1
    · simp only [lookAssoc, if_neg hk, List.mem_cons]
      rw [ih hnd.2]
      constructor
      · exact Or.inr
      · intro h
        rcases h with h | h
        · exact absurd (congrArg Prod.fst h).symm hk
        · exact h

theorem lookAssoc_perm {κ : Type} [DecidableEq κ] {α : Type}
    {l l' : List (κ × α)} (hp : List.Perm l l') (hnd : (l.map Prod.fst).Nodup)
    (k : κ) : lookAssoc l k = lookAssoc l' k := by
  have hnd' : (l'.map Prod.fst).Nodup := (hp.map Prod.fst).nodup_iff.mp hnd
  cases h : lookAssoc l k with
  | none =>
    cases h' : lookAssoc l' k with
    | none => rfl
    | some y =>
      have := (lookAssoc_eq_some_iff hnd' k y).mp h'
      have h2 := (lookAssoc_eq_some_iff hnd k y).mpr (hp.mem_iff.mpr this)
      rw [h] at h2
      exact absurd h2 (by simp)
  | some x =>
    have := (lookAssoc_eq_some_iff hnd k x).mp h
    exact ((lookAssoc_eq_some_iff hnd' k x).mpr (hp.mem_iff.mp this)).symm

theorem zipWith_mk_fst {α γ : Type} (h : α → γ) :
    ∀ (A : List String) (B : List α),
    (List.zipWith (fun nm p => (nm, h p)) A B).map Prod.fst = A.take B.length := by
  intro A
  induction A with
  | nil => intro B; simp
  | cons a A' ih =>
    intro B
    cases B with
    | nil => simp
    | cons b B' => simp [ih B']

theorem zipWith_mk_length {α γ : Type} (h : α → γ) (A : List String) (B : List α) :
    (List.zipWith (fun nm p => (nm, h p)) A B).length = min A.length B.length := by
  simp

theorem nodeList_sub_pool (g : Graph) :
    (nodeList g.verts).length ≤ (vPool g).length := by
  rw [vPool, freenames_length, ← nonBoundCount_eq_nodeList]
  have := nonBoundCount_le_length g.verts
  omega

theorem wireList_sub_pool (g : Graph) :
    (wireList g.verts).length ≤ (bPool g).length := by
  rw [bPool, freenames_length, ← boundCount_eq_wireList]
  exact boundCount_le_length g.verts

theorem hadList_sub_pool (g : Graph) :
    (hadList g.edgeList).length
      ≤ ((vPool g).drop (nonBoundCount g.verts)).length := by
  rw [List.length_drop, vPool, freenames_length, ← hadCount_eq_hadList]
  have h3 := hadCount_le_length g.edgeList
  have h4 := nonBoundCount_le_length g.verts
  omega

theorem nodePairs_length (g : Graph) :
    (nodePairs g).length = (nodeList g.verts).length := by
  rw [nodePairs, List.length_zipWith]
  exact Nat.min_eq_right (nodeList_sub_pool g)

theorem wirePairs_length (g : Graph) :
    (wirePairs g).length = (wireList g.verts).length := by
  rw [wirePairs, List.length_zipWith]
  exact Nat.min_eq_right (wireList_sub_pool g)

theorem auxPairs_length (g : Graph) :
    (auxPairs g).length = (hadList g.edgeList).length := by
  rw [auxPairs, List.length_zipWith]
  exact Nat.min_eq_right (hadList_sub_pool g)

theorem nodePairs_keys (g : Graph) :
    (nodePairs g).map Prod.fst = (vPool g).take (nodeList g.verts).length :=
  zipWith_mk_fst _ _ _

theorem wirePairs_keys (g : Graph) :
    (wirePairs g).map Prod.fst = (bPool g).take (wireList g.verts).length :=
  zipWith_mk_fst _ _ _

theorem auxPairs_keys (g : Graph) :
    (auxPairs g).map Prod.fst
      = ((vPool g).drop (nonBoundCount g.verts)).take (hadList g.edgeList).length :=
  zipWith_mk_fst _ _ _

theorem encNames_keys (g : Graph) :
    ((encV g).2.2).map Prod.fst = g.verts.map Prod.fst := by
  rw [encV]
  exact encVertsSpec_names_keys g g.verts (vPool g) (bPool g)

theorem encNames_perm (g : Graph) :
    List.Perm (encV g).2.2
      (List.zipWith (fun p nm => (p.1, nm)) (nodeList g.verts) (vPool g)
        ++ List.zipWith (fun p nm => (p.1, nm)) (wireList g.verts) (bPool g)) := by
  rw [encV]
  refine encVertsSpec_names_perm g g.verts (vPool g) (bPool g) ?_ ?_
  · rw [nonBoundCount_eq_nodeList]
    exact nodeList_sub_pool g
  · rw [boundCount_eq_wireList]
    exact wireList_sub_pool g

theorem encNames_node_get (g : Graph) (hids : (g.verts.map Prod.fst).Nodup)
    (k : Nat) (hk : k < (nodeList g.verts).length) :
    lookAssoc (encV g).2.2 (((nodeList g.verts).get ⟨k, hk⟩).1)
      = some ((vPool g).get ⟨k, Nat.lt_of_lt_of_le hk (nodeList_sub_pool g)⟩) := by
  have hperm := encNames_perm g
  have hkeys : ((encV g).2.2.map Prod.fst).Nodup := by
    rw [encNames_keys g]
    exact hids
  rw [lookAssoc_perm hperm hkeys]
  have hnd' := (hperm.map Prod.fst).nodup_iff.mp hkeys
  refine (lookAssoc_eq_some_iff hnd' _ _).mpr ?_
  refine List.mem_append_left _ ?_
  have hzk : k < (List.zipWith (fun p nm => (p.1, nm))
      (nodeList g.verts) (vPool g)).length := by
    rw [List.length_zipWith]
    exact lt_min hk (Nat.lt_of_lt_of_le hk (nodeList_sub_pool g))
  have hget : (List.zipWith (fun p nm => (p.1, nm))
        (nodeList g.verts) (vPool g)).get ⟨k, hzk⟩
      = (((nodeList g.verts).get ⟨k, hk⟩).1,
         (vPool g).get ⟨k, Nat.lt_of_lt_of_le hk (nodeList_sub_pool g)⟩) := by
    simp [List.get_eq_getElem, List.getElem_zipWith]
  rw [← hget]
  exact List.get_mem _ _ _

theorem encNames_wire_get (g : Graph) (hids : (g.verts.map Prod.fst).Nodup)
    (j : Nat) (hj : j < (wireList g.verts).length) :
    lookAssoc (encV g).2.2 (((wireList g.verts).get ⟨j, hj⟩).1)
      = some ((bPool g).get ⟨j, Nat.lt_of_lt_of_le hj (wireList_sub_pool g)⟩) := by
  have hperm := encNames_perm g
  have hkeys : ((encV g).2.2.map Prod.fst).Nodup := by
    rw [encNames_keys g]
    exact hids
  rw [lookAssoc_perm hperm hkeys]
  have hnd' := (hperm.map Prod.fst).nodup_iff.mp hkeys
  refine (lookAssoc_eq_some_iff hnd' _ _).mpr ?_
  refine List.mem_append_right _ ?_
  have hzj : j < (List.zipWith (fun p nm => (p.1, nm))
      (wireList g.verts) (bPool g)).length := by
    rw [List.length_zipWith]
    exact lt_min hj (Nat.lt_of_lt_of_le hj (wireList_sub_pool g))
  have hget : (List.zipWith (fun p nm => (p.1, nm))
        (wireList g.verts) (bPool g)).get ⟨j, hzj⟩
      = (((wireList g.verts).get ⟨j, hj⟩).1,
         (bPool g).get ⟨j, Nat.lt_of_lt_of_le hj (wireList_sub_pool g)⟩) := by
    simp [List.get_eq_getElem, List.getElem_zipWith]
  rw [← hget]
  exact List.get_mem _ _ _

theorem decAll_node_get (g : Graph)
    (k : Nat) (hk : k < (nodeList g.verts).length) :
    lookAssoc (decAllNames g)
        ((vPool g).get ⟨k, Nat.lt_of_lt_of_le hk (nodeList_sub_pool g)⟩)
      = some k := by
  have hkt : k < ((vPool g).take (nodeList g.verts).length).length := by
    rw [List.length_take]
    exact lt_min hk (Nat.lt_of_lt_of_le hk (nodeList_sub_pool g))
  have hnm : ((vPool g).take (nodeList g.verts).length).get ⟨k, hkt⟩
      = (vPool g).get ⟨k, Nat.lt_of_lt_of_le hk (nodeList_sub_pool g)⟩ := by
    simp [List.get_eq_getElem, List.getElem_take]
  have hnd : ((vPool g).take (nodeList g.verts).length).Nodup :=
    List.Sublist.nodup (List.take_sublist _ _) (by rw [vPool]; exact freenames_nodup _ _)
  have h1 := lookAssoc_decNames_get ((vPool g).take (nodeList g.verts).length)
    0 k hkt hnd
  rw [hnm, Nat.zero_add] at h1
  rw [decAllNames, nodePairs_keys]
  exact lookAssoc_append_some _ _ _ _ h1

theorem decAll_wire_get (g : Graph)
    (j : Nat) (hj : j < (wireList g.verts).length) :
    lookAssoc (decAllNames g)
        ((bPool g).get ⟨j, Nat.lt_of_lt_of_le hj (wireList_sub_pool g)⟩)
      = some ((nodeList g.verts).length + j) := by
  have hjt : j < ((bPool g).take (wireList g.verts).length).length := by
    rw [List.length_take]
    exact lt_min hj (Nat.lt_of_lt_of_le hj (wireList_sub_pool g))
  have hnm : ((bPool g).take (wireList g.verts).length).get ⟨j, hjt⟩
      = (bPool g).get ⟨j, Nat.lt_of_lt_of_le hj (wireList_sub_pool g)⟩ := by
    simp [List.get_eq_getElem, List.getElem_take]
  have hnd : ((bPool g).take (wireList g.verts).length).Nodup :=
    List.Sublist.nodup (List.take_sublist _ _) (by rw [bPool]; exact freenames_nodup _ _)
  have h1 := lookAssoc_decNames_get ((bPool g).take (wireList g.verts).length)
    (nodePairs g).length j hjt hnd
  rw [hnm] at h1
  have hmiss : lookAssoc (decNames 0 ((nodePairs g).map Prod.fst))
      ((bPool g).get ⟨j, Nat.lt_of_lt_of_le hj (wireList_sub_pool g)⟩) = none := by
    refine lookAssoc_eq_none_of_not_mem ?_
    rw [decNames_keys, nodePairs_keys]
    intro hmem
    have hv : (bPool g).get ⟨j, Nat.lt_of_lt_of_le hj (wireList_sub_pool g)⟩
        ∈ vPool g := (List.take_sublist _ _).subset hmem
    have hb : (bPool g).get ⟨j, Nat.lt_of_lt_of_le hj (wireList_sub_pool g)⟩
        ∈ bPool g := List.get_mem _ _ _
    have hv' : (bPool g).get ⟨j, Nat.lt_of_lt_of_le hj (wireList_sub_pool g)⟩
        ∈ freenames 'v' (g.verts.length + g.edgeList.length) := hv
    have hb' : (bPool g).get ⟨j, Nat.lt_of_lt_of_le hj (wireList_sub_pool g)⟩
        ∈ freenames 'b' g.verts.length := hb
    exact freenames_disjoint (by decide) hv' hb'
  rw [decAllNames, lookAssoc_append_none _ _ _ hmiss, wirePairs_keys]
  rw [h1, nodePairs_length]

theorem phi_node_get (g : Graph) (hids : (g.verts.map Prod.fst).Nodup)
    (k : Nat) (hk : k < (nodeList g.verts).length) :
    phiOf g (((nodeList g.verts).get ⟨k, hk⟩).1) = k
    ∧ lookAssoc (decAllNames g)
        ((lookAssoc (encV g).2.2 (((nodeList g.verts).get ⟨k, hk⟩).1)).getD "")
      = some k := by
  rw [phiOf, encNames_node_get g hids k hk]
  rw [show (some ((vPool g).get
        ⟨k, Nat.lt_of_lt_of_le hk (nodeList_sub_pool g)⟩)).getD ""
      = (vPool g).get ⟨k, Nat.lt_of_lt_of_le hk (nodeList_sub_pool g)⟩ from rfl]
  rw [decAll_node_get g k hk]
  exact ⟨rfl, rfl⟩

theorem phi_wire_get (g : Graph) (hids : (g.verts.map Prod.fst).Nodup)
    (j : Nat) (hj : j < (wireList g.verts).length) :
    phiOf g (((wireList g.verts).get ⟨j, hj⟩).1) = (nodeList g.verts).length + j
    ∧ lookAssoc (decAllNames g)
        ((lookAssoc (encV g).2.2 (((wireList g.verts).get ⟨j, hj⟩).1)).getD "")
      = some ((nodeList g.verts).length + j) := by
  rw [phiOf, encNames_wire_get g hids j hj]
  rw [show (some ((bPool g).get
        ⟨j, Nat.lt_of_lt_of_le hj (wireList_sub_pool g)⟩)).getD ""
      = (bPool g).get ⟨j, Nat.lt_of_lt_of_le hj (wireList_sub_pool g)⟩ from rfl]
  rw [decAll_wire_get g j hj]
  exact ⟨rfl, rfl⟩

theorem mem_node_or_wire {vl : List (Nat × GVert)} {p : Nat × GVert} (h : p ∈ vl) :
    p ∈ nodeList vl ∨ p ∈ wireList vl := by
  by_cases hb : p.2.ty = .BOUNDARY
  · exact Or.inr (List.mem_filter.mpr ⟨h, by simp [hb]⟩)
  · exact Or.inl (List.mem_filter.mpr ⟨h, by simp [hb]⟩)

theorem phi_some_of_mem (g : Graph) (hids : (g.verts.map Prod.fst).Nodup) :
    ∀ p ∈ g.verts,
    lookAssoc (decAllNames g) ((lookAssoc (encV g).2.2 p.1).getD "")
      = some (phiOf g p.1) := by
  intro p hp
  rcases mem_node_or_wire hp with hn | hw
  · obtain ⟨k, hk⟩ := List.mem_iff_get.mp hn
    obtain ⟨kk, hkk⟩ := k
    rw [← hk]
    exact (phi_node_get g hids kk hkk).2.trans
      (by rw [(phi_node_get g hids kk hkk).1])
  · obtain ⟨j, hj⟩ := List.mem_iff_get.mp hw
    obtain ⟨jj, hjj⟩ := j
    rw [← hj]
    exact (phi_wire_get g hids jj hjj).2.trans
      (by rw [(phi_wire_get g hids jj hjj).1])

theorem phi_inj_on (g : Graph) (hids : (g.verts.map Prod.fst).Nodup) :
    ∀ a ∈ g.verts.map Prod.fst, ∀ b ∈ g.verts.map Prod.fst,
    phiOf g a = phiOf g b → a = b := by
  intro a ha b hb hEq
  obtain ⟨p, hp, hpa⟩ := List.mem_map.mp ha
  obtain ⟨q, hq, hqb⟩ := List.mem_map.mp hb
  subst hpa
  subst hqb
  rcases mem_node_or_wire hp with hn | hw
  all_goals rcases mem_node_or_wire hq with hn' | hw'
  · obtain ⟨⟨k, hk⟩, hgk⟩ := List.mem_iff_get.mp hn
    obtain ⟨⟨k', hk'⟩, hgk'⟩ := List.mem_iff_get.mp hn'
    rw [← hgk, ← hgk'] at hEq ⊢
    rw [(phi_node_get g hids k hk).1, (phi_node_get g hids k' hk').1] at hEq
    subst hEq
    rfl
  · obtain ⟨⟨k, hk⟩, hgk⟩ := List.mem_iff_get.mp hn
    obtain ⟨⟨j, hj⟩, hgj⟩ := List.mem_iff_get.mp hw'
    rw [← hgk, ← hgj] at hEq
    rw [(phi_node_get g hids k hk).1, (phi_wire_get g hids j hj).1] at hEq
    omega
  · obtain ⟨⟨j, hj⟩, hgj⟩ := List.mem_iff_get.mp hw
    obtain ⟨⟨k, hk⟩, hgk⟩ := List.mem_iff_get.mp hn'
    rw [← hgj, ← hgk] at hEq
    rw [(phi_wire_get g hids j hj).1, (phi_node_get g hids k hk).1] at hEq
    omega
  · obtain ⟨⟨j, hj⟩, hgj⟩ := List.mem_iff_get.mp hw
    obtain ⟨⟨j', hj'⟩, hgj'⟩ := List.mem_iff_get.mp hw'
    rw [← hgj, ← hgj'] at hEq ⊢
    rw [(phi_wire_get g hids j hj).1, (phi_wire_get g hids j' hj').1] at hEq
    have : j = j' := by omega
    subst this
    rfl

theorem pairKey_cases (s t : Nat) :
    pairKey s t = (s, t) ∨ pairKey s t = (t, s) := by
  rw [pairKey]
  by_cases h : s < t
  · rw [if_pos h]
    exact Or.inl rfl
  · rw [if_neg h]
    exact Or.inr rfl

theorem pairKey_sorted (s t : Nat) : (pairKey s t).1 ≤ (pairKey s t).2 := by
  rw [pairKey]
  by_cases h : s < t
  · rw [if_pos h]
    exact Nat.le_of_lt h
  · rw [if_neg h]
    exact Nat.le_of_not_lt h

theorem pairKey_eq_iff (s t u v : Nat) :
    pairKey s t = pairKey u v ↔ (s = u ∧ t = v) ∨ (s = v ∧ t = u) := by
  rw [pairKey, pairKey]
  by_cases h1 : s < t
  all_goals by_cases h2 : u < v
  all_goals simp only [if_pos, if_neg, h1, h2, if_true, if_false, Prod.mk.injEq]
  all_goals constructor
  all_goals intro h
  all_goals omega

/-! ## Claim C1: the decoder's edge pass on encoded entries -/

theorem processEdge_simple_entry (st : ESt) (ns nt : String) (w1 w2 : Nat)
    (h1 : lookAssoc st.names ns = some w1) (h2 : lookAssoc st.names nt = some w2)
    (hm1 : memA st.hadamards ns = false) (hm2 : memA st.hadamards nt = false)
    (hetab : lookAssoc st.etab (pairKey w1 w2) = none) :
    processEdge st (.obj [("src", .str ns), ("tgt", .str nt)])
      = .ok { st with etab := st.etab ++ [(pairKey w1 w2, (1, 0))] } := by
  rw [processEdge]
  simp only [bind, Except.bind, jindex, jkey, lookAssoc, String.reduceEq, reduceIte,
    hm1, hm2, h1, h2, Bool.false_and, Bool.false_eq_true, if_false]
  simp only [Option.elim, Bool.false_eq_true, if_false, hetab, Option.getD_none,
    updAssoc_absent _ _ _ hetab]

theorem processEdge_wio_entry (st : ESt) (ns nt : String) (w1 w2 : Nat)
    (h1 : lookAssoc st.names ns = some w1) (h2 : lookAssoc st.names nt = some w2)
    (hm1 : memA st.hadamards ns = false) (hm2 : memA st.hadamards nt = false) :
    processEdge st (.obj [("src", .str ns), ("tgt", .str nt), ("type", .str "w_io")])
      = .ok { st with g := { st.g with
          edgeList := st.g.edgeList ++ [(pairKey w1 w2, .W_IO_EDGE)] } } := by
  rw [processEdge]
  simp only [bind, Except.bind, jindex, jkey, lookAssoc, String.reduceEq, reduceIte,
    hm1, hm2, h1, h2, Bool.false_and, Bool.false_eq_true, if_false]
  rfl

theorem processEdge_tostub_entry (st : ESt) (ns nm : String) (w1 : Nat)
    (h1 : lookAssoc st.names ns = some w1)
    (hm1 : memA st.hadamards ns = false) (hm2 : memA st.hadamards nm = true) :
    processEdge st (.obj [("src", .str ns), ("tgt", .str nm)])
      = .ok { st with hadamards := appAssoc st.hadamards nm w1 } := by
  rw [processEdge]
  simp only [bind, Except.bind, jindex, jkey, lookAssoc, String.reduceEq, reduceIte,
    hm1, hm2, h1, Bool.false_and, Bool.false_eq_true, if_false]

theorem mapApp_id (L : List (String × List Nat)) (nm : String) (x : Nat)
    (h : ∀ q ∈ L, q.1 ≠ nm) :
    L.map (fun p => if p.1 = nm then (p.1, p.2 ++ [x]) else p) = L := by
  induction L with
  | nil => rfl
  | cons p t ih =>
    simp only [List.map_cons, if_neg (h p (List.mem_cons_self p t))]
    rw [ih (fun q hq => h q (List.mem_cons_of_mem _ hq))]

theorem appAssoc_middle (done rest : List (String × List Nat)) (nm : String)
    (l : List Nat) (x : Nat)
    (hd : nm ∉ done.map Prod.fst) (hr : nm ∉ rest.map Prod.fst) :
    appAssoc (done ++ (nm, l) :: rest) nm x = done ++ (nm, l ++ [x]) :: rest := by
  rw [appAssoc, List.map_append, List.map_cons]
  rw [mapApp_id done nm x (fun q hq hEq => hd (hEq ▸ List.mem_map_of_mem Prod.fst hq)),
      mapApp_id rest nm x (fun q hq hEq => hr (hEq ▸ List.mem_map_of_mem Prod.fst hq))]
  simp

theorem memA_eq_false_of_not_mem {κ : Type} [DecidableEq κ] {α : Type}
    {l : List (κ × α)} {k : κ} (h : k ∉ l.map Prod.fst) : memA l k = false := by
  rw [memA, lookAssoc_eq_none_of_not_mem h]
  rfl

theorem memA_middle (done rest : List (String × List Nat)) (nm : String)
    (l : List Nat) (hd : nm ∉ done.map Prod.fst) :
    memA (done ++ (nm, l) :: rest) nm = true := by
  rw [memA, lookAssoc_append_none _ _ _ (lookAssoc_eq_none_of_not_mem hd)]
  simp [lookAssoc]

theorem stubKeys (A : List (String × (Nat × Nat))) :
    (A.map (fun q => (q.1, ([] : List Nat)))).map Prod.fst = A.map Prod.fst := by
  simp

theorem stubFill_keys (ψ : Nat → Nat) (A : List (String × (Nat × Nat))) :
    (stubFill ψ A).map Prod.fst = A.map Prod.fst := by
  simp [stubFill]

theorem processEdges_encoded (g0 : Graph) (names : List (Nat × String))
    (ψ : Nat → Nat) (N : List (String × Nat)) :
    ∀ (el : List ((Nat × Nat) × EdgeType)) (A : List (String × (Nat × Nat)))
      (done : List (String × List Nat)) (st : ESt),
    st.names = N →
    st.hadamards = done ++ A.map (fun q => (q.1, ([] : List Nat))) →
    A.map Prod.snd = (hadList el).map (fun e => e.1) →
    (A.map Prod.fst).Nodup →
    (∀ nm ∈ A.map Prod.fst, nm ∉ done.map Prod.fst) →
    (∀ e ∈ el,
      lookAssoc N ((lookAssoc names e.1.1).getD "") = some (ψ e.1.1)
      ∧ lookAssoc N ((lookAssoc names e.1.2).getD "") = some (ψ e.1.2)) →
    (∀ e ∈ el,
      ((lookAssoc names e.1.1).getD "") ∉ done.map Prod.fst
      ∧ ((lookAssoc names e.1.1).getD "") ∉ A.map Prod.fst
      ∧ ((lookAssoc names e.1.2).getD "") ∉ done.map Prod.fst
      ∧ ((lookAssoc names e.1.2).getD "") ∉ A.map Prod.fst) →
    (∀ e ∈ el, e.2 = .SIMPLE →
      lookAssoc st.etab (pairKey (ψ e.1.1) (ψ e.1.2)) = none) →
    ((el.filter (fun e => decide (e.2 = .SIMPLE))).map
        (fun e => pairKey (ψ e.1.1) (ψ e.1.2))).Nodup →
    processEdges (edgeVals g0 names el (A.map Prod.fst)) st = .ok
      ⟨{ st.g with edgeList := st.g.edgeList ++ wioEdges ψ el },
        N, done ++ stubFill ψ A, st.etab ++ simpleTab ψ el⟩ := by
  intro el
  induction el with
  | nil =>
    intro A done st hstN hH hA _ _ _ _ _ _
    have hA0 : A = [] := by
      rw [show hadList ([] : List ((Nat × Nat) × EdgeType)) = [] from rfl] at hA
      simpa using hA
    subst hA0
    simp only [List.map_nil, List.append_nil] at hH
    simp only [List.map_nil, edgeVals, processEdges]
    rw [← hstN, ← hH]
    simp [wioEdges, simpleTab, stubFill]
  | cons e rest ih =>
    obtain ⟨⟨s, t⟩, ty⟩ := e
    intro A done st hstN hH hA hAnd hAdone hN hVN hET hSN
    obtain ⟨hs, ht⟩ := hN _ (List.mem_cons_self _ _)
    have hvn := hVN _ (List.mem_cons_self _ _)
    cases ty
    case SIMPLE =>
      have hAhad : A.map Prod.snd = (hadList rest).map (fun e => e.1) := by
        rw [show hadList (((s, t), .SIMPLE) :: rest) = hadList rest from by
          simp [hadList, List.filter]] at hA
        exact hA
      have hm1 : memA st.hadamards ((lookAssoc names s).getD "") = false := by
        refine memA_eq_false_of_not_mem ?_
        rw [hH, List.map_append, stubKeys, List.mem_append]
        push_neg
        exact ⟨hvn.1, hvn.2.1⟩
      have hm2 : memA st.hadamards ((lookAssoc names t).getD "") = false := by
        refine memA_eq_false_of_not_mem ?_
        rw [hH, List.map_append, stubKeys, List.mem_append]
        push_neg
        exact ⟨hvn.2.2.1, hvn.2.2.2⟩
      have hetab := hET _ (List.mem_cons_self _ _) rfl
      have hstep := processEdge_simple_entry st _ _ (ψ s) (ψ t)
        (by rw [hstN]; exact hs) (by rw [hstN]; exact ht) hm1 hm2 hetab
      have hkey : pairKey (ψ s) (ψ t)
          ∉ ((rest.filter (fun e => decide (e.2 = .SIMPLE))).map
              (fun e => pairKey (ψ e.1.1) (ψ e.1.2))) := by
        rw [show (((s, t), EdgeType.SIMPLE) :: rest).filter
              (fun e => decide (e.2 = .SIMPLE))
            = ((s, t), EdgeType.SIMPLE) :: rest.filter
                (fun e => decide (e.2 = .SIMPLE)) from by
          simp [List.filter]] at hSN
        simp only [List.map_cons, List.nodup_cons] at hSN
        exact hSN.1
      have hET' : ∀ e ∈ rest, e.2 = .SIMPLE →
          lookAssoc (st.etab ++ [(pairKey (ψ s) (ψ t), ((1 : Nat), (0 : Nat)))])
            (pairKey (ψ e.1.1) (ψ e.1.2)) = none := by
        intro e he hty
        rw [lookAssoc_append_none _ _ _ (hET e (List.mem_cons_of_mem _ he) hty)]
        have hne : pairKey (ψ s) (ψ t) ≠ pairKey (ψ e.1.1) (ψ e.1.2) := by
          intro hEq
          refine hkey ?_
          rw [hEq]
          refine List.mem_map_of_mem _ ?_
          rw [List.mem_filter]
          exact ⟨he, by simp [hty]⟩
        simp [lookAssoc, hne]
      have hSN' : ((rest.filter (fun e => decide (e.2 = .SIMPLE))).map
          (fun e => pairKey (ψ e.1.1) (ψ e.1.2))).Nodup := by
        rw [show (((s, t), EdgeType.SIMPLE) :: rest).filter
              (fun e => decide (e.2 = .SIMPLE))
            = ((s, t), EdgeType.SIMPLE) :: rest.filter
                (fun e => decide (e.2 = .SIMPLE)) from by
          simp [List.filter]] at hSN
        simp only [List.map_cons, List.nodup_cons] at hSN
        exact hSN.2
      have hih := ih A done
        ⟨st.g, st.names, st.hadamards,
          st.etab ++ [(pairKey (ψ s) (ψ t), ((1 : Nat), (0 : Nat)))]⟩
        hstN hH hAhad hAnd hAdone
        (fun e he => hN e (List.mem_cons_of_mem _ he))
        (fun e he => hVN e (List.mem_cons_of_mem _ he))
        hET' hSN'
      simp only [edgeVals, processEdges, bind, Except.bind, hstep]
      rw [hih]
      rw [show wioEdges ψ (((s, t), EdgeType.SIMPLE) :: rest) = wioEdges ψ rest from by
        simp [wioEdges, List.filter]]
      rw [show simpleTab ψ (((s, t), EdgeType.SIMPLE) :: rest)
          = (pairKey (ψ s) (ψ t), ((1 : Nat), (0 : Nat))) :: simpleTab ψ rest from by
        simp [simpleTab, List.filter]]
      simp [List.append_assoc]
    case W_IO_EDGE =>
      have hAhad : A.map Prod.snd = (hadList rest).map (fun e => e.1) := by
        rw [show hadList (((s, t), .W_IO_EDGE) :: rest) = hadList rest from by
          simp [hadList, List.filter]] at hA
        exact hA
      have hm1 : memA st.hadamards ((lookAssoc names s).getD "") = false := by
        refine memA_eq_false_of_not_mem ?_
        rw [hH, List.map_append, stubKeys, List.mem_append]
        push_neg
        exact ⟨hvn.1, hvn.2.1⟩
      have hm2 : memA st.hadamards ((lookAssoc names t).getD "") = false := by
        refine memA_eq_false_of_not_mem ?_
        rw [hH, List.map_append, stubKeys, List.mem_append]
        push_neg
        exact ⟨hvn.2.2.1, hvn.2.2.2⟩
      have hstep := processEdge_wio_entry st _ _ (ψ s) (ψ t)
        (by rw [hstN]; exact hs) (by rw [hstN]; exact ht) hm1 hm2
      have hih := ih A done
        ⟨{ st.g with edgeList := st.g.edgeList ++ [(pairKey (ψ s) (ψ t), .W_IO_EDGE)] },
          st.names, st.hadamards, st.etab⟩
        hstN hH hAhad hAnd hAdone
        (fun e he => hN e (List.mem_cons_of_mem _ he))
        (fun e he => hVN e (List.mem_cons_of_mem _ he))
        (fun e he hty => hET e (List.mem_cons_of_mem _ he) hty)
        (by
          rw [show (((s, t), EdgeType.W_IO_EDGE) :: rest).filter
                (fun e => decide (e.2 = .SIMPLE))
              = rest.filter (fun e => decide (e.2 = .SIMPLE)) from by
            simp [List.filter]] at hSN
          exact hSN)
      simp only [edgeVals, processEdges, bind, Except.bind, hstep]
      rw [hih]
      rw [show wioEdges ψ (((s, t), EdgeType.W_IO_EDGE) :: rest)
          = (pairKey (ψ s) (ψ t), EdgeType.W_IO_EDGE) :: wioEdges ψ rest from by
        simp [wioEdges, List.filter]]
      rw [show simpleTab ψ (((s, t), EdgeType.W_IO_EDGE) :: rest)
          = simpleTab ψ rest from by
        simp [simpleTab, List.filter]]
      simp [List.append_assoc]
    case HADAMARD =>
      rw [show hadList (((s, t), .HADAMARD) :: rest)
          = ((s, t), .HADAMARD) :: hadList rest from by
        simp [hadList, List.filter]] at hA
      cases A with
      | nil => simp at hA
      | cons q A' =>
        obtain ⟨nm, pr⟩ := q
        simp only [List.map_cons] at hA
        have hq2 : pr = (s, t) := by
          exact (List.cons.injEq _ _ _ _).mp hA |>.1
        have hA' : A'.map Prod.snd = (hadList rest).map (fun e => e.1) :=
          (List.cons.injEq _ _ _ _).mp hA |>.2
        subst hq2
        simp only [List.map_cons, List.nodup_cons] at hAnd
        have hHc : st.hadamards
            = done ++ (nm, ([] : List Nat))
              :: A'.map (fun q => (q.1, ([] : List Nat))) := by
          rw [hH]
          simp
        have hnmdone : nm ∉ done.map Prod.fst :=
          hAdone nm (List.mem_map_of_mem Prod.fst (List.mem_cons_self _ _))
        have hnmA' : nm ∉ (A'.map (fun q => (q.1, ([] : List Nat)))).map Prod.fst := by
          rw [stubKeys]
          exact hAnd.1
        have hm1 : memA st.hadamards ((lookAssoc names s).getD "") = false := by
          refine memA_eq_false_of_not_mem ?_
          rw [hH, List.map_append, stubKeys, List.mem_append]
          push_neg
          exact ⟨hvn.1, hvn.2.1⟩
        have hmA : memA st.hadamards nm = true := by
          rw [hHc]
          exact memA_middle _ _ _ _ hnmdone
        have hstep1 := processEdge_tostub_entry st _ nm (ψ s)
          (by rw [hstN]; exact hs) hm1 hmA
        have happ1 : appAssoc st.hadamards nm (ψ s)
            = done ++ (nm, [ψ s]) :: A'.map (fun q => (q.1, ([] : List Nat))) := by
          rw [hHc, appAssoc_middle _ _ _ _ _ hnmdone hnmA']
          rfl
        have hm1t : memA (done ++ (nm, [ψ s])
              :: A'.map (fun q => (q.1, ([] : List Nat))))
            ((lookAssoc names t).getD "") = false := by
          refine memA_eq_false_of_not_mem ?_
          rw [List.map_append, List.map_cons]
          rw [List.mem_append, List.mem_cons]
          push_neg
          refine ⟨hvn.2.2.1, ?_, ?_⟩
          · intro hEq
            exact hvn.2.2.2 (hEq ▸ List.mem_map_of_mem Prod.fst (List.mem_cons_self _ _))
          · rw [stubKeys]
            intro hmem
            exact hvn.2.2.2 (List.mem_cons_of_mem _ hmem)
        have hmAt : memA (done ++ (nm, [ψ s])
              :: A'.map (fun q => (q.1, ([] : List Nat)))) nm = true :=
          memA_middle _ _ _ _ hnmdone
        have hstep2 := processEdge_tostub_entry
          ⟨st.g, st.names,
            done ++ (nm, [ψ s]) :: A'.map (fun q => (q.1, ([] : List Nat))),
            st.etab⟩
          _ nm (ψ t) (by rw [hstN]; exact ht) hm1t hmAt
        have happ2 : appAssoc (done ++ (nm, [ψ s])
              :: A'.map (fun q => (q.1, ([] : List Nat)))) nm (ψ t)
            = done ++ (nm, [ψ s, ψ t])
              :: A'.map (fun q => (q.1, ([] : List Nat))) := by
          rw [appAssoc_middle _ _ _ _ _ hnmdone hnmA']
          rfl
        have hih := ih A' (done ++ [(nm, [ψ s, ψ t])])
          ⟨st.g, st.names,
            done ++ (nm, [ψ s, ψ t]) :: A'.map (fun q => (q.1, ([] : List Nat))),
            st.etab⟩
          hstN
          (by rw [List.append_cons])
          hA'
          hAnd.2
          (by
            intro nm' hnm'
            rw [List.map_append, List.mem_append]
            push_neg
            refine ⟨fun hmem => hAdone nm' (List.mem_cons_of_mem _ hnm') hmem, ?_⟩
            rw [List.mem_map]
            rintro ⟨q', hq', hq'eq⟩
            rw [List.mem_singleton] at hq'
            subst hq'
            have hEq : nm = nm' := hq'eq
            exact hAnd.1 (hEq ▸ hnm')
          )
          (fun e he => hN e (List.mem_cons_of_mem _ he))
          (by
            intro e he
            have hv := hVN e (List.mem_cons_of_mem _ he)
            have hv1A : ((lookAssoc names e.1.1).getD "") ∉ A'.map Prod.fst :=
              fun hmem => hv.2.1 (List.mem_cons_of_mem _ hmem)
            have hv2A : ((lookAssoc names e.1.2).getD "") ∉ A'.map Prod.fst :=
              fun hmem => hv.2.2.2 (List.mem_cons_of_mem _ hmem)
            have hv1nm : ((lookAssoc names e.1.1).getD "") ≠ nm :=
              fun hEq => hv.2.1 (hEq ▸ List.mem_cons_self _ _)
            have hv2nm : ((lookAssoc names e.1.2).getD "") ≠ nm :=
              fun hEq => hv.2.2.2 (hEq ▸ List.mem_cons_self _ _)
            refine ⟨?_, hv1A, ?_, hv2A⟩
            · rw [List.map_append, List.mem_append]
              push_neg
              refine ⟨hv.1, ?_⟩
              rw [List.mem_map]
              rintro ⟨q', hq', hq'eq⟩
              rw [List.mem_singleton] at hq'
              subst hq'
              exact hv1nm hq'eq.symm
            · rw [List.map_append, List.mem_append]
              push_neg
              refine ⟨hv.2.2.1, ?_⟩
              rw [List.mem_map]
              rintro ⟨q', hq', hq'eq⟩
              rw [List.mem_singleton] at hq'
              subst hq'
              exact hv2nm hq'eq.symm
          )
          (fun e he hty => hET e (List.mem_cons_of_mem _ he) hty)
          (by
            rw [show (((s, t), EdgeType.HADAMARD) :: rest).filter
                  (fun e => decide (e.2 = .SIMPLE))
                = rest.filter (fun e => decide (e.2 = .SIMPLE)) from by
              simp [List.filter]] at hSN
            exact hSN)
        simp only [List.map_cons, edgeVals, List.headD_cons, List.tail_cons,
          processEdges, bind, Except.bind, hstep1]
        rw [show ({ st with hadamards := appAssoc st.hadamards nm (ψ s) } : ESt)
            = ⟨st.g, st.names,
                done ++ (nm, [ψ s]) :: A'.map (fun q => (q.1, ([] : List Nat))),
                st.etab⟩ from by rw [← happ1]]
        simp only [hstep2]
        rw [show ((⟨st.g, st.names,
              appAssoc (done ++ (nm, [ψ s])
                :: A'.map (fun q => (q.1, ([] : List Nat)))) nm (ψ t),
              st.etab⟩ : ESt))
            = ⟨st.g, st.names,
                done ++ (nm, [ψ s, ψ t]) :: A'.map (fun q => (q.1, ([] : List Nat))),
                st.etab⟩ from by rw [happ2]]
        rw [hih]
        rw [show wioEdges ψ (((s, t), EdgeType.HADAMARD) :: rest)
            = wioEdges ψ rest from by simp [wioEdges, List.filter]]
        rw [show simpleTab ψ (((s, t), EdgeType.HADAMARD) :: rest)
            = simpleTab ψ rest from by simp [simpleTab, List.filter]]
        rw [show stubFill ψ ((nm, (s, t)) :: A')
            = (nm, [ψ s, ψ t]) :: stubFill ψ A' from rfl]
        simp [List.append_assoc]

theorem checkHadamards_filled (ψ : Nat → Nat) :
    ∀ (A : List (String × (Nat × Nat))) (etab : List ((Nat × Nat) × (Nat × Nat))),
    (∀ q ∈ A, lookAssoc etab (pairKey (ψ q.2.1) (ψ q.2.2)) = none) →
    ((A.map (fun q => pairKey (ψ q.2.1) (ψ q.2.2))).Nodup) →
    checkHadamards (stubFill ψ A) etab = .ok (etab ++ hadTab ψ A) := by
  intro A
  induction A with
  | nil => intro etab _ _; simp [stubFill, hadTab, checkHadamards]
  | cons q A' ih =>
    obtain ⟨nm, s, t⟩ := q
    intro etab hfresh hnd
    simp only [List.map_cons, List.nodup_cons] at hnd
    have hq0 := hfresh _ (List.mem_cons_self _ _)
    rw [show stubFill ψ ((nm, (s, t)) :: A')
        = (nm, [ψ s, ψ t]) :: stubFill ψ A' from rfl]
    simp only [checkHadamards, hq0, Option.getD_none]
    rw [updAssoc_absent _ _ _ hq0]
    rw [ih (etab ++ [(pairKey (ψ s) (ψ t), ((0 : Nat), 0 + 1))])
      (by
        intro q' hq'
        rw [lookAssoc_append_none _ _ _ (hfresh _ (List.mem_cons_of_mem _ hq'))]
        have hne : pairKey (ψ s) (ψ t) ≠ pairKey (ψ q'.2.1) (ψ q'.2.2) := by
          intro hEq
          exact hnd.1 (hEq ▸ List.mem_map_of_mem _ hq')
        simp [lookAssoc, hne])
      hnd.2]
    rw [show hadTab ψ ((nm, (s, t)) :: A')
        = (pairKey (ψ s) (ψ t), ((0 : Nat), (1 : Nat))) :: hadTab ψ A' from rfl]
    simp [List.append_assoc]

theorem add_edge_table_units :
    ∀ (etab : List ((Nat × Nat) × (Nat × Nat))) (g : Graph),
    (∀ p ∈ etab, p.2 = ((1 : Nat), (0 : Nat)) ∨ p.2 = ((0 : Nat), (1 : Nat))) →
    g.add_edge_table etab = { g with edgeList := g.edgeList ++ tabEdges etab } := by
  intro etab
  induction etab with
  | nil => intro g _; simp [Graph.add_edge_table, tabEdges]
  | cons p rest ih =>
    obtain ⟨key, cnt⟩ := p
    intro g h
    have hp := h _ (List.mem_cons_self _ _)
    simp only at hp
    rcases hp with hp | hp <;> subst hp
    · rw [show (Graph.add_edge_table g ((key, ((1 : Nat), (0 : Nat))) :: rest) : Graph)
          = Graph.add_edge_table
              { g with edgeList := g.edgeList
                ++ List.replicate 1 (key, EdgeType.SIMPLE)
                ++ List.replicate 0 (key, EdgeType.HADAMARD) } rest from rfl]
      rw [ih _ (fun p hp => h p (List.mem_cons_of_mem _ hp))]
      simp [tabEdges, List.append_assoc]
    · rw [show (Graph.add_edge_table g ((key, ((0 : Nat), (1 : Nat))) :: rest) : Graph)
          = Graph.add_edge_table
              { g with edgeList := g.edgeList
                ++ List.replicate 0 (key, EdgeType.SIMPLE)
                ++ List.replicate 1 (key, EdgeType.HADAMARD) } rest from rfl]
      rw [ih _ (fun p hp => h p (List.mem_cons_of_mem _ hp))]
      simp [tabEdges, List.append_assoc]

theorem zipWith_mk_snd {α γ : Type} (h : α → γ) :
    ∀ (A : List String) (B : List α),
    (List.zipWith (fun nm p => (nm, h p)) A B).map Prod.snd = (B.take A.length).map h := by
  intro A
  induction A with
  | nil => intro B; simp
  | cons a A' ih =>
    intro B
    cases B with
    | nil => simp
    | cons b B' => simp [ih B']

theorem nodePairs_snd (g : Graph) :
    (nodePairs g).map Prod.snd = (nodeList g.verts).map Prod.snd := by
  rw [nodePairs, zipWith_mk_snd Prod.snd (vPool g) (nodeList g.verts)]
  rw [List.take_of_length_le (nodeList_sub_pool g)]

theorem wirePairs_snd (g : Graph) :
    (wirePairs g).map Prod.snd = wireList g.verts := by
  have h := zipWith_mk_snd (fun p : Nat × GVert => p) (bPool g) (wireList g.verts)
  rw [wirePairs]
  rw [show (List.zipWith (fun nm p => (nm, p)) (bPool g) (wireList g.verts))
      = List.zipWith (fun nm (p : Nat × GVert) => (nm, (fun p : Nat × GVert => p) p))
        (bPool g) (wireList g.verts) from rfl]
  rw [h, List.take_of_length_le (wireList_sub_pool g)]
  simp

theorem auxPairs_snd (g : Graph) :
    (auxPairs g).map Prod.snd = (hadList g.edgeList).map (fun e => e.1) := by
  rw [auxPairs, zipWith_mk_snd (fun e : (Nat × Nat) × EdgeType => e.1)
    ((vPool g).drop (nonBoundCount g.verts)) (hadList g.edgeList)]
  rw [List.take_of_length_le (hadList_sub_pool g)]

theorem nodePairs_get (g : Graph) (i : Nat) (hi : i < (nodePairs g).length) :
    (nodePairs g).get ⟨i, hi⟩
      = ((vPool g).get ⟨i, by
            have := hi; rw [nodePairs_length] at this
            exact Nat.lt_of_lt_of_le this (nodeList_sub_pool g)⟩,
         ((nodeList g.verts).get ⟨i, by rw [← nodePairs_length g]; exact hi⟩).2) := by
  simp [nodePairs, List.get_eq_getElem, List.getElem_zipWith]

theorem wirePairs_get (g : Graph) (i : Nat) (hi : i < (wirePairs g).length) :
    (wirePairs g).get ⟨i, hi⟩
      = ((bPool g).get ⟨i, by
            have := hi; rw [wirePairs_length] at this
            exact Nat.lt_of_lt_of_le this (wireList_sub_pool g)⟩,
         (wireList g.verts).get ⟨i, by rw [← wirePairs_length g]; exact hi⟩) := by
  simp [wirePairs, List.get_eq_getElem, List.getElem_zipWith]

theorem nodePairs_mem (g : Graph) :
    ∀ q ∈ nodePairs g, ∃ p ∈ g.verts, q.2 = p.2 ∧ ¬ p.2.ty = .BOUNDARY := by
  intro q hq
  obtain ⟨⟨i, hi⟩, hget⟩ := List.mem_iff_get.mp hq
  have hkn : i < (nodeList g.verts).length := by
    rw [← nodePairs_length g]; exact hi
  have hmem : (nodeList g.verts).get ⟨i, hkn⟩ ∈ nodeList g.verts :=
    List.get_mem _ _ _
  have hfil := List.mem_filter.mp hmem
  refine ⟨(nodeList g.verts).get ⟨i, hkn⟩, hfil.1, ?_, by simpa using hfil.2⟩
  rw [← hget, nodePairs_get g i hi]

theorem wirePairs_mem (g : Graph) :
    ∀ q ∈ wirePairs g, q.2 ∈ g.verts ∧ q.2.2.ty = .BOUNDARY := by
  intro q hq
  obtain ⟨⟨i, hi⟩, hget⟩ := List.mem_iff_get.mp hq
  have hkn : i < (wireList g.verts).length := by
    rw [← wirePairs_length g]; exact hi
  have hmem : (wireList g.verts).get ⟨i, hkn⟩ ∈ wireList g.verts :=
    List.get_mem _ _ _
  have hfil := List.mem_filter.mp hmem
  rw [← hget, wirePairs_get g i hi]
  exact ⟨hfil.1, by simpa using hfil.2⟩

theorem auxPairs_mem (g : Graph) :
    ∀ q ∈ auxPairs g, ∃ e ∈ g.edgeList, q.2 = e.1 ∧ e.2 = .HADAMARD := by
  intro q hq
  rw [auxPairs] at hq
  obtain ⟨⟨i, hi⟩, hget⟩ := List.mem_iff_get.mp hq
  have hkn : i < (hadList g.edgeList).length := by
    rw [List.length_zipWith] at hi
    exact Nat.lt_of_lt_of_le hi (Nat.min_le_right _ _)
  have hmem : (hadList g.edgeList).get ⟨i, hkn⟩ ∈ hadList g.edgeList :=
    List.get_mem _ _ _
  have hfil := List.mem_filter.mp hmem
  refine ⟨(hadList g.edgeList).get ⟨i, hkn⟩, hfil.1, ?_, by simpa using hfil.2⟩
  rw [← hget]
  simp [List.get_eq_getElem, List.getElem_zipWith]

theorem decNodeVerts_length (L : List (String × GVert)) :
    ∀ F, (decNodeVerts F L).length = L.length := by
  induction L with
  | nil => intro F; rfl
  | cons q t ih => intro F; simp [decNodeVerts, ih (F + 1)]

theorem decNodeVerts_get (L : List (String × GVert)) :
    ∀ F i (hi : i < (decNodeVerts F L).length)
      (hi' : i < L.length),
    (decNodeVerts F L).get ⟨i, hi⟩
      = (F + i, decNodeRec (L.get ⟨i, hi'⟩).1 (L.get ⟨i, hi'⟩).2) := by
  induction L with
  | nil => intro F i hi hi'; simp at hi'
  | cons q t ih =>
    intro F i hi hi'
    cases i with
    | zero => simp [decNodeVerts]
    | succ j =>
      have hj : j < (decNodeVerts (F + 1) t).length := by
        simp only [decNodeVerts, List.length_cons] at hi
        omega
      have hj' : j < t.length := by simpa using hi'
      rw [show (decNodeVerts F (q :: t)).get ⟨j + 1, hi⟩
          = (decNodeVerts (F + 1) t).get ⟨j, hj⟩ from rfl]
      rw [ih (F + 1) j hj hj']
      rw [show ((q :: t).get ⟨j + 1, hi'⟩) = t.get ⟨j, hj'⟩ from rfl]
      rw [show F + 1 + j = F + (j + 1) from by omega]

theorem decNodeVerts_ids (L : List (String × GVert)) :
    ∀ F, ∀ p ∈ decNodeVerts F L, p.1 < F + L.length := by
  induction L with
  | nil => intro F p hp; simp [decNodeVerts] at hp
  | cons q t ih =>
    intro F p hp
    rw [show decNodeVerts F (q :: t)
        = (F, decNodeRec q.1 q.2) :: decNodeVerts (F + 1) t from rfl] at hp
    rcases List.mem_cons.mp hp with h | h
    · subst h
      show F < F + (q :: t).length
      simp only [List.length_cons]
      omega
    · have := ih (F + 1) p h
      simp only [List.length_cons]
      omega

theorem decWireVerts_length (g : Graph) (W : List (String × (Nat × GVert))) :
    ∀ F, (decWireVerts g F W).length = W.length := by
  induction W with
  | nil => intro F; rfl
  | cons q t ih => intro F; simp [decWireVerts, ih (F + 1)]

theorem decWireVerts_get (g : Graph) (W : List (String × (Nat × GVert))) :
    ∀ F i (hi : i < (decWireVerts g F W).length)
      (hi' : i < W.length),
    (decWireVerts g F W).get ⟨i, hi⟩
      = (F + i, decWireRec (W.get ⟨i, hi'⟩).1 g
          (W.get ⟨i, hi'⟩).2.1 (W.get ⟨i, hi'⟩).2.2) := by
  induction W with
  | nil => intro F i hi hi'; simp at hi'
  | cons q t ih =>
    intro F i hi hi'
    cases i with
    | zero => simp [decWireVerts]
    | succ j =>
      have hj : j < (decWireVerts g (F + 1) t).length := by
        simp only [decWireVerts, List.length_cons] at hi
        omega
      have hj' : j < t.length := by simpa using hi'
      rw [show (decWireVerts g F (q :: t)).get ⟨j + 1, hi⟩
          = (decWireVerts g (F + 1) t).get ⟨j, hj⟩ from rfl]
      rw [ih (F + 1) j hj hj']
      rw [show ((q :: t).get ⟨j + 1, hi'⟩) = t.get ⟨j, hj'⟩ from rfl]
      rw [show F + 1 + j = F + (j + 1) from by omega]

theorem edgeVals_take (g : Graph) (names : List (Nat × String)) :
    ∀ (el : List ((Nat × Nat) × EdgeType)) (fnv : List String),
    edgeVals g names el (fnv.take (hadCount el)) = edgeVals g names el fnv := by
  intro el
  induction el with
  | nil => intro fnv; rfl
  | cons e rest ih =>
    obtain ⟨⟨s, t⟩, ty⟩ := e
    intro fnv
    cases ty
    case SIMPLE =>
      rw [show hadCount (((s, t), .SIMPLE) :: rest) = hadCount rest from by
        simp [hadCount, List.filter]]
      simp only [edgeVals]
      rw [ih fnv]
    case W_IO_EDGE =>
      rw [show hadCount (((s, t), .W_IO_EDGE) :: rest) = hadCount rest from by
        simp [hadCount, List.filter]]
      simp only [edgeVals]
      rw [ih fnv]
    case HADAMARD =>
      rw [show hadCount (((s, t), .HADAMARD) :: rest) = hadCount rest + 1 from by
        simp [hadCount, List.filter]]
      cases fnv with
      | nil =>
        simp only [List.take_nil, edgeVals, List.headD_nil, List.tail_nil]
      | cons nm fnv' =>
        rw [show List.take (hadCount rest + 1) (nm :: fnv')
            = nm :: List.take (hadCount rest) fnv' from rfl]
        simp only [edgeVals, List.headD_cons, List.tail_cons]
        rw [ih fnv']

theorem map_nodup_inj {α β : Type} {l : List α} {f : α → β}
    (h : (l.map f).Nodup) : ∀ x ∈ l, ∀ y ∈ l, f x = f y → x = y := by
  induction l with
  | nil => intro x hx; simp at hx
  | cons a t ih =>
    simp only [List.map_cons, List.nodup_cons] at h
    intro x hx y hy hf
    rcases List.mem_cons.mp hx with hxa | hxt <;>
      rcases List.mem_cons.mp hy with hya | hyt
    · rw [hxa, hya]
    · refine absurd ?_ h.1
      rw [hxa] at hf
      rw [hf]
      exact List.mem_map_of_mem f hyt
    · refine absurd ?_ h.1
      rw [hya] at hf
      rw [← hf]
      exact List.mem_map_of_mem f hxt
    · exact ih h.2 x hxt y hyt hf

theorem nodup_map_transport {α β γ : Type} {l : List α} {f : α → β} {h : α → γ}
    (hf : (l.map f).Nodup)
    (hinj : ∀ x ∈ l, ∀ y ∈ l, h x = h y → f x = f y) : (l.map h).Nodup := by
  induction l with
  | nil => simp
  | cons a t ih =>
    simp only [List.map_cons, List.nodup_cons] at hf ⊢
    refine ⟨?_, ih hf.2 (fun x hx y hy => hinj x (List.mem_cons_of_mem _ hx)
      y (List.mem_cons_of_mem _ hy))⟩
    intro hmem
    obtain ⟨x, hx, hxa⟩ := List.mem_map.mp hmem
    exact hf.1 ((hinj x (List.mem_cons_of_mem _ hx) a (List.mem_cons_self _ _) hxa)
      ▸ List.mem_map_of_mem f hx)

theorem encV_node_section (g : Graph) :
    (encV g).1 = (nodePairs g).map (fun q => (q.1, nodeEntry q.2)) := by
  rw [encV, encVertsSpec_node_zip g g.verts (vPool g) (bPool g)
    (by rw [nonBoundCount_eq_nodeList]; exact nodeList_sub_pool g)]
  rfl

theorem encV_wire_section (g : Graph) :
    (encV g).2.1 = (wirePairs g).map (fun q => (q.1, wireEntry g q.2.1 q.2.2)) := by
  rw [encV, encVertsSpec_wire_zip g g.verts (vPool g) (bPool g)
    (by rw [boundCount_eq_wireList]; exact wireList_sub_pool g)]
  rfl

theorem encE_aux_section (g : Graph) :
    (encE g).1 = (auxPairs g).map (fun q => (q.1, auxEntry g q.2.1 q.2.2)) := by
  rw [encE, encEdgesSpec_aux_zip g (encV g).2.2 g.edgeList
    ((vPool g).drop (nonBoundCount g.verts)) 0
    (by rw [hadCount_eq_hadList]; exact hadList_sub_pool g)]
  rfl

theorem encE_edge_vals (g : Graph) :
    (encE g).2.map Prod.snd
      = edgeVals g (encV g).2.2 g.edgeList ((auxPairs g).map Prod.fst) := by
  rw [encE, encEdgesSpec_vals]
  rw [auxPairs_keys, ← hadCount_eq_hadList]
  exact (edgeVals_take g (encV g).2.2 g.edgeList
    ((vPool g).drop (nonBoundCount g.verts))).symm

theorem nodePairs_keys_nodup (g : Graph) : ((nodePairs g).map Prod.fst).Nodup := by
  rw [nodePairs_keys]
  exact List.Sublist.nodup (List.take_sublist _ _)
    (by rw [vPool]; exact freenames_nodup _ _)

theorem wirePairs_keys_nodup (g : Graph) : ((wirePairs g).map Prod.fst).Nodup := by
  rw [wirePairs_keys]
  exact List.Sublist.nodup (List.take_sublist _ _)
    (by rw [bPool]; exact freenames_nodup _ _)

theorem auxPairs_keys_nodup (g : Graph) : ((auxPairs g).map Prod.fst).Nodup := by
  rw [auxPairs_keys]
  exact List.Sublist.nodup ((List.take_sublist _ _).trans (List.drop_sublist _ _))
    (by rw [vPool]; exact freenames_nodup _ _)

theorem vertSig_decNodeRec (nm : String) (w : GVert) :
    vertSig (decNodeRec nm w) = vertSig w := rfl

theorem vertSig_decWireRec (nm : String) (g : Graph) (v : Nat) (w : GVert) :
    vertSig (decWireRec nm g v w) = (.BOUNDARY, 0, false) := rfl

theorem nodeVerts_sig (g : Graph) (hids : (g.verts.map Prod.fst).Nodup) :
    (decNodeVerts 0 (nodePairs g)).map (fun p => (p.1, vertSig p.2))
      = (nodeList g.verts).map (fun p => (phiOf g p.1, vertSig p.2)) := by
  refine List.ext_get ?_ ?_
  · simp [decNodeVerts_length, nodePairs_length]
  · intro i h1 h2
    have hiL : i < (nodeList g.verts).length := by simpa using h2
    have hiN : i < (nodePairs g).length := by rw [nodePairs_length]; exact hiL
    have hiD : i < (decNodeVerts 0 (nodePairs g)).length := by
      rw [decNodeVerts_length]; exact hiN
    rw [show ((decNodeVerts 0 (nodePairs g)).map
          (fun p => (p.1, vertSig p.2))).get ⟨i, h1⟩
        = ((fun p : Nat × GVert => (p.1, vertSig p.2))
            ((decNodeVerts 0 (nodePairs g)).get ⟨i, hiD⟩)) from by
      simp [List.get_eq_getElem, List.getElem_map]]
    rw [show ((nodeList g.verts).map
          (fun p => (phiOf g p.1, vertSig p.2))).get ⟨i, h2⟩
        = ((fun p : Nat × GVert => (phiOf g p.1, vertSig p.2))
            ((nodeList g.verts).get ⟨i, hiL⟩)) from by
      simp [List.get_eq_getElem, List.getElem_map]]
    rw [decNodeVerts_get (nodePairs g) 0 i hiD hiN, nodePairs_get g i hiN]
    simp only [vertSig, decNodeRec, Nat.zero_add, (phi_node_get g hids i hiL).1]

theorem wireVerts_sig (g : Graph) (hids : (g.verts.map Prod.fst).Nodup)
    (hbnd : ∀ p ∈ g.verts, p.2.ty = .BOUNDARY
      → p.2.phase = 0 ∧ p.2.ground = false) :
    (decWireVerts g (nodePairs g).length (wirePairs g)).map
        (fun p => (p.1, vertSig p.2))
      = (wireList g.verts).map (fun p => (phiOf g p.1, vertSig p.2)) := by
  refine List.ext_get ?_ ?_
  · simp [decWireVerts_length, wirePairs_length]
  · intro j h1 h2
    have hjL : j < (wireList g.verts).length := by simpa using h2
    have hjW : j < (wirePairs g).length := by rw [wirePairs_length]; exact hjL
    have hjD : j < (decWireVerts g (nodePairs g).length (wirePairs g)).length := by
      rw [decWireVerts_length]; exact hjW
    have hmem : (wireList g.verts).get ⟨j, hjL⟩ ∈ wireList g.verts :=
      List.get_mem _ _ _
    have hfil := List.mem_filter.mp hmem
    have hbt : ((wireList g.verts).get ⟨j, hjL⟩).2.ty = .BOUNDARY := by
      simpa using hfil.2
    have hpg := hbnd _ hfil.1 hbt
    rw [show ((decWireVerts g (nodePairs g).length (wirePairs g)).map
          (fun p => (p.1, vertSig p.2))).get ⟨j, h1⟩
        = ((fun p : Nat × GVert => (p.1, vertSig p.2))
            ((decWireVerts g (nodePairs g).length (wirePairs g)).get ⟨j, hjD⟩))
        from by simp [List.get_eq_getElem, List.getElem_map]]
    rw [show ((wireList g.verts).map
          (fun p => (phiOf g p.1, vertSig p.2))).get ⟨j, h2⟩
        = ((fun p : Nat × GVert => (phiOf g p.1, vertSig p.2))
            ((wireList g.verts).get ⟨j, hjL⟩)) from by
      simp [List.get_eq_getElem, List.getElem_map]]
    rw [decWireVerts_get g (wirePairs g) (nodePairs g).length j hjD hjW,
      wirePairs_get g j hjW]
    rw [show ((fun p : Nat × GVert => (phiOf g p.1, vertSig p.2))
          ((wireList g.verts).get ⟨j, hjL⟩))
        = (phiOf g (((wireList g.verts).get ⟨j, hjL⟩).1),
           vertSig (((wireList g.verts).get ⟨j, hjL⟩).2)) from rfl]
    rw [(phi_wire_get g hids j hjL).1]
    rw [show ((fun p : Nat × GVert => (p.1, vertSig p.2))
          (((nodePairs g).length + j, decWireRec
            (((bPool g).get ⟨j, Nat.lt_of_lt_of_le hjL (wireList_sub_pool g)⟩,
              (wireList g.verts).get ⟨j, hjL⟩) : String × (Nat × GVert)).1 g
            (((bPool g).get ⟨j, Nat.lt_of_lt_of_le hjL (wireList_sub_pool g)⟩,
              (wireList g.verts).get ⟨j, hjL⟩) : String × (Nat × GVert)).2.1
            (((bPool g).get ⟨j, Nat.lt_of_lt_of_le hjL (wireList_sub_pool g)⟩,
              (wireList g.verts).get ⟨j, hjL⟩) : String × (Nat × GVert)).2.2)))
        = ((nodePairs g).length + j,
           ((VertexType.BOUNDARY : VertexType), (0 : ℚ), false)) from rfl]
    rw [show vertSig (((wireList g.verts).get ⟨j, hjL⟩).2)
        = (((wireList g.verts).get ⟨j, hjL⟩).2.ty,
           ((wireList g.verts).get ⟨j, hjL⟩).2.phase,
           ((wireList g.verts).get ⟨j, hjL⟩).2.ground) from rfl]
    rw [hbt, hpg.1, hpg.2, nodePairs_length]

theorem edges_partition (ψ : Nat → Nat) :
    ∀ el : List ((Nat × Nat) × EdgeType),
    List.Perm
      (wioEdges ψ el
        ++ ((el.filter (fun e => decide (e.2 = .SIMPLE))).map
              (fun e => (pairKey (ψ e.1.1) (ψ e.1.2), EdgeType.SIMPLE)))
        ++ (hadList el).map (fun e => (pairKey (ψ e.1.1) (ψ e.1.2), EdgeType.HADAMARD)))
      (el.map (fun e => (pairKey (ψ e.1.1) (ψ e.1.2), e.2))) := by
  intro el
  induction el with
  | nil => simp [wioEdges, hadList]
  | cons e rest ih =>
    obtain ⟨⟨s, t⟩, ty⟩ := e
    cases ty
    case SIMPLE =>
      rw [show wioEdges ψ (((s, t), EdgeType.SIMPLE) :: rest) = wioEdges ψ rest
        from by simp [wioEdges, List.filter]]
      rw [show hadList (((s, t), EdgeType.SIMPLE) :: rest) = hadList rest
        from by simp [hadList, List.filter]]
      rw [show ((((s, t), EdgeType.SIMPLE) :: rest).filter
            (fun e => decide (e.2 = .SIMPLE)))
          = ((s, t), EdgeType.SIMPLE) :: rest.filter (fun e => decide (e.2 = .SIMPLE))
        from by simp [List.filter]]
      simp only [List.map_cons]
      refine List.Perm.trans ?_ (List.Perm.cons _ ih)
      simp only [List.append_assoc, List.cons_append]
      exact List.perm_middle
    case W_IO_EDGE =>
      rw [show wioEdges ψ (((s, t), EdgeType.W_IO_EDGE) :: rest)
          = (pairKey (ψ s) (ψ t), EdgeType.W_IO_EDGE) :: wioEdges ψ rest
        from by simp [wioEdges, List.filter]]
      rw [show hadList (((s, t), EdgeType.W_IO_EDGE) :: rest) = hadList rest
        from by simp [hadList, List.filter]]
      rw [show ((((s, t), EdgeType.W_IO_EDGE) :: rest).filter
            (fun e => decide (e.2 = .SIMPLE)))
          = rest.filter (fun e => decide (e.2 = .SIMPLE))
        from by simp [List.filter]]
      simp only [List.map_cons, List.cons_append, List.append_assoc]
      exact List.Perm.cons _ (by simpa [List.append_assoc] using ih)
    case HADAMARD =>
      rw [show wioEdges ψ (((s, t), EdgeType.HADAMARD) :: rest) = wioEdges ψ rest
        from by simp [wioEdges, List.filter]]
      rw [show hadList (((s, t), EdgeType.HADAMARD) :: rest)
          = ((s, t), EdgeType.HADAMARD) :: hadList rest
        from by simp [hadList, List.filter]]
      rw [show ((((s, t), EdgeType.HADAMARD) :: rest).filter
            (fun e => decide (e.2 = .SIMPLE)))
          = rest.filter (fun e => decide (e.2 = .SIMPLE))
        from by simp [List.filter]]
      simp only [List.map_cons]
      refine List.Perm.trans ?_ (List.Perm.cons _ ih)
      simp only [List.append_assoc]
      refine List.Perm.trans (List.Perm.append_left _ List.perm_middle) ?_
      exact List.perm_middle

theorem decFlags_eq (sel : List Nat) :
    ∀ (W : List (String × (Nat × GVert))) (F : Nat) (φv : Nat → Nat),
    (∀ j (hj : j < W.length), φv ((W.get ⟨j, hj⟩).2.1) = F + j) →
    decFlags sel F W
      = ((W.map (fun q => q.2.1)).filter (fun v => sel.contains v)).map φv := by
  intro W
  induction W with
  | nil => intro F φv _; rfl
  | cons q W' ih =>
    intro F φv h
    have h0 := h 0 (by simp)
    rw [show ((q :: W').get ⟨0, by simp⟩) = q from rfl] at h0
    rw [show decFlags sel F (q :: W')
        = (if sel.contains q.2.1 then [F] else []) ++ decFlags sel (F + 1) W'
        from rfl]
    rw [ih (F + 1) φv (by
      intro j hj
      have hh := h (j + 1) (by simpa using hj)
      rw [show ((q :: W').get ⟨j + 1, by simpa using hj⟩) = W'.get ⟨j, hj⟩
        from rfl] at hh
      rw [hh]
      omega)]
    rw [List.map_cons]
    by_cases hc : sel.contains q.2.1
    · rw [show ((q.2.1 :: W'.map (fun q => q.2.1)).filter (fun v => sel.contains v))
          = q.2.1 :: (W'.map (fun q => q.2.1)).filter (fun v => sel.contains v)
        from by rw [List.filter_cons, if_pos hc]]
      rw [List.map_cons, h0, if_pos hc]
      simp
    · rw [show ((q.2.1 :: W'.map (fun q => q.2.1)).filter (fun v => sel.contains v))
          = (W'.map (fun q => q.2.1)).filter (fun v => sel.contains v)
        from by rw [List.filter_cons, if_neg hc]]
      rw [if_neg hc]
      simp

theorem pk_phi_inj (g : Graph) (hids : (g.verts.map Prod.fst).Nodup)
    (hep : ∀ e ∈ g.edgeList,
      e.1.1 ∈ g.verts.map Prod.fst ∧ e.1.2 ∈ g.verts.map Prod.fst) :
    ∀ e ∈ g.edgeList, ∀ e' ∈ g.edgeList,
    pairKey (phiOf g e.1.1) (phiOf g e.1.2)
      = pairKey (phiOf g e'.1.1) (phiOf g e'.1.2) →
    pairKey e.1.1 e.1.2 = pairKey e'.1.1 e'.1.2 := by
  intro e he e' he' hEq
  rcases (pairKey_eq_iff _ _ _ _).mp hEq with ⟨ha, hb⟩ | ⟨ha, hb⟩
  · exact (pairKey_eq_iff _ _ _ _).mpr (Or.inl
      ⟨phi_inj_on g hids _ (hep e he).1 _ (hep e' he').1 ha,
       phi_inj_on g hids _ (hep e he).2 _ (hep e' he').2 hb⟩)
  · exact (pairKey_eq_iff _ _ _ _).mpr (Or.inr
      ⟨phi_inj_on g hids _ (hep e he).1 _ (hep e' he').2 ha,
       phi_inj_on g hids _ (hep e he).2 _ (hep e' he').1 hb⟩)

theorem encName_mem_pool (g : Graph) (hids : (g.verts.map Prod.fst).Nodup) :
    ∀ p ∈ g.verts,
    ((lookAssoc (encV g).2.2 p.1).getD "")
        ∈ (vPool g).take (nodeList g.verts).length
    ∨ ((lookAssoc (encV g).2.2 p.1).getD "") ∈ bPool g := by
  intro p hp
  rcases mem_node_or_wire hp with hn | hw
  · obtain ⟨⟨k, hk⟩, hgk⟩ := List.mem_iff_get.mp hn
    rw [← hgk, encNames_node_get g hids k hk]
    left
    have hkt : k < ((vPool g).take (nodeList g.verts).length).length := by
      rw [List.length_take]
      exact lt_min hk (Nat.lt_of_lt_of_le hk (nodeList_sub_pool g))
    rw [show (some ((vPool g).get
          ⟨k, Nat.lt_of_lt_of_le hk (nodeList_sub_pool g)⟩)).getD ""
        = (vPool g).get ⟨k, Nat.lt_of_lt_of_le hk (nodeList_sub_pool g)⟩ from rfl]
    rw [show (vPool g).get ⟨k, Nat.lt_of_lt_of_le hk (nodeList_sub_pool g)⟩
        = ((vPool g).take (nodeList g.verts).length).get ⟨k, hkt⟩ from by
      simp [List.get_eq_getElem, List.getElem_take]]
    exact List.get_mem _ _ _
  · obtain ⟨⟨j, hj⟩, hgj⟩ := List.mem_iff_get.mp hw
    rw [← hgj, encNames_wire_get g hids j hj]
    right
    rw [show (some ((bPool g).get
          ⟨j, Nat.lt_of_lt_of_le hj (wireList_sub_pool g)⟩)).getD ""
        = (bPool g).get ⟨j, Nat.lt_of_lt_of_le hj (wireList_sub_pool g)⟩ from rfl]
    exact List.get_mem _ _ _

theorem encName_not_aux (g : Graph) (hids : (g.verts.map Prod.fst).Nodup) :
    ∀ p ∈ g.verts,
    ((lookAssoc (encV g).2.2 p.1).getD "") ∉ (auxPairs g).map Prod.fst := by
  intro p hp hmem
  rw [auxPairs_keys] at hmem
  have hmem' : ((lookAssoc (encV g).2.2 p.1).getD "")
      ∈ (vPool g).drop (nonBoundCount g.verts) :=
    (List.take_sublist _ _).subset hmem
  rcases encName_mem_pool g hids p hp with hL | hR
  · have hnd : ((vPool g).take (nonBoundCount g.verts)
        ++ (vPool g).drop (nonBoundCount g.verts)).Nodup := by
      rw [List.take_append_drop]
      have hh : (vPool g).Nodup := by
        rw [vPool]; exact freenames_nodup _ _
      exact hh
    rw [nonBoundCount_eq_nodeList] at hnd
    exact (List.nodup_append.mp hnd).2.2 hL hmem'
  · have hv : ((lookAssoc (encV g).2.2 p.1).getD "")
        ∈ freenames 'v' (g.verts.length + g.edgeList.length) :=
      (List.drop_sublist _ _).subset hmem'
    have hb : ((lookAssoc (encV g).2.2 p.1).getD "")
        ∈ freenames 'b' g.verts.length := hR
    exact freenames_disjoint (by decide) hv hb

theorem pairKey_norm (s t : Nat) :
    pairKey (pairKey s t).1 (pairKey s t).2 = pairKey s t := by
  simp only [pairKey]
  by_cases h : s < t
  · simp [h]
  · simp only [if_neg h]
    by_cases h2 : t < s
    · simp [h2]
    · have hst : s = t := by omega
      subst hst
      simp

theorem json_decode_encoded (g : Graph)
    (hids : (g.verts.map Prod.fst).Nodup)
    (hep : ∀ e ∈ g.edgeList,
      e.1.1 ∈ g.verts.map Prod.fst ∧ e.1.2 ∈ g.verts.map Prod.fst)
    (hph : ∀ p ∈ g.verts, -1 ≤ p.2.phase.num)
    (hpk : (g.edgeList.map (fun e => pairKey e.1.1 e.1.2)).Nodup) :
    json_to_graph (.obj
      [("wire_vertices", .obj (encV g).2.1),
       ("node_vertices", .obj ((encV g).1 ++ (encE g).1)),
       ("undir_edges", .obj (encE g).2),
       ("scalar", Scalar.to_json g.scalar)])
    = .ok (⟨decNodeVerts 0 (nodePairs g)
          ++ decWireVerts g (nodePairs g).length (wirePairs g),
        wioEdges (phiOf g) g.edgeList
          ++ tabEdges (simpleTab (phiOf g) g.edgeList
              ++ hadTab (phiOf g) (auxPairs g)),
        decFlags g.inputs (nodePairs g).length (wirePairs g),
        decFlags g.outputs (nodePairs g).length (wirePairs g),
        g.scalar, (nodePairs g).length + (wirePairs g).length⟩ : Graph) := by
  -- the node-section pass
  have hVI0 : VertIds (⟨⟨[], [], [], [], .null, 0⟩, [], [], [], []⟩ : DecSt).g :=
    fun p hp => absurd hp (List.not_mem_nil p)
  have hty : ∀ q ∈ nodePairs g, q.2.ty ≠ .BOUNDARY := by
    intro q hq
    obtain ⟨p, _, hq2, hnb⟩ := nodePairs_mem g q hq
    rw [hq2]
    exact hnb
  have hphase : ∀ q ∈ nodePairs g,
      _quanto_value_to_phase (_phase_to_quanto_value q.2.phase) = .ok q.2.phase := by
    intro q hq
    obtain ⟨p, hp, hq2, _⟩ := nodePairs_mem g q hq
    rw [hq2]
    exact phase_roundtrip_aux _ (hph p hp)
  have h1 := processNodes_nodeEntries (nodePairs g)
    ⟨⟨[], [], [], [], .null, 0⟩, [], [], [], []⟩
    hVI0 hty hphase (fun q _ => rfl) (nodePairs_keys_nodup g)
  have h2 := processNodes_auxEntries g (auxPairs g)
    ⟨⟨decNodeVerts 0 (nodePairs g), [], [], [], .null, (nodePairs g).length⟩,
      decNames 0 ((nodePairs g).map Prod.fst), [], [], []⟩
    (fun q _ => rfl) (auxPairs_keys_nodup g)
  have hnodes : processNodes ((encV g).1 ++ (encE g).1)
      ⟨⟨[], [], [], [], .null, 0⟩, [], [], [], []⟩
      = .ok ⟨⟨decNodeVerts 0 (nodePairs g), [], [], [], .null,
            (nodePairs g).length⟩,
          decNames 0 ((nodePairs g).map Prod.fst),
          (auxPairs g).map (fun q => (q.1, ([] : List Nat))), [], []⟩ := by
    rw [encV_node_section, encE_aux_section, processNodes_append, h1]
    simp only [List.nil_append, Nat.zero_add, Except.bind]
    rw [h2]
    simp only [List.nil_append]
  -- the wire-section pass
  have hVI1 : VertIds (⟨decNodeVerts 0 (nodePairs g), [], [], [], .null,
      (nodePairs g).length⟩ : Graph) := by
    intro p hp
    have := decNodeVerts_ids (nodePairs g) 0 p hp
    simpa using this
  have hwfresh : ∀ q ∈ wirePairs g,
      lookAssoc (decNames 0 ((nodePairs g).map Prod.fst)) q.1 = none := by
    intro q hq
    refine lookAssoc_eq_none_of_not_mem ?_
    rw [decNames_keys, nodePairs_keys]
    intro hmem
    have hv : q.1 ∈ freenames 'v' (g.verts.length + g.edgeList.length) :=
      (List.take_sublist _ _).subset hmem
    have hb : q.1 ∈ freenames 'b' g.verts.length := by
      have hq1 : q.1 ∈ (wirePairs g).map Prod.fst := List.mem_map_of_mem Prod.fst hq
      rw [wirePairs_keys] at hq1
      exact (List.take_sublist _ _).subset hq1
    exact freenames_disjoint (by decide) hv hb
  have h3 := processWires_wireEntries g (wirePairs g)
    ⟨⟨decNodeVerts 0 (nodePairs g), [], [], [], .null, (nodePairs g).length⟩,
      decNames 0 ((nodePairs g).map Prod.fst),
      (auxPairs g).map (fun q => (q.1, ([] : List Nat))), [], []⟩
    hVI1 hwfresh (wirePairs_keys_nodup g)
  have hwires : processWires
      ((wirePairs g).map (fun q => (q.1, wireEntry g q.2.1 q.2.2)))
      ⟨⟨decNodeVerts 0 (nodePairs g), [], [], [], .null, (nodePairs g).length⟩,
        decNames 0 ((nodePairs g).map Prod.fst),
        (auxPairs g).map (fun q => (q.1, ([] : List Nat))), [], []⟩
      = .ok ⟨⟨decNodeVerts 0 (nodePairs g)
            ++ decWireVerts g (nodePairs g).length (wirePairs g),
          [], [], [], .null, (nodePairs g).length + (wirePairs g).length⟩,
        decAllNames g,
        (auxPairs g).map (fun q => (q.1, ([] : List Nat))),
        decFlags g.inputs (nodePairs g).length (wirePairs g),
        decFlags g.outputs (nodePairs g).length (wirePairs g)⟩ := by
    rw [h3]
    simp only [List.nil_append, decAllNames]
  -- the edge pass
  have hφall : ∀ v ∈ g.verts.map Prod.fst,
      lookAssoc (decAllNames g) ((lookAssoc (encV g).2.2 v).getD "")
        = some (phiOf g v) := by
    intro v hv
    obtain ⟨p, hp, hpv⟩ := List.mem_map.mp hv
    rw [← hpv]
    exact phi_some_of_mem g hids p hp
  have hnotaux : ∀ v ∈ g.verts.map Prod.fst,
      ((lookAssoc (encV g).2.2 v).getD "") ∉ (auxPairs g).map Prod.fst := by
    intro v hv
    obtain ⟨p, hp, hpv⟩ := List.mem_map.mp hv
    rw [← hpv]
    exact encName_not_aux g hids p hp
  have hsimple_nodup :
      ((g.edgeList.filter (fun e => decide (e.2 = .SIMPLE))).map
        (fun e => pairKey (phiOf g e.1.1) (phiOf g e.1.2))).Nodup := by
    refine nodup_map_transport
      (List.Sublist.nodup (List.Sublist.map _ (List.filter_sublist _)) hpk) ?_
    intro x hx y hy hf
    exact pk_phi_inj g hids hep x (List.mem_of_mem_filter hx)
      y (List.mem_of_mem_filter hy) hf
  have hedges := processEdges_encoded g
    (encV g).2.2 (phiOf g) (decAllNames g) g.edgeList (auxPairs g) []
    ⟨⟨decNodeVerts 0 (nodePairs g)
        ++ decWireVerts g (nodePairs g).length (wirePairs g),
      [],
      decFlags g.inputs (nodePairs g).length (wirePairs g),
      decFlags g.outputs (nodePairs g).length (wirePairs g),
      .null, (nodePairs g).length + (wirePairs g).length⟩,
      decAllNames g,
      (auxPairs g).map (fun q => (q.1, ([] : List Nat))), []⟩
    rfl (by simp) (auxPairs_snd g) (auxPairs_keys_nodup g)
    (fun nm _ h => absurd h (List.not_mem_nil nm))
    (fun e he => ⟨hφall _ (hep e he).1, hφall _ (hep e he).2⟩)
    (fun e he => ⟨List.not_mem_nil _, hnotaux _ (hep e he).1,
      List.not_mem_nil _, hnotaux _ (hep e he).2⟩)
    (fun e _ _ => rfl)
    hsimple_nodup
  -- the stub post-pass
  have hstubfresh : ∀ q ∈ auxPairs g,
      lookAssoc (simpleTab (phiOf g) g.edgeList)
        (pairKey (phiOf g q.2.1) (phiOf g q.2.2)) = none := by
    intro q hq
    refine lookAssoc_eq_none_of_not_mem ?_
    rw [show (simpleTab (phiOf g) g.edgeList).map Prod.fst
        = (g.edgeList.filter (fun e => decide (e.2 = .SIMPLE))).map
            (fun e => pairKey (phiOf g e.1.1) (phiOf g e.1.2)) from by
      simp [simpleTab]]
    intro hmem
    obtain ⟨e', he', hkey⟩ := List.mem_map.mp hmem
    obtain ⟨e, he, hq2, hhad⟩ := auxPairs_mem g q hq
    have he'mem := List.mem_of_mem_filter he'
    have he'simple : e'.2 = .SIMPLE := by
      have := (List.mem_filter.mp he').2
      simpa using this
    have hpkeq : pairKey e'.1.1 e'.1.2 = pairKey e.1.1 e.1.2 := by
      refine pk_phi_inj g hids hep e' he'mem e he ?_
      rw [hkey, hq2]
    have : e' = e := map_nodup_inj hpk e' he'mem e he hpkeq
    rw [this, hhad] at he'simple
    exact absurd he'simple (by simp)
  have hhadkeys_nodup :
      ((auxPairs g).map
        (fun q => pairKey (phiOf g q.2.1) (phiOf g q.2.2))).Nodup := by
    have hrw : (auxPairs g).map
          (fun q => pairKey (phiOf g q.2.1) (phiOf g q.2.2))
        = ((auxPairs g).map Prod.snd).map
            (fun pr => pairKey (phiOf g pr.1) (phiOf g pr.2)) := by
      rw [List.map_map]
      rfl
    rw [hrw, auxPairs_snd, List.map_map]
    rw [show ((fun pr : Nat × Nat => pairKey (phiOf g pr.1) (phiOf g pr.2))
          ∘ fun e : (Nat × Nat) × EdgeType => e.1)
        = fun e : (Nat × Nat) × EdgeType
          => pairKey (phiOf g e.1.1) (phiOf g e.1.2) from rfl]
    refine nodup_map_transport
      (List.Sublist.nodup (List.Sublist.map _ (List.filter_sublist _)) hpk) ?_
    intro x hx y hy hf
    exact pk_phi_inj g hids hep x (List.mem_of_mem_filter hx)
      y (List.mem_of_mem_filter hy) hf
  have hch := checkHadamards_filled (phiOf g) (auxPairs g)
    (simpleTab (phiOf g) g.edgeList) hstubfresh hhadkeys_nodup
  -- the final edge-table insertion
  have hunits : ∀ p ∈ simpleTab (phiOf g) g.edgeList
      ++ hadTab (phiOf g) (auxPairs g),
      p.2 = ((1 : Nat), (0 : Nat)) ∨ p.2 = ((0 : Nat), (1 : Nat)) := by
    intro p hp
    rcases List.mem_append.mp hp with h | h
    · obtain ⟨e, _, he⟩ := List.mem_map.mp h
      left
      rw [← he]
    · obtain ⟨q, _, hq⟩ := List.mem_map.mp h
      right
      rw [← hq]
  -- assemble
  rw [json_to_graph]
  simp only [bind, Except.bind, jitems, lookAssoc, String.reduceEq, reduceIte,
    Option.getD_some, hnodes]
  rw [encV_wire_section, hwires]
  simp only [Graph.set_inputs, Graph.set_outputs]
  rw [encE_edge_vals, hedges]
  simp only [List.nil_append, List.append_nil, hch]
  rw [add_edge_table_units _ _ hunits]
  simp [Scalar.from_json, Scalar.to_json]

/-- Claim C1 (corrected): for a diagram whose vertex ids are distinct,
whose vertices carry no stored external names, whose edge endpoints are
vertices, whose phases have reduced numerator at least `-1`, whose
boundary vertices are plain (phase `0`, not grounded), whose input and
output sequences list exactly the flagged boundary vertices in iteration
order, and whose edges have pairwise distinct unordered endpoint pairs
(no parallel edges, whose fusion is the backend's unspecified rule),
decoding the encoding succeeds and yields a diagram isomorphic to the
original along the round trip's name correspondence: same multiset of
vertex kinds/phases/ground flags, same input/output sequences, same edge
multiset by kind, same scalar.  The unrestricted claim (\"for every
diagram\") is refuted by the counterexample: stored-name collisions lose
vertices. -/
theorem C1_roundtrip (g : Graph)
    (hids : (g.verts.map Prod.fst).Nodup)
    (hnn : ∀ p ∈ g.verts, storedName p.2 = none)
    (hep : ∀ e ∈ g.edgeList,
      e.1.1 ∈ g.verts.map Prod.fst ∧ e.1.2 ∈ g.verts.map Prod.fst)
    (hph : ∀ p ∈ g.verts, -1 ≤ p.2.phase.num)
    (hbnd : ∀ p ∈ g.verts, p.2.ty = .BOUNDARY
      → p.2.phase = 0 ∧ p.2.ground = false)
    (hin : g.inputs = ((wireList g.verts).map Prod.fst).filter
      (fun v => g.inputs.contains v))
    (hout : g.outputs = ((wireList g.verts).map Prod.fst).filter
      (fun v => g.outputs.contains v))
    (hpk : (g.edgeList.map (fun e => pairKey e.1.1 e.1.2)).Nodup) :
    ∃ doc g', graph_to_json g = .ok doc ∧ json_to_graph doc = .ok g'
      ∧ DiagramIso (phiOf g) g g' := by
  refine ⟨_, _, graph_to_json_noNames g hnn hep,
    json_decode_encoded g hids hep hph hpk, ?_, ?_, ?_, ?_, rfl⟩
  · -- vertex multiset
    show List.Perm
      ((decNodeVerts 0 (nodePairs g)
          ++ decWireVerts g (nodePairs g).length (wirePairs g)).map
        (fun p => (p.1, vertSig p.2)))
      (g.verts.map (fun p => (phiOf g p.1, vertSig p.2)))
    rw [List.map_append, nodeVerts_sig g hids, wireVerts_sig g hids hbnd,
      ← List.map_append]
    have hperm0 : List.Perm (nodeList g.verts ++ wireList g.verts) g.verts := by
      have h := List.filter_append_perm
        (fun p : Nat × GVert => !(decide (p.2.ty = .BOUNDARY))) g.verts
      simpa [nodeList, wireList, Bool.not_not] using h
    exact hperm0.map _
  · -- input sequence
    show decFlags g.inputs (nodePairs g).length (wirePairs g)
      = g.inputs.map (phiOf g)
    rw [decFlags_eq g.inputs (wirePairs g) (nodePairs g).length (phiOf g) (by
      intro j hj
      have hjL : j < (wireList g.verts).length := by
        rw [← wirePairs_length g]; exact hj
      rw [wirePairs_get g j hj]
      show phiOf g (((wireList g.verts).get ⟨j, hjL⟩).1) = _
      rw [(phi_wire_get g hids j hjL).1, nodePairs_length])]
    rw [show ((wirePairs g).map (fun q => q.2.1))
        = ((wirePairs g).map Prod.snd).map Prod.fst from by
      rw [List.map_map]; rfl]
    rw [wirePairs_snd]
    conv_rhs => rw [hin]
  · -- output sequence
    show decFlags g.outputs (nodePairs g).length (wirePairs g)
      = g.outputs.map (phiOf g)
    rw [decFlags_eq g.outputs (wirePairs g) (nodePairs g).length (phiOf g) (by
      intro j hj
      have hjL : j < (wireList g.verts).length := by
        rw [← wirePairs_length g]; exact hj
      rw [wirePairs_get g j hj]
      show phiOf g (((wireList g.verts).get ⟨j, hjL⟩).1) = _
      rw [(phi_wire_get g hids j hjL).1, nodePairs_length])]
    rw [show ((wirePairs g).map (fun q => q.2.1))
        = ((wirePairs g).map Prod.snd).map Prod.fst from by
      rw [List.map_map]; rfl]
    rw [wirePairs_snd]
    conv_rhs => rw [hout]
  · -- edge multiset
    show List.Perm
      ((wioEdges (phiOf g) g.edgeList
          ++ tabEdges (simpleTab (phiOf g) g.edgeList
              ++ hadTab (phiOf g) (auxPairs g))).map
        (fun e => (pairKey e.1.1 e.1.2, e.2)))
      (g.edgeList.map (fun e => (pairKey (phiOf g e.1.1) (phiOf g e.1.2), e.2)))
    rw [show tabEdges (simpleTab (phiOf g) g.edgeList
          ++ hadTab (phiOf g) (auxPairs g))
        = tabEdges (simpleTab (phiOf g) g.edgeList)
          ++ tabEdges (hadTab (phiOf g) (auxPairs g)) from by
      simp [tabEdges]]
    rw [List.map_append, List.map_append]
    rw [show (wioEdges (phiOf g) g.edgeList).map
          (fun e => (pairKey e.1.1 e.1.2, e.2))
        = wioEdges (phiOf g) g.edgeList from by
      rw [wioEdges, List.map_map]
      refine List.map_congr_left ?_
      intro e _
      simp [pairKey_norm]]
    rw [show (tabEdges (simpleTab (phiOf g) g.edgeList)).map
          (fun e => (pairKey e.1.1 e.1.2, e.2))
        = (g.edgeList.filter (fun e => decide (e.2 = .SIMPLE))).map
            (fun e => (pairKey (phiOf g e.1.1) (phiOf g e.1.2),
              EdgeType.SIMPLE)) from by
      rw [tabEdges, simpleTab, List.map_map, List.map_map]
      refine List.map_congr_left ?_
      intro e _
      simp [pairKey_norm]]
    rw [show (tabEdges (hadTab (phiOf g) (auxPairs g))).map
          (fun e => (pairKey e.1.1 e.1.2, e.2))
        = (hadList g.edgeList).map
            (fun e => (pairKey (phiOf g e.1.1) (phiOf g e.1.2),
              EdgeType.HADAMARD)) from by
      rw [show (tabEdges (hadTab (phiOf g) (auxPairs g))).map
            (fun e => (pairKey e.1.1 e.1.2, e.2))
          = (auxPairs g).map
              (fun q => (pairKey (phiOf g q.2.1) (phiOf g q.2.2),
                EdgeType.HADAMARD)) from by
        rw [tabEdges, hadTab, List.map_map, List.map_map]
        refine List.map_congr_left ?_
        intro q _
        simp [pairKey_norm]]
      rw [show ((auxPairs g).map
            (fun q => (pairKey (phiOf g q.2.1) (phiOf g q.2.2),
              EdgeType.HADAMARD)))
          = ((auxPairs g).map Prod.snd).map
              (fun pr => (pairKey (phiOf g pr.1) (phiOf g pr.2),
                EdgeType.HADAMARD)) from by
        rw [List.map_map]; rfl]
      rw [auxPairs_snd, List.map_map]
      rfl]
    have hpart := edges_partition (phiOf g) g.edgeList
    refine List.Perm.trans ?_ hpart
    simp [List.append_assoc]

/-- Witness for claim C1 at the concrete diagram `gC1w` (a Z-spider
wired to an output boundary by a plain edge): the round trip succeeds
and produces an isomorphic diagram. -/
theorem C1_roundtrip_witness :
    ∃ doc g', graph_to_json gC1w = .ok doc ∧ json_to_graph doc = .ok g'
      ∧ DiagramIso (phiOf gC1w) gC1w g' :=
  C1_roundtrip gC1w (by decide) (by decide) (by decide) (by decide)
    (by decide) (by decide) (by decide) (by decide)

/-- Counterexample to claim C1 as stated: the diagram `gC1` (two
X-spiders both storing external name `y`, every kind representable)
round-trips to a ONE-vertex diagram — the second entry overwrites the
first under the shared key — so no vertex correspondence makes the
decode of its encoding isomorphic to it. -/
theorem C1_roundtrip_counterexample :
    ∃ doc, graph_to_json gC1 = .ok doc
    ∧ json_to_graph doc
        = .ok (⟨[(0, ⟨.X, 0, 1, 0, false, [("name", .str "y")]⟩)],
            [], [], [], .null, 1⟩ : Graph)
    ∧ gC1.verts.length = 2
    ∧ ∀ φ : Nat → Nat, ¬ DiagramIso φ gC1
        (⟨[(0, ⟨.X, 0, 1, 0, false, [("name", .str "y")]⟩)],
          [], [], [], .null, 1⟩ : Graph) := by
  refine ⟨_, rfl, rfl, rfl, ?_⟩
  intro φ h
  have hlen := h.1.length_eq
  simp [gC1] at hlen

end PyzxJson
